import Mathlib

/-!
ZanRedisDB secondary indexes: local index manager, background builder and cluster
schema coordinator.

A shallow embedding of `rockredis/index_mgr.go`,
`cluster/pdnode_coord/pd_schema_coord.go` and the expire-time key codec of
`tools/data_tool/main.go`.

Conventions of the embedding.

* A Go `map[string]V` is an association list with distinct keys (`GoMap V`).
  Storing under a fresh key is `AList.insert`, `delete` is `AList.erase`, and a
  write through a stored pointer (`index.State = state`) is the in-place
  `AList.replace`, which keeps every other entry and the position of the entry.
* Go iterates a map in an unspecified order: every `range` over a map takes its
  order from a `RangeOrder`, an arbitrary permutation of the entries.
* `[]byte` and `string` values used as keys are both `String`; the conversions
  between them are the identity.
* Every method takes the receiver and the database handle as values and returns
  the new receiver and database together with the Go `error` (`none` is `nil`).
  The outcome of calls into code outside these files (protobuf `Marshal`, the
  storage engine, HTTP) is an explicit argument of the caller.
* Locks are not modelled: each method is one atomic step. Goroutines are
  recorded when they are started; the scan goroutine of the builder is a loop
  with fuel, one unit for each block.
* Pointers held in the maps of the index manager are taken to be non-nil, and a
  definition stored in a map is a copy: writes a caller makes later through a
  pointer it passed in are not modelled.
* The answer of a data node is a `map[string]*common.IndexSchema` decoded from
  the reply, and its entries may be nil: an entry is an `Option IndexSchema`
  with `none` for the nil pointer. Dereferencing a nil entry is a Go panic,
  which ends the pass: a function of the coordinator that can panic returns an
  `Option` with `none` for the panic, and `doSchemaCheck` returns the calls made
  before the panic together with a `panicked` flag.
* A byte is a natural number; `int64` and `uint64` values are an `Int` and a
  `Nat`, converted modulo `2 ^ 64`.
-/

namespace rockredis

/-- Modelled from the spec: the `IndexState` enum, declared outside the listed
sources; the data model orders it `Init → Building → BuildDone → Ready`, with
`Deleted` apart. -/
inductive IndexState where
  | InitIndex
  | BuildingIndex
  | BuildDoneIndex
  | ReadyIndex
  | DeletedIndex
  deriving DecidableEq, Repr

export IndexState (InitIndex BuildingIndex BuildDoneIndex ReadyIndex DeletedIndex)

/-- Go `error` values returned by the index manager. The first five are the
package-level errors; `external` stands for any error produced by `Marshal` or
by the storage engine. -/
inductive Error where
  | ErrIndexExist
  | ErrIndexNotExist
  | ErrIndexStateInvalidChange
  | ErrIndexDeleteNotInDeleted
  | ErrIndexClosed
  | external (code : Nat)
  deriving DecidableEq, Repr

export Error (ErrIndexExist ErrIndexNotExist ErrIndexStateInvalidChange
  ErrIndexDeleteNotInDeleted ErrIndexClosed)

/-- Go `map[string]V`. -/
abbrev GoMap (V : Type) := AList (fun _ : String => V)

/-- Order in which one `range` statement visits the entries of a map. -/
structure RangeOrder where
  order : {α : Type} → List α → List α
  perm : ∀ {α : Type} (l : List α), (order l).Perm l

/-- Range order that visits the entries as stored. -/
def RangeOrder.stored : RangeOrder where
  order := fun l => l
  perm := fun l => List.Perm.refl l

/-- Range order that visits the entries back to front. -/
def RangeOrder.backwards : RangeOrder where
  order := fun l => l.reverse
  perm := fun l => List.reverse_perm l

/-- Modelled from the spec: the persisted record of one index,
`{IndexField, Name, State}`; the protobuf message is declared outside the listed
sources. -/
structure HsetIndexInfo where
  Name : String
  IndexField : String
  State : IndexState
  deriving DecidableEq, Repr

/-- Modelled from the spec: the per-table blob, an ordered list of index records.
The bytes produced by `HsetIndexList.Marshal` are represented by the list they
encode ("serialized once and read back verbatim"). -/
structure HsetIndexList where
  HsetIndexes : List HsetIndexInfo
  deriving DecidableEq, Repr

/-- Go `HsetIndex`: the table name and the embedded `HsetIndexInfo`. -/
structure HsetIndex where
  Table : String
  info : HsetIndexInfo
  deriving DecidableEq, Repr

/-- Promoted field `IndexField` of the embedded `HsetIndexInfo`. -/
def HsetIndex.IndexField (h : HsetIndex) : String := h.info.IndexField

/-- Promoted field `Name` of the embedded `HsetIndexInfo`. -/
def HsetIndex.Name (h : HsetIndex) : String := h.info.Name

/-- Promoted field `State` of the embedded `HsetIndexInfo`. -/
def HsetIndex.State (h : HsetIndex) : IndexState := h.info.State

/-- Assignment `h.State = s`. -/
def HsetIndex.setState (h : HsetIndex) (s : IndexState) : HsetIndex :=
  { h with info := { h.info with State := s } }

/-- Go `JsonIndex`, an empty struct. -/
structure JsonIndex where
  deriving DecidableEq, Repr

/-- Go `TableIndexContainer`. -/
structure TableIndexContainer where
  hsetIndexes : GoMap HsetIndex
  jsonIndexes : GoMap JsonIndex
  deriving DecidableEq

/-- Go `NewIndexContainer`. -/
def NewIndexContainer : TableIndexContainer :=
  { hsetIndexes := ∅, jsonIndexes := ∅ }

/-- Outcome of the calls one manager method makes into code outside the file:
the order of its `range` over the container, the error of `Marshal` and the
error of `SetTableHsetIndexValue` (`none` is success). -/
structure CallEnv where
  range : RangeOrder
  marshalErr : Option Error
  setErr : Option Error

/-- Environment in which `Marshal` and the durable write both succeed. -/
def CallEnv.ok : CallEnv :=
  { range := RangeOrder.stored, marshalErr := none, setErr := none }

/-- Environment in which `Marshal` succeeds and the durable write fails. -/
def CallEnv.writeFails : CallEnv :=
  { range := RangeOrder.stored, marshalErr := none, setErr := some (Error.external 1) }

/-- Environment in which `Marshal` fails. -/
def CallEnv.marshalFails : CallEnv :=
  { range := RangeOrder.stored, marshalErr := some (Error.external 2), setErr := none }

/-- The list `marshalHsetIndexes` builds before calling `Marshal`: the
`HsetIndexInfo` of every stored index, in range order. -/
def TableIndexContainer.indexList (self : TableIndexContainer) (range : RangeOrder) :
    HsetIndexList :=
  { HsetIndexes := (range.order self.hsetIndexes.entries).map (fun e => e.2.info) }

/-- Go `TableIndexContainer.marshalHsetIndexes`. -/
def TableIndexContainer.marshalHsetIndexes (self : TableIndexContainer) (env : CallEnv) :
    Except Error HsetIndexList :=
  let indexList := self.indexList env.range
  match env.marshalErr with
  | some err => .error err
  | none => .ok indexList

/-- Body of the loop of `unmarshalHsetIndexes`: store each decoded record under
its `IndexField`, with `Table` set. -/
def loadHsetIndexes (table : String) : List HsetIndexInfo → GoMap HsetIndex → GoMap HsetIndex
  | [], m => m
  | v :: vs, m => loadHsetIndexes table vs (m.insert v.IndexField { Table := table, info := v })

/-- Go `TableIndexContainer.unmarshalHsetIndexes`; `unmarshalErr` is the error of
`HsetIndexList.Unmarshal`. -/
def TableIndexContainer.unmarshalHsetIndexes (self : TableIndexContainer) (table : String)
    (data : HsetIndexList) (unmarshalErr : Option Error) : TableIndexContainer × Option Error :=
  match unmarshalErr with
  | some err => (self, some err)
  | none => ({ self with hsetIndexes := loadHsetIndexes table data.HsetIndexes ∅ }, none)

/-- Modelled from the spec: the part of the storage engine the manager uses,
`ReadTableIndexBlob` / `WriteTableIndexBlob`: one blob per table. `RockDB` is
declared outside the listed sources. `writes` is a ghost counter of the blobs
written so far; it tells a call that wrote a blob from one that wrote none. -/
structure RockDB where
  hsetIndexValues : GoMap HsetIndexList
  writes : Nat
  deriving DecidableEq

/-- Modelled from the spec: `WriteTableIndexBlob(table, bytes)`. A failed write
leaves the stored blob as it was. -/
def RockDB.SetTableHsetIndexValue (db : RockDB) (table : String) (d : HsetIndexList)
    (setErr : Option Error) : RockDB × Option Error :=
  match setErr with
  | some err => (db, some err)
  | none =>
    ({ hsetIndexValues := db.hsetIndexValues.insert table d, writes := db.writes + 1 }, none)

/-- Modelled from the spec: `ReadTableIndexBlob(table)`; `none` is the `nil`
blob of a table without one. -/
def RockDB.GetTableHsetIndexValue (db : RockDB) (table : String) (getErr : Option Error) :
    Except Error (Option HsetIndexList) :=
  match getErr with
  | some err => .error err
  | none => .ok (db.hsetIndexValues.lookup table)

/-- Modelled from the spec: the tables that have a persisted index blob, in the
order the engine yields them. -/
def RockDB.GetHsetIndexTables (db : RockDB) (range : RangeOrder) : List String :=
  range.order db.hsetIndexValues.keys

/-- Go channel `closeChan`. -/
inductive CloseChan where
  | nil
  | running
  | closed
  deriving DecidableEq, Repr

/-- Goroutines started by the manager (each one a `wg.Add(1)`). -/
inductive Worker where
  | buildIndexes
  | cleanAll (table field : String)
  deriving DecidableEq, Repr

/-- Go `IndexMgr`. `indexBuildChan` is the number of values buffered in the
channel; `workers` lists the goroutines started and not yet waited for. -/
structure IndexMgr where
  tableIndexes : GoMap TableIndexContainer
  closeChan : CloseChan
  indexBuildChan : Nat
  workers : List Worker
  deriving DecidableEq

/-- Capacity of `indexBuildChan`: `make(chan int, 10)`. -/
def indexBuildChanCap : Nat := 10

/-- Go `NewIndexMgr`. -/
def NewIndexMgr : IndexMgr :=
  { tableIndexes := ∅, closeChan := CloseChan.nil, indexBuildChan := 0, workers := [] }

/-- Non-blocking send `select { case self.indexBuildChan <- 1: default: }`. -/
def IndexMgr.trySignalBuild (self : IndexMgr) : IndexMgr :=
  if self.indexBuildChan < indexBuildChanCap then
    { self with indexBuildChan := self.indexBuildChan + 1 }
  else self

/-- Effect on the manager of a write through the pointer `indexes` held in
`tableIndexes[table]`. -/
def IndexMgr.setContainer (self : IndexMgr) (table : String) (indexes : TableIndexContainer) :
    IndexMgr :=
  { self with tableIndexes := self.tableIndexes.replace table indexes }

/-- Effect on the container of a write `index.State = s` through the pointer
stored under `field`. -/
def TableIndexContainer.setIndex (self : TableIndexContainer) (field : String)
    (index : HsetIndex) : TableIndexContainer :=
  { self with hsetIndexes := self.hsetIndexes.replace field index }

/-- Outcome of the calls `LoadIndexes` makes into code outside the file: the
order in which the engine yields the tables, and per table the error of
`GetTableHsetIndexValue` and of `Unmarshal`. -/
structure LoadEnv where
  range : RangeOrder
  getErr : String → Option Error
  unmarshalErr : String → Option Error

/-- Environment in which every read and every decode succeeds. -/
def LoadEnv.ok : LoadEnv :=
  { range := RangeOrder.stored, getErr := fun _ => none, unmarshalErr := fun _ => none }

/-- Environment in which no blob can be read. -/
def LoadEnv.readFails : LoadEnv :=
  { range := RangeOrder.stored, getErr := fun _ => some (Error.external 3),
    unmarshalErr := fun _ => none }

/-- Loop `for t := range tables` of `LoadIndexes`: a table whose blob cannot be
read or is `nil` is skipped, a blob that does not decode ends the whole call with
the error, every other table is stored in `tableIndexes`. -/
def IndexMgr.loadTables (self : IndexMgr) (db : RockDB) (env : LoadEnv) :
    List String → IndexMgr × Option Error
  | [] => (self, none)
  | t :: ts =>
    match db.GetTableHsetIndexValue t (env.getErr t) with
    | .error _ => self.loadTables db env ts
    | .ok none => self.loadTables db env ts
    | .ok (some d) =>
      match NewIndexContainer.unmarshalHsetIndexes t d (env.unmarshalErr t) with
      | (_, some err) => (self, some err)
      | (indexes, none) =>
        IndexMgr.loadTables { self with tableIndexes := self.tableIndexes.insert t indexes }
          db env ts

/-- Go `IndexMgr.LoadIndexes`. After the tables are loaded the previous
`closeChan` is closed if there is one, a fresh one is made, the builder loop is
started and a build signal is sent without blocking. -/
def IndexMgr.LoadIndexes (self : IndexMgr) (db : RockDB) (env : LoadEnv) :
    IndexMgr × Option Error :=
  match self.loadTables db env (db.GetHsetIndexTables env.range) with
  | (self1, some err) => (self1, some err)
  | (self1, none) =>
    let self2 : IndexMgr :=
      { self1 with closeChan := CloseChan.running,
                   workers := self1.workers ++ [Worker.buildIndexes] }
    (self2.trySignalBuild, none)

/-- Go `IndexMgr.Close`. The map is replaced by an empty one and `closeChan`, if
not `nil`, is closed (it is not set back to `nil`). `wg.Wait()` returns once all
workers have exited; what the workers do before exiting is not part of this
sequential step. -/
def IndexMgr.Close (self : IndexMgr) : IndexMgr :=
  { self with
    tableIndexes := ∅,
    closeChan := match self.closeChan with
      | CloseChan.nil => CloseChan.nil
      | CloseChan.running => CloseChan.closed
      | CloseChan.closed => CloseChan.closed,
    workers := [] }

/-- Go `IndexMgr.AddHsetIndex`. The third component of the result is the struct
behind the caller's pointer `hindex` after the call. -/
def IndexMgr.AddHsetIndex (self : IndexMgr) (db : RockDB) (hindex : HsetIndex) (env : CallEnv) :
    IndexMgr × RockDB × HsetIndex × Option Error :=
  -- indexes, ok := self.tableIndexes[table]; if !ok: register a new container
  let reg : IndexMgr × TableIndexContainer :=
    match self.tableIndexes.lookup hindex.Table with
    | some indexes => (self, indexes)
    | none =>
      ({ self with tableIndexes := self.tableIndexes.insert hindex.Table NewIndexContainer },
        NewIndexContainer)
  let self1 := reg.1
  let indexes := reg.2
  match indexes.hsetIndexes.lookup hindex.IndexField with
  | some _ => (self1, db, hindex, some ErrIndexExist)
  | none =>
    let hindex1 := hindex.setState InitIndex
    let indexes1 : TableIndexContainer :=
      { indexes with hsetIndexes := indexes.hsetIndexes.insert hindex.IndexField hindex1 }
    let rolledBack : TableIndexContainer :=
      { indexes1 with hsetIndexes := indexes1.hsetIndexes.erase hindex.IndexField }
    match indexes1.marshalHsetIndexes env with
    | .error err => (self1.setContainer hindex.Table rolledBack, db, hindex1, some err)
    | .ok d =>
      match db.SetTableHsetIndexValue hindex.Table d env.setErr with
      | (db1, some err) => (self1.setContainer hindex.Table rolledBack, db1, hindex1, some err)
      | (db1, none) => (self1.setContainer hindex.Table indexes1, db1, hindex1, none)

/-- Go `IndexMgr.UpdateHsetIndexState`. -/
def IndexMgr.UpdateHsetIndexState (self : IndexMgr) (db : RockDB) (table field : String)
    (state : IndexState) (env : CallEnv) : IndexMgr × RockDB × Option Error :=
  let isClosed := decide (self.closeChan = CloseChan.nil)
  match self.tableIndexes.lookup table with
  | none => (self, db, some ErrIndexNotExist)
  | some indexes =>
    if isClosed then (self, db, some ErrIndexClosed)
    else
      match indexes.hsetIndexes.lookup field with
      | none => (self, db, some ErrIndexNotExist)
      | some index =>
        if index.State = state then (self, db, none)
        else
          let oldState := index.State
          let index1 := index.setState state
          let indexes1 := indexes.setIndex field index1
          let rolledBack := indexes1.setIndex field (index1.setState oldState)
          match indexes1.marshalHsetIndexes env with
          | .error err => (self.setContainer table rolledBack, db, some err)
          | .ok d =>
            match db.SetTableHsetIndexValue table d env.setErr with
            | (db1, some err) => (self.setContainer table rolledBack, db1, some err)
            | (db1, none) =>
              let self1 := self.setContainer table indexes1
              if index1.State = DeletedIndex then
                ({ self1 with
                   workers := self1.workers ++ [Worker.cleanAll index1.Table index1.IndexField] },
                  db1, none)
              else if index1.State = BuildingIndex then (self1.trySignalBuild, db1, none)
              else (self1, db1, none)

/-- Go `IndexMgr.deleteHsetIndex`. -/
def IndexMgr.deleteHsetIndex (self : IndexMgr) (db : RockDB) (table field : String)
    (env : CallEnv) : IndexMgr × RockDB × Option Error :=
  match self.tableIndexes.lookup table with
  | none => (self, db, some ErrIndexNotExist)
  | some indexes =>
    match indexes.hsetIndexes.lookup field with
    | none => (self, db, some ErrIndexNotExist)
    | some hindex =>
      if hindex.State ≠ DeletedIndex then (self, db, some ErrIndexDeleteNotInDeleted)
      else
        let indexes1 : TableIndexContainer :=
          { indexes with hsetIndexes := indexes.hsetIndexes.erase field }
        let self1 := self.setContainer table indexes1
        match indexes1.marshalHsetIndexes env with
        | .error err => (self1, db, some err)
        | .ok d =>
          match db.SetTableHsetIndexValue table d env.setErr with
          | (db1, some err) => (self1, db1, some err)
          | (db1, none) => (self1, db1, none)

/-- Go `IndexMgr.GetHsetIndex`. -/
def IndexMgr.GetHsetIndex (self : IndexMgr) (table field : String) : Except Error HsetIndex :=
  match self.tableIndexes.lookup table with
  | none => .error ErrIndexNotExist
  | some indexes =>
    match indexes.hsetIndexes.lookup field with
    | none => .error ErrIndexNotExist
    | some index => .ok index

/-- The manager after the first statements of `AddHsetIndex` (the lookup of
`tableIndexes[table]` that registers a new container when there is none). -/
def IndexMgr.registered (self : IndexMgr) (table : String) : IndexMgr :=
  match self.tableIndexes.lookup table with
  | some _ => self
  | none => { self with tableIndexes := self.tableIndexes.insert table NewIndexContainer }

/-- The container `indexes` that `AddHsetIndex` works on after that lookup. -/
def IndexMgr.containerOf (self : IndexMgr) (table : String) : TableIndexContainer :=
  (self.tableIndexes.lookup table).getD NewIndexContainer

/-- Every definition stored in the container is stored under its own
`IndexField` and carries `table` as its `Table`. -/
def TableIndexContainer.keyedFor (self : TableIndexContainer) (table : String) : Prop :=
  ∀ field index, self.hsetIndexes.lookup field = some index →
    index.IndexField = field ∧ index.Table = table

/-- Decoding of a table's durable blob as `unmarshalHsetIndexes` performs it on
load: the field-to-definition map the blob stands for (`none` when the table has
no blob). -/
def RockDB.decodedIndexes (db : RockDB) (table : String) : Option (GoMap HsetIndex) :=
  (db.hsetIndexValues.lookup table).map (fun d => loadHsetIndexes table d.HsetIndexes ∅)

/-- The durable blob of `table` decodes to exactly the definitions the manager
holds in memory for `table`: same fields, same definition under each field. -/
def blobMatchesMemory (self : IndexMgr) (db : RockDB) (table : String) : Prop :=
  ∃ indexes m, self.tableIndexes.lookup table = some indexes ∧
    db.decodedIndexes table = some m ∧
    ∀ field, m.lookup field = indexes.hsetIndexes.lookup field

/-- Loop `for _, hindex := range v.hsetIndexes` of `dobuildIndexes`: the indexes
in `Building` are appended to `tmpHsetIndexes`. -/
def appendBuilding (tmpHsetIndexes : List HsetIndex) : List HsetIndex → List HsetIndex
  | [] => tmpHsetIndexes
  | hindex :: rest =>
    if hindex.State = BuildingIndex then appendBuilding (tmpHsetIndexes ++ [hindex]) rest
    else appendBuilding tmpHsetIndexes rest

/-- One scan goroutine started by `dobuildIndexes`: the table it scans and the
`fields` it captured. -/
structure BuildTask where
  buildTable : String
  fields : List String
  deriving DecidableEq, Repr

/-- Loop `for table, v := range self.tableIndexes` of `dobuildIndexes`, from the
value `tmpHsetIndexes` has when the loop reaches the listed tables: the
goroutines started, in order. `tmpHsetIndexes` is declared before the loop and
carried from one table to the next; a goroutine is started for every table. -/
def launchTasks (range : RangeOrder) :
    List (Sigma fun _ : String => TableIndexContainer) → List HsetIndex → List BuildTask
  | [], _ => []
  | ⟨table, v⟩ :: rest, tmpHsetIndexes =>
    let tmp1 := appendBuilding tmpHsetIndexes ((range.order v.hsetIndexes.entries).map (fun e => e.2))
    let fields := tmp1.map (fun hindex => hindex.IndexField)
    { buildTable := table, fields := fields } :: launchTasks range rest tmp1

/-- Go `IndexMgr.dobuildIndexes`, the part that runs under the manager lock: the
scan goroutines it starts (the body of each goroutine is `scanTable`). -/
def IndexMgr.dobuildIndexes (self : IndexMgr) (range : RangeOrder) : List BuildTask :=
  launchTasks range (range.order self.tableIndexes.entries) []

/-- The scan tasks one wake should start: one for each table with at least one
index in `Building`, with the fields of that table's own indexes in
`Building`. -/
def expectedTasks (self : IndexMgr) (range : RangeOrder) : List BuildTask :=
  (range.order self.tableIndexes.entries).filterMap (fun e =>
    let building := (range.order e.2.hsetIndexes.entries).filter
      (fun i => decide (i.2.State = BuildingIndex))
    if building = [] then none
    else some { buildTable := e.1, fields := building.map (fun i => i.2.IndexField) })

/-- Byte-wise lexicographic order of two keys, `bytes.Compare(a, b) < 0`. -/
def bytesLess : List Char → List Char → Bool
  | _, [] => false
  | [], _ :: _ => true
  | a :: as, b :: bs =>
    if a.toNat < b.toNat then true
    else if b.toNat < a.toNat then false
    else bytesLess as bs

/-- Order of the keys of the storage engine. -/
def keyLess (a b : String) : Bool := bytesLess a.data b.data

/-- Modelled from the spec: what the scan of one table reads from outside,
`ScanPrimaryKeys(tableType, cursorKey, limit, pattern) → keys` and the value of
the package variable `buildIndexBlock` (1000 unless changed). `hashKeys` is the
finite set of primary keys of the hash type, in ascending order; `stopped n`
tells whether `stopChan` is closed when block `n` starts; the three error
fields are the errors of `Scan` for block `n`, of `HMget` and of
`hsetIndexAddFieldRecs` for a key (`none` is success). -/
structure ScanEnv where
  hashKeys : List String
  buildIndexBlock : Nat
  stopped : Nat → Bool
  scanErr : Nat → Option Error
  hmgetErr : String → Option Error
  addFieldRecsErr : String → Option Error

/-- Modelled from the spec: `db.Scan(common.HASH, cursor, count, "")` returns at
most `count` keys strictly greater than the cursor, in ascending order. -/
def ScanEnv.Scan (env : ScanEnv) (block : Nat) (cursor : String) (count : Nat) :
    Except Error (List String) :=
  match env.scanErr block with
  | some err => .error err
  | none => .ok ((env.hashKeys.filter (fun k => keyLess cursor k)).take count)

/-- State of the scan of one table between two blocks: the cursor, the write
batches committed so far (each one the keys handed to `hsetIndexAddFieldRecs`
in one block, oldest first) and the number of blocks started. -/
structure ScanState where
  cursor : String
  batches : List (List String)
  blocks : Nat
  deriving DecidableEq, Repr

/-- Loop `for _, pk := range pkList` of the scan: the cursor and the write batch
when the loop ends, or the error that ends the scan. A key without the prefix
`buildTable` sets the cursor to `nil` (the empty string) and ends the loop. -/
def scanKeys (env : ScanEnv) (buildTable : String) :
    List String → String → List String → Except Error (String × List String)
  | [], cursor, wb => .ok (cursor, wb)
  | pk :: rest, _, wb =>
    if !(buildTable.data.isPrefixOf pk.data) then .ok ("", wb)
    else
      match env.hmgetErr pk with
      | some err => .error err
      | none =>
        match env.addFieldRecsErr pk with
        | some err => .error err
        | none => scanKeys env buildTable rest pk (wb ++ [pk])

/-- Body of the loop of the scan goroutine for one block: the values `done` and
`err` it returns and the state afterwards. -/
def scanBlock (env : ScanEnv) (buildTable : String) (s : ScanState) :
    Bool × Option Error × ScanState :=
  if env.stopped s.blocks then (true, some ErrIndexClosed, s)
  else
    match env.Scan s.blocks s.cursor env.buildIndexBlock with
    | .error err => (true, some err, { s with blocks := s.blocks + 1 })
    | .ok pkList =>
      match scanKeys env buildTable pkList s.cursor [] with
      | .error err => (true, some err, { s with blocks := s.blocks + 1 })
      | .ok (cursor, wb) =>
        let s1 : ScanState :=
          { cursor := cursor, batches := s.batches ++ [wb], blocks := s.blocks + 1 }
        if cursor.length = 0 then (true, none, s1) else (false, none, s1)

/-- The loop `for { ... if done { break } }` of the scan goroutine, run for at
most `fuel` blocks: the error and state with which it breaks, or `none` when it
is still running after `fuel` blocks. -/
def scanLoop (env : ScanEnv) (buildTable : String) : Nat → ScanState →
    Option (Option Error × ScanState)
  | 0, _ => none
  | fuel + 1, s =>
    match scanBlock env buildTable s with
    | (true, err, s1) => some (err, s1)
    | (false, _, s1) => scanLoop env buildTable fuel s1

/-- The scan goroutine of `dobuildIndexes` for `buildTable`, from the cursor
`buildTable + ":"`. -/
def scanTable (env : ScanEnv) (buildTable : String) (fuel : Nat) :
    Option (Option Error × ScanState) :=
  scanLoop env buildTable fuel { cursor := buildTable ++ ":", batches := [], blocks := 0 }

/-- Scan environment over the given keys with blocks of `block` keys, in which
nothing fails and the stop signal never fires. -/
def ScanEnv.quiet (keys : List String) (block : Nat) : ScanEnv :=
  { hashKeys := keys, buildIndexBlock := block, stopped := fun _ => false,
    scanErr := fun _ => none, hmgetErr := fun _ => none, addFieldRecsErr := fun _ => none }

/-- One call on the manager, with the outcome of its calls into outside code. -/
inductive Op where
  | LoadIndexes (env : LoadEnv)
  | Close
  | AddHsetIndex (hindex : HsetIndex) (env : CallEnv)
  | UpdateHsetIndexState (table field : String) (state : IndexState) (env : CallEnv)
  | deleteHsetIndex (table field : String) (env : CallEnv)

/-- Manager and database after one call. -/
def step (s : IndexMgr × RockDB) : Op → IndexMgr × RockDB
  | Op.LoadIndexes env => ((s.1.LoadIndexes s.2 env).1, s.2)
  | Op.Close => (s.1.Close, s.2)
  | Op.AddHsetIndex hindex env =>
    ((s.1.AddHsetIndex s.2 hindex env).1, (s.1.AddHsetIndex s.2 hindex env).2.1)
  | Op.UpdateHsetIndexState table field state env =>
    ((s.1.UpdateHsetIndexState s.2 table field state env).1,
      (s.1.UpdateHsetIndexState s.2 table field state env).2.1)
  | Op.deleteHsetIndex table field env =>
    ((s.1.deleteHsetIndex s.2 table field env).1, (s.1.deleteHsetIndex s.2 table field env).2.1)

/-- Manager and database reached from a new manager (`NewIndexMgr`) and the
database `db` by a sequence of calls, with no builder loop or cleanup worker
running in between. -/
def run (db : RockDB) (ops : List Op) : IndexMgr × RockDB :=
  ops.foldl step (NewIndexMgr, db)

/-- The container `LoadIndexes` builds for a table: none when the blob cannot be
read or is `nil`, otherwise a new container holding the decoded definitions. -/
def loadedContainer (db : RockDB) (env : LoadEnv) (t : String) : Option TableIndexContainer :=
  match env.getErr t with
  | some _ => none
  | none =>
    (db.hsetIndexValues.lookup t).map
      (fun d => { hsetIndexes := loadHsetIndexes t d.HsetIndexes ∅, jsonIndexes := ∅ })

/-- Every container of the manager is keyed for the table it is stored under. -/
def IndexMgr.keyed (self : IndexMgr) : Prop :=
  ∀ table indexes, self.tableIndexes.lookup table = some indexes → indexes.keyedFor table

end rockredis

namespace pdnode_coord

open rockredis

/-- Go `map[int]V`. -/
abbrev IntMap (V : Type) := AList (fun _ : Int => V)

/-- Modelled from the spec: one index entry of a table schema as the
coordinator reads it (`common.HsetIndexSchema`, declared outside the listed
sources): its name, field and state. -/
structure HsetIndexSchema where
  Name : String
  IndexField : String
  State : IndexState
  deriving DecidableEq, Repr

/-- Modelled from the spec: `common.JsonIndexSchema`, of which the coordinator
reads nothing. -/
structure JsonIndexSchema where
  deriving DecidableEq, Repr

/-- Modelled from the spec: `common.IndexSchema`, the decoded schema payload of
one table. -/
structure IndexSchema where
  HsetIndexes : List HsetIndexSchema
  JsonIndexes : List JsonIndexSchema
  deriving DecidableEq, Repr

/-- Modelled from the spec: the registry record of one table, a raw schema
payload (`[]byte`) and its version. -/
structure SchemaInfo where
  Schema : List Nat
  Epoch : Int
  deriving DecidableEq, Repr

/-- Modelled from the spec: the fields of `PartitionMetaInfo` the coordinator
reads: the expected partition count and the replica list. -/
structure PartitionMetaInfo where
  PartitionNum : Int
  RaftNodes : List String
  deriving DecidableEq, Repr

/-- Errors seen by the coordinator. -/
inductive CoordErr where
  | ErrKeyNotFound
  | other (code : Nat)
  deriving DecidableEq, Repr

/-- Everything outside the file that one `doSchemaCheck` pass reads.
`allNamespaces` and `namespaceSchemas` are the answers of the register,
`apiRequest remoteNode ns table` is the answer of the HTTP query
`GET /indexes/ns/table` sent to `remoteNode`, decoded into a
`map[string]*common.IndexSchema` in which `none` is a nil pointer (a JSON
`null`), `jsonUnmarshal` decodes a schema payload (`none` when it is malformed)
and `range` orders each `range` over a map. -/
structure World where
  allNamespaces : Except CoordErr (GoMap (IntMap PartitionMetaInfo))
  namespaceSchemas : String → Except CoordErr (GoMap SchemaInfo)
  apiRequest : String → String → String → Except CoordErr (GoMap (Option IndexSchema))
  jsonUnmarshal : List Nat → Option IndexSchema
  range : RangeOrder

/-- One call `self.register.UpdateNamespaceSchema(ns, table, schemaInfo)`. -/
structure UpdateCall where
  ns : String
  table : String
  schemaInfo : SchemaInfo
  deriving DecidableEq, Repr

/-- What a part of a `doSchemaCheck` pass has done when it ends: the calls to
`UpdateNamespaceSchema` it made, in order, and whether it ended in a panic (a
nil pointer dereference; nothing in the file recovers from it, so the pass
stops there). -/
structure PassResult where
  calls : List UpdateCall
  panicked : Bool
  deriving DecidableEq, Repr

/-- A part of the pass that makes no call and does not panic. -/
def PassResult.nothing : PassResult := { calls := [], panicked := false }

/-- Go `getIndexSchemasFromDataNode`. -/
def getIndexSchemasFromDataNode (w : World) (remoteNode ns table : String) :
    Except CoordErr (GoMap (Option IndexSchema)) :=
  match w.apiRequest remoteNode ns table with
  | .error err => .error err
  | .ok rsp => .ok rsp

/-- Inner loop of `isAllPartsIndexSchemaReady`: the value of `isSame` after
scanning the partition's index list, which stops at the first entry with the
name. -/
def partIndexIsSame (name : String) (expectedState : IndexState) : List HsetIndexSchema → Bool
  | [] => false
  | partIndex :: rest =>
    if partIndex.Name = name then decide (partIndex.State = expectedState)
    else partIndexIsSame name expectedState rest

/-- Outer loop of `isAllPartsIndexSchemaReady` over the partitions in range
order: the value of `allDone`, or `none` when the loop panics. The loop breaks
at the first partition that lacks the table or does not agree; a partition whose
entry for the table is a nil pointer makes `s.HsetIndexes` panic, as there is no
nil test after the lookup. -/
def allPartsIsSame (table name : String) (expectedState : IndexState) :
    List (GoMap (Option IndexSchema)) → Option Bool
  | [] => some true
  | partSchema :: rest =>
    match partSchema.lookup table with
    | none => some false
    | some none => none
    | some (some s) =>
      if !partIndexIsSame name expectedState s.HsetIndexes then some false
      else allPartsIsSame table name expectedState rest

/-- Go `isAllPartsIndexSchemaReady`: the value returned, or `none` when the call
panics. -/
def isAllPartsIndexSchemaReady (range : RangeOrder)
    (allPartsSchema : IntMap (GoMap (Option IndexSchema)))
    (table name : String) (expectedState : IndexState) : Option Bool :=
  allPartsIsSame table name expectedState
    ((range.order allPartsSchema.entries).map (fun e => e.2))

/-- Loop `for pid, part := range parts` of `doSchemaCheck`: the values of
`isReady` and `allPartsSchema` when the loop ends. -/
def collectPartsSchema (w : World) (ns : String) :
    List (Sigma fun _ : Int => PartitionMetaInfo) → IntMap (GoMap (Option IndexSchema)) →
      Bool × IntMap (GoMap (Option IndexSchema))
  | [], acc => (true, acc)
  | ⟨pid, part⟩ :: rest, acc =>
    match part.RaftNodes with
    | [] => (false, acc)
    | node :: _ =>
      match getIndexSchemasFromDataNode w node ns "" with
      | .error _ => (false, acc)
      | .ok schemas => collectPartsSchema w ns rest (acc.insert pid schemas)

/-- Loop `for _, hindex := range indexes.HsetIndexes` of `doSchemaCheck`: the
value of `schemaChanged` and the decoded index list after the loop, or `none`
when a call of `isAllPartsIndexSchemaReady` panics. -/
def advanceHsetIndexes (range : RangeOrder)
    (allPartsSchema : IntMap (GoMap (Option IndexSchema)))
    (table : String) : List HsetIndexSchema → Option (Bool × List HsetIndexSchema)
  | [] => some (false, [])
  | hindex :: rest =>
    match hindex.State with
    | InitIndex =>
      match isAllPartsIndexSchemaReady range allPartsSchema table hindex.Name InitIndex with
      | none => none
      | some ready =>
        match advanceHsetIndexes range allPartsSchema table rest with
        | none => none
        | some tail =>
          if ready then some (true, { hindex with State := BuildingIndex } :: tail.2)
          else some (tail.1, hindex :: tail.2)
    | BuildingIndex =>
      match isAllPartsIndexSchemaReady range allPartsSchema table hindex.Name BuildDoneIndex with
      | none => none
      | some ready =>
        match advanceHsetIndexes range allPartsSchema table rest with
        | none => none
        | some tail =>
          if ready then some (true, { hindex with State := ReadyIndex } :: tail.2)
          else some (tail.1, hindex :: tail.2)
    | _ =>
      match advanceHsetIndexes range allPartsSchema table rest with
      | none => none
      | some tail => some (tail.1, hindex :: tail.2)

/-- Body of the loop `for table, schemaInfo := range schemas` of
`doSchemaCheck`: the call to `UpdateNamespaceSchema` it makes, if any, or `none`
when it panics. `newSchemaInfo` is copied from `schemaInfo` before the index
loop and is not assigned afterwards. -/
def checkTable (w : World) (allPartsSchema : IntMap (GoMap (Option IndexSchema)))
    (ns table : String) (schemaInfo : SchemaInfo) : Option (Option UpdateCall) :=
  match w.jsonUnmarshal schemaInfo.Schema with
  | none => some none
  | some indexes =>
    let newSchemaInfo := schemaInfo
    match advanceHsetIndexes w.range allPartsSchema table indexes.HsetIndexes with
    | none => none
    | some advanced =>
      let schemaChanged := advanced.1
      if schemaChanged then some (some { ns := ns, table := table, schemaInfo := newSchemaInfo })
      else some none

/-- Loop `for table, schemaInfo := range schemas` of `doSchemaCheck` over the
listed tables: the calls made, up to the table at which the loop panics. -/
def checkTables (w : World) (allPartsSchema : IntMap (GoMap (Option IndexSchema)))
    (ns : String) : List (Sigma fun _ : String => SchemaInfo) → PassResult
  | [] => PassResult.nothing
  | ⟨table, schemaInfo⟩ :: rest =>
    match checkTable w allPartsSchema ns table schemaInfo with
    | none => { calls := [], panicked := true }
    | some call =>
      { calls := call.toList ++ (checkTables w allPartsSchema ns rest).calls,
        panicked := (checkTables w allPartsSchema ns rest).panicked }

/-- Body of the loop `for ns, parts := range allNamespaces` of `doSchemaCheck`:
what the pass does for one namespace. -/
def checkNamespace (w : World) (ns : String) (parts : IntMap PartitionMetaInfo) :
    PassResult :=
  match w.namespaceSchemas ns with
  | .error _ => PassResult.nothing
  | .ok schemas =>
    let partitionNum : Int := ((parts.lookup 0).map (fun p => p.PartitionNum)).getD 0
    if parts.entries.length = 0 ∨ (parts.entries.length : Int) ≠ partitionNum then
      PassResult.nothing
    else
      let collected := collectPartsSchema w ns (w.range.order parts.entries) ∅
      let isReady := collected.1
      let allPartsSchema := collected.2
      if !isReady ∨ (allPartsSchema.entries.length : Int) ≠ partitionNum then
        PassResult.nothing
      else checkTables w allPartsSchema ns (w.range.order schemas.entries)

/-- Loop `for ns, parts := range allNamespaces` of `doSchemaCheck` over the
listed namespaces: the calls made, up to the namespace in which the loop
panics. -/
def checkNamespaces (w : World) :
    List (Sigma fun _ : String => IntMap PartitionMetaInfo) → PassResult
  | [] => PassResult.nothing
  | ⟨ns, parts⟩ :: rest =>
    if (checkNamespace w ns parts).panicked then checkNamespace w ns parts
    else
      { calls := (checkNamespace w ns parts).calls ++ (checkNamespaces w rest).calls,
        panicked := (checkNamespaces w rest).panicked }

/-- Go `PDCoordinator.doSchemaCheck`: the calls to `UpdateNamespaceSchema` of one
pass, in the order they are made, and whether the pass ended in a panic. -/
def doSchemaCheck (w : World) : PassResult :=
  match w.allNamespaces with
  | .error _ => PassResult.nothing
  | .ok allNamespaces => checkNamespaces w (w.range.order allNamespaces.entries)

/-- A partition reports index `name` of `table` in `state`: its schema has an
entry for the table, and the first index called `name` in the entry's
`HsetIndexes` list has exactly that state. A nil entry reports nothing. -/
def partReports (partSchema : GoMap (Option IndexSchema)) (table name : String)
    (state : IndexState) : Prop :=
  ∃ s, partSchema.lookup table = some (some s) ∧
    ∃ partIndex, s.HsetIndexes.find? (fun i => decide (i.Name = name)) = some partIndex ∧
      partIndex.State = state

/-- Strict agreement of a partition view: every partition of the view reports
index `name` of `table` in `state`. -/
def allPartsReport (allPartsSchema : IntMap (GoMap (Option IndexSchema))) (table name : String)
    (state : IndexState) : Prop :=
  ∀ pid partSchema, allPartsSchema.lookup pid = some partSchema →
    partReports partSchema table name state

/-- No partition of the view holds a nil pointer as its entry for `table`. -/
def noNilEntry (allPartsSchema : IntMap (GoMap (Option IndexSchema))) (table : String) : Prop :=
  ∀ pid partSchema, allPartsSchema.lookup pid = some partSchema →
    partSchema.lookup table ≠ some none

/-- The expected partition count of a namespace as `doSchemaCheck` reads it,
`parts[0].PartitionNum` (the zero value when partition 0 is missing). -/
def expectedPartitionNum (parts : IntMap PartitionMetaInfo) : Int :=
  ((parts.lookup 0).map (fun p => p.PartitionNum)).getD 0

/-- The partition of `parts` numbered `pid` is polled successfully: it has a
first replica and the schema query sent to it is answered with `schemas`. -/
def polled (w : World) (ns : String) (parts : IntMap PartitionMetaInfo) (pid : Int)
    (schemas : GoMap (Option IndexSchema)) : Prop :=
  ∃ part node rest, parts.lookup pid = some part ∧ part.RaftNodes = node :: rest ∧
    w.apiRequest node ns "" = .ok schemas

/-- What the loop over the partitions stores for one partition: the answer of
its first replica, or nothing when the replica list is empty or the query
fails (the cases in which the loop sets `isReady = false`). -/
def pollAnswer (w : World) (ns : String) (part : PartitionMetaInfo) :
    Option (GoMap (Option IndexSchema)) :=
  match part.RaftNodes with
  | [] => none
  | node :: _ =>
    match getIndexSchemasFromDataNode w node ns "" with
    | .error _ => none
    | .ok schemas => some schemas

/-- Complete partition view of a namespace: the number of observed partitions is
not zero and equals the expected count, and every partition is polled
successfully. -/
def completeView (w : World) (ns : String) (parts : IntMap PartitionMetaInfo) : Prop :=
  parts.entries.length ≠ 0 ∧ (parts.entries.length : Int) = expectedPartitionNum parts ∧
    ∀ pid part, parts.lookup pid = some part → ∃ schemas, polled w ns parts pid schemas

/-- Every partition of the namespace reports index `name` of `table` in
`state`, in the answer of its first replica. -/
def everyPartitionReports (w : World) (ns : String) (parts : IntMap PartitionMetaInfo)
    (table name : String) (state : IndexState) : Prop :=
  ∀ pid schemas, polled w ns parts pid schemas → partReports schemas table name state

/-- No answer of a polled partition of the namespace holds a nil pointer. -/
def noNilAnswer (w : World) (ns : String) (parts : IntMap PartitionMetaInfo) : Prop :=
  ∀ pid schemas table, polled w ns parts pid schemas → schemas.lookup table ≠ some none

/-- Incomplete partition view of a namespace: no partition is observed, or the
number observed differs from the expected count, or some partition has an empty
replica list, or the schema query to some partition's first replica fails. -/
def incompleteView (w : World) (ns : String) (parts : IntMap PartitionMetaInfo) : Prop :=
  parts.entries.length = 0 ∨ (parts.entries.length : Int) ≠ expectedPartitionNum parts ∨
    ∃ pid part, parts.lookup pid = some part ∧
      (part.RaftNodes = [] ∨
        ∃ node rest err, part.RaftNodes = node :: rest ∧ w.apiRequest node ns "" = .error err)

/-- An index of the record is advanced by the pass: it is in `Init` while every
partition of the view reports it in `Init`, or in `Building` while every
partition reports it in `BuildDone`. -/
def advances (allPartsSchema : IntMap (GoMap (Option IndexSchema))) (table : String)
    (hindex : HsetIndexSchema) : Prop :=
  (hindex.State = InitIndex ∧ allPartsReport allPartsSchema table hindex.Name InitIndex) ∨
  (hindex.State = BuildingIndex ∧
    allPartsReport allPartsSchema table hindex.Name BuildDoneIndex)

end pdnode_coord

namespace data_tool

/-- Errors of the data tool. -/
inductive ToolError where
  | errExpTimeKey
  deriving DecidableEq, Repr

export ToolError (errExpTimeKey)

/-- Conversion `uint64(when)` of an `int64`. -/
def toUint64 (when : Int) : Nat := (when % 2 ^ 64).toNat

/-- Conversion `int64(v)` of a `uint64`. -/
def toInt64 (v : Nat) : Int := if v < 2 ^ 63 then (v : Int) else (v : Int) - 2 ^ 64

/-- Go `binary.BigEndian.PutUint64(buf[pos:], v)`: writes the eight bytes of `v`,
most significant first, at `pos .. pos+7`. -/
def putUint64At (buf : List Nat) (pos : Nat) (v : Nat) : List Nat :=
  (((((((buf.set pos (v / 2 ^ 56 % 256)).set (pos + 1) (v / 2 ^ 48 % 256)).set (pos + 2)
    (v / 2 ^ 40 % 256)).set (pos + 3) (v / 2 ^ 32 % 256)).set (pos + 4)
    (v / 2 ^ 24 % 256)).set (pos + 5) (v / 2 ^ 16 % 256)).set (pos + 6)
    (v / 2 ^ 8 % 256)).set (pos + 7) (v % 256)

/-- Go `binary.BigEndian.Uint64(b)`: the value of the first eight bytes of `b`,
most significant first. -/
def uint64 (b : List Nat) : Nat :=
  b.getD 0 0 * 2 ^ 56 + b.getD 1 0 * 2 ^ 48 + b.getD 2 0 * 2 ^ 40 + b.getD 3 0 * 2 ^ 32 +
    b.getD 4 0 * 2 ^ 24 + b.getD 5 0 * 2 ^ 16 + b.getD 6 0 * 2 ^ 8 + b.getD 7 0

/-- The eight bytes of `v`, most significant first. -/
def bigEndian8 (v : Nat) : List Nat :=
  [v / 2 ^ 56 % 256, v / 2 ^ 48 % 256, v / 2 ^ 40 % 256, v / 2 ^ 32 % 256,
    v / 2 ^ 24 % 256, v / 2 ^ 16 % 256, v / 2 ^ 8 % 256, v % 256]

/-- Go `copy(buf[pos:], src)`: overwrites `buf` from `pos` on with as many bytes
of `src` as fit. -/
def copyAt (buf : List Nat) (pos : Nat) (src : List Nat) : List Nat :=
  buf.take pos ++ src.take (buf.length - pos) ++ buf.drop (pos + src.length)

/-- Go `expEncodeTimeKey`. `ExpTimeType` is the constant `rockredis.ExpTimeType`,
declared outside the listed sources and taken as a parameter. -/
def expEncodeTimeKey (ExpTimeType : Nat) (dataType : Nat) (key : List Nat) (when : Int) :
    List Nat :=
  let buf := List.replicate (key.length + 1 + 8 + 1) 0
  let pos := 0
  let buf := buf.set pos ExpTimeType
  let pos := pos + 1
  let buf := putUint64At buf pos (toUint64 when)
  let pos := pos + 8
  let buf := buf.set pos dataType
  let pos := pos + 1
  copyAt buf pos key

/-- Go `expDecodeTimeKey`: the data type, the key and the expiry time, or
`errExpTimeKey`. -/
def expDecodeTimeKey (ExpTimeType : Nat) (tk : List Nat) :
    Except ToolError (Nat × List Nat × Int) :=
  let pos := 0
  if pos + 10 > tk.length ∨ tk.getD pos 0 ≠ ExpTimeType then .error errExpTimeKey
  else .ok (tk.getD (pos + 9) 0, tk.drop (pos + 10), toInt64 (uint64 (tk.drop (pos + 1))))

end data_tool

namespace rockredis

/-! ### Sample states, built by running the operations from `NewIndexMgr` -/

/-- Database without any index blob. -/
def sampleDB : RockDB := { hsetIndexValues := ∅, writes := 0 }

/-- Definition a caller supplies for table `t1`, field `f1`; it carries `Ready`. -/
def sampleIndex : HsetIndex :=
  { Table := "t1", info := { Name := "idx1", IndexField := "f1", State := ReadyIndex } }

/-- Serving manager: `NewIndexMgr` followed by a successful `LoadIndexes`. -/
def servingMgr : IndexMgr := (NewIndexMgr.LoadIndexes sampleDB LoadEnv.ok).1

/-- Result of `AddHsetIndex` of `sampleIndex` on the serving manager. -/
def added : IndexMgr × RockDB × HsetIndex × Option Error :=
  servingMgr.AddHsetIndex sampleDB sampleIndex CallEnv.ok

/-- Result of then moving `(t1, f1)` to `Deleted`. -/
def markedDeleted : IndexMgr × RockDB × Option Error :=
  added.1.UpdateHsetIndexState added.2.1 "t1" "f1" DeletedIndex CallEnv.ok

/-- Result of `LoadIndexes`, `Close`, then `AddHsetIndex` of `sampleIndex`. -/
def addedAfterClose : IndexMgr × RockDB × HsetIndex × Option Error :=
  servingMgr.Close.AddHsetIndex sampleDB sampleIndex CallEnv.ok

/-- Result of `AddHsetIndex` on a manager on which `LoadIndexes` was never called. -/
def addedNeverLoaded : IndexMgr × RockDB × HsetIndex × Option Error :=
  NewIndexMgr.AddHsetIndex sampleDB sampleIndex CallEnv.ok

/-- Serving manager with two tables: `(t1, f1)` in `Building` and `(t2, f2)` in
`Init`. -/
def twoTables : IndexMgr × RockDB :=
  run sampleDB [Op.LoadIndexes LoadEnv.ok, Op.AddHsetIndex sampleIndex CallEnv.ok,
    Op.UpdateHsetIndexState "t1" "f1" BuildingIndex CallEnv.ok,
    Op.AddHsetIndex
      { Table := "t2", info := { Name := "idx2", IndexField := "f2", State := InitIndex } }
      CallEnv.ok]

/-- Key set that holds two rows of table `t1` and nothing after them. -/
def onlyTableKeys : ScanEnv := ScanEnv.quiet ["t1:a", "t1:b"] 1000

/-- Key set that holds a row of `t1`, a row of table `t1a` and a row of `t2`. -/
def neighbourTableKeys : ScanEnv := ScanEnv.quiet ["t1:a", "t1a:b", "t2:c"] 1000

/-- Key set that holds five rows of `t1` followed by a row of `t2`, scanned in
blocks of two keys. -/
def fiveRowsKeys : ScanEnv :=
  ScanEnv.quiet ["t1:a", "t1:b", "t1:c", "t1:d", "t1:e", "t2:a"] 2

end rockredis

namespace pdnode_coord

open rockredis

/-- Schema payload that decodes to the single index `idx1` in `Init`. -/
def payloadInit : List Nat := [1]

/-- Schema payload that decodes to the single index `idx1` in `Building`. -/
def payloadBuilding : List Nat := [2]

/-- Decoder of the two sample payloads; every other payload is malformed. -/
def sampleUnmarshal (p : List Nat) : Option IndexSchema :=
  if p = payloadInit then
    some { HsetIndexes := [{ Name := "idx1", IndexField := "f1", State := InitIndex }],
           JsonIndexes := [] }
  else if p = payloadBuilding then
    some { HsetIndexes := [{ Name := "idx1", IndexField := "f1", State := BuildingIndex }],
           JsonIndexes := [] }
  else none

/-- Schema of a table in which `idx1` is in `state`, as a node reports it. -/
def reportOf (state : IndexState) : Option IndexSchema :=
  some { HsetIndexes := [{ Name := "idx1", IndexField := "f1", State := state }],
         JsonIndexes := [] }

/-- One namespace `ns1` with a single partition served by `node1`; the register
holds table `t1` with `idx1` in `Init`, and the partition reports `idx1` in
`Init` as well. -/
def sampleWorld : World where
  allNamespaces :=
    .ok (AList.singleton "ns1" (AList.singleton (0 : Int)
      { PartitionNum := 1, RaftNodes := ["node1"] }))
  namespaceSchemas := fun ns =>
    if ns = "ns1" then .ok (AList.singleton "t1" { Schema := payloadInit, Epoch := 7 })
    else .error CoordErr.ErrKeyNotFound
  apiRequest := fun node ns _ =>
    if node = "node1" ∧ ns = "ns1" then .ok (AList.singleton "t1" (reportOf InitIndex))
    else .error (CoordErr.other 1)
  jsonUnmarshal := sampleUnmarshal
  range := RangeOrder.stored

/-- Two namespaces: `ns1` reports one partition where two are expected, `ns2`
has a complete one-partition view; in both the register holds table `t1` with
`idx1` in `Init` and every node reports `idx1` in `Init`. -/
def twoNamespaces : World where
  allNamespaces :=
    .ok ((AList.singleton "ns2" (AList.singleton (0 : Int)
        { PartitionNum := 1, RaftNodes := ["node2"] })).insert "ns1"
      (AList.singleton (0 : Int) { PartitionNum := 2, RaftNodes := ["node1"] }))
  namespaceSchemas := fun _ =>
    .ok (AList.singleton "t1" { Schema := payloadInit, Epoch := 7 })
  apiRequest := fun _ _ _ => .ok (AList.singleton "t1" (reportOf InitIndex))
  jsonUnmarshal := sampleUnmarshal
  range := RangeOrder.stored

/-- The partitions of namespace `ns1` in `nullAnswer`: one partition, served by
`node1`. -/
def nullAnswerParts : IntMap PartitionMetaInfo :=
  AList.singleton (0 : Int) { PartitionNum := 1, RaftNodes := ["node1"] }

/-- One namespace `ns1` with a complete one-partition view, ranged over in the
given order. The register holds tables `t1` and `t2`, each with `idx1` in
`Init`; the node answers `null` for `t1` and reports `idx1` of `t2` in
`Init`. -/
def nullAnswer (range : RangeOrder) : World where
  allNamespaces := .ok (AList.singleton "ns1" nullAnswerParts)
  namespaceSchemas := fun _ =>
    .ok (AList.insert "t1" { Schema := payloadInit, Epoch := 7 }
      (AList.singleton "t2" { Schema := payloadInit, Epoch := 8 }))
  apiRequest := fun _ _ _ =>
    .ok (AList.insert "t1" none (AList.singleton "t2" (reportOf InitIndex)))
  jsonUnmarshal := sampleUnmarshal
  range := range

/-- Three partitions, two of which report `idx1` of `t1` in `Init` and one in
`Building`. -/
def majorityView : IntMap (GoMap (Option IndexSchema)) :=
  AList.insert (0 : Int) (AList.singleton "t1" (reportOf InitIndex))
    (AList.insert (1 : Int) (AList.singleton "t1" (reportOf InitIndex))
      (AList.singleton (2 : Int) (AList.singleton "t1" (reportOf BuildingIndex))))

/-- One partition whose entry for `t1` is a nil pointer. -/
def nilEntryView : IntMap (GoMap (Option IndexSchema)) :=
  AList.singleton (0 : Int) (AList.singleton "t1" none)

/-- Two partitions: partition 0 holds a nil pointer as its entry for `t1`,
partition 1 has no entry for `t1`. -/
def nilAndMissingView : IntMap (GoMap (Option IndexSchema)) :=
  AList.insert (0 : Int) (AList.singleton "t1" none)
    (AList.singleton (1 : Int) (∅ : GoMap (Option IndexSchema)))

end pdnode_coord

/-! ## Theorems -/
namespace rockredis

/-! ### Lemmas on Go maps -/

section GoMapLemmas
variable {V : Type}

theorem GoMap.replace_of_lookup {a : String} {b : V} {s : GoMap V}
    (h : s.lookup a = some b) : s.replace a b = s := by
  apply AList.ext
  exact List.kreplace_self s.nodupKeys (AList.mem_lookup_iff.1 h)

theorem kreplace_dlookup_self (a : String) (b : V) :
    ∀ l : List (Sigma fun _ : String => V), a ∈ l.keys →
      List.dlookup a (List.kreplace a b l) = some b := by
  intro l
  induction l with
  | nil => intro h; simp at h
  | cons x xs ih =>
    intro h
    by_cases hx : a = x.1
    · have : List.kreplace a b (x :: xs) = ⟨a, b⟩ :: xs := by
        simp [List.kreplace, List.lookmap_cons_some, hx]
      rw [this, List.dlookup_cons_eq]
    · have : List.kreplace a b (x :: xs) = x :: List.kreplace a b xs := by
        simp [List.kreplace, List.lookmap_cons_none, hx]
      rw [this, List.dlookup_cons_ne _ _ hx]
      apply ih
      simpa [List.keys, hx] using h

theorem kreplace_dlookup_ne {a a' : String} (b : V) (hne : a ≠ a') :
    ∀ l : List (Sigma fun _ : String => V),
      List.dlookup a (List.kreplace a' b l) = List.dlookup a l := by
  intro l
  induction l with
  | nil => rfl
  | cons x xs ih =>
    by_cases hx : a' = x.1
    · have : List.kreplace a' b (x :: xs) = ⟨a', b⟩ :: xs := by
        simp [List.kreplace, List.lookmap_cons_some, hx]
      have hne' : a ≠ x.1 := hx ▸ hne
      rw [this, List.dlookup_cons_ne xs (Sigma.mk a' b) hne, List.dlookup_cons_ne xs x hne']
    · have : List.kreplace a' b (x :: xs) = x :: List.kreplace a' b xs := by
        simp [List.kreplace, List.lookmap_cons_none, hx]
      rw [this]
      by_cases hax : a = x.1
      · obtain ⟨k, v⟩ := x
        simp only at hax
        subst hax
        rw [List.dlookup_cons_eq, List.dlookup_cons_eq]
      · rw [List.dlookup_cons_ne _ _ hax, List.dlookup_cons_ne _ _ hax, ih]

theorem GoMap.lookup_replace_self {a : String} {b : V} {s : GoMap V} (h : a ∈ s) :
    (s.replace a b).lookup a = some b :=
  kreplace_dlookup_self a b s.entries (AList.mem_keys.1 h)

theorem GoMap.lookup_replace_ne {a a' : String} {b : V} {s : GoMap V} (h : a ≠ a') :
    (s.replace a' b).lookup a = s.lookup a :=
  kreplace_dlookup_ne b h s.entries

theorem GoMap.erase_insert_of_not_mem {a : String} {b : V} {s : GoMap V} (h : a ∉ s) :
    (s.insert a b).erase a = s := by
  apply AList.ext
  simp only [AList.erase, AList.insert_entries_of_neg h]
  exact List.kerase_cons_eq rfl

theorem GoMap.mem_of_lookup {a : String} {b : V} {s : GoMap V} (h : s.lookup a = some b) :
    a ∈ s := by
  rw [← AList.lookup_isSome, h]; rfl

theorem kreplace_kreplace (a : String) (b b' : V) :
    ∀ l : List (Sigma fun _ : String => V),
      List.kreplace a b (List.kreplace a b' l) = List.kreplace a b l := by
  intro l
  induction l with
  | nil => rfl
  | cons x xs ih =>
    by_cases hx : a = x.1
    · simp [List.kreplace, List.lookmap_cons_some, hx]
    · have h1 : ∀ (c : V) (l : List (Sigma fun _ : String => V)),
          List.kreplace a c (x :: l) = x :: List.kreplace a c l := by
        intro c l; simp [List.kreplace, List.lookmap_cons_none, hx]
      rw [h1, h1, h1, ih]

theorem GoMap.replace_replace {a : String} {b b' : V} {s : GoMap V} :
    (s.replace a b').replace a b = s.replace a b :=
  AList.ext (kreplace_kreplace a b b' s.entries)

end GoMapLemmas

/-! ### Lemmas on the manager's operations -/

theorem HsetIndex.setState_setState (h : HsetIndex) (s t : IndexState) :
    (h.setState s).setState t = h.setState t := rfl

theorem HsetIndex.setState_State (h : HsetIndex) : h.setState h.State = h := rfl

theorem TableIndexContainer.setIndex_restore {indexes : TableIndexContainer} {field : String}
    {index : HsetIndex} (hf : indexes.hsetIndexes.lookup field = some index) (s : IndexState) :
    (indexes.setIndex field (index.setState s)).setIndex field
      ((index.setState s).setState index.State) = indexes := by
  cases indexes with
  | mk hs js =>
    simp only [TableIndexContainer.setIndex, HsetIndex.setState_setState,
      HsetIndex.setState_State, GoMap.replace_replace]
    rw [GoMap.replace_of_lookup hf]

theorem IndexMgr.setContainer_same {self : IndexMgr} {table : String}
    {indexes : TableIndexContainer} (ht : self.tableIndexes.lookup table = some indexes) :
    self.setContainer table indexes = self := by
  cases self with
  | mk ti cc bc ws =>
    simp only [IndexMgr.setContainer]
    rw [GoMap.replace_of_lookup ht]

theorem IndexMgr.GetHsetIndex_eq_ok {self : IndexMgr} {table field : String} {index : HsetIndex}
    (h : self.GetHsetIndex table field = .ok index) :
    ∃ indexes, self.tableIndexes.lookup table = some indexes ∧
      indexes.hsetIndexes.lookup field = some index := by
  unfold IndexMgr.GetHsetIndex at h
  cases ht : self.tableIndexes.lookup table with
  | none => simp [ht] at h
  | some indexes =>
    refine ⟨indexes, rfl, ?_⟩
    cases hf : indexes.hsetIndexes.lookup field with
    | none => simp [ht, hf] at h
    | some i => simp [ht, hf] at h; rw [h]

/-- On a manager whose `closeChan` is not `nil`, a state change whose `Marshal`
or durable write fails returns that error and leaves manager and database as
they were. -/
theorem UpdateHsetIndexState_of_failure (self : IndexMgr) (db : RockDB) (table field : String)
    (state : IndexState) (env : CallEnv) (index : HsetIndex) (err : Error)
    (hopen : self.closeChan ≠ CloseChan.nil)
    (hget : self.GetHsetIndex table field = .ok index)
    (hne : index.State ≠ state)
    (hfail : env.marshalErr = some err ∨ (env.marshalErr = none ∧ env.setErr = some err)) :
    self.UpdateHsetIndexState db table field state env = (self, db, some err) := by
  obtain ⟨indexes, ht, hf⟩ := IndexMgr.GetHsetIndex_eq_ok hget
  have hback := TableIndexContainer.setIndex_restore hf state
  unfold IndexMgr.UpdateHsetIndexState
  simp only [ht, hf, hopen, hne, decide_False, Bool.false_eq_true, if_false]
  rcases hfail with hm | ⟨hm, hs⟩
  · simp only [TableIndexContainer.marshalHsetIndexes, hm, hback,
      IndexMgr.setContainer_same ht]
  · simp only [TableIndexContainer.marshalHsetIndexes, hm, RockDB.SetTableHsetIndexValue, hs,
      hback, IndexMgr.setContainer_same ht]


theorem IndexMgr.GetHsetIndex_eq_error {self : IndexMgr} {table field : String} {e : Error}
    (h : self.GetHsetIndex table field = .error e) :
    self.tableIndexes.lookup table = none ∨
      ∃ indexes, self.tableIndexes.lookup table = some indexes ∧
        indexes.hsetIndexes.lookup field = none := by
  unfold IndexMgr.GetHsetIndex at h
  cases ht : self.tableIndexes.lookup table with
  | none => exact Or.inl rfl
  | some indexes =>
    refine Or.inr ⟨indexes, rfl, ?_⟩
    cases hf : indexes.hsetIndexes.lookup field with
    | none => rfl
    | some i => simp [ht, hf] at h

theorem IndexMgr.registered_lookup (self : IndexMgr) (table : String) :
    (self.registered table).tableIndexes.lookup table = some (self.containerOf table) := by
  unfold IndexMgr.registered IndexMgr.containerOf
  cases ht : self.tableIndexes.lookup table with
  | none => simp [AList.lookup_insert]
  | some c => simp [ht]

theorem IndexMgr.registered_lookup_ne (self : IndexMgr) {table t : String} (h : t ≠ table) :
    (self.registered table).tableIndexes.lookup t = self.tableIndexes.lookup t := by
  unfold IndexMgr.registered
  cases ht : self.tableIndexes.lookup table with
  | none => simp [AList.lookup_insert_ne h]
  | some c => rfl

theorem IndexMgr.containerOf_lookup_none {self : IndexMgr} {table field : String} {e : Error}
    (h : self.GetHsetIndex table field = .error e) :
    (self.containerOf table).hsetIndexes.lookup field = none := by
  unfold IndexMgr.containerOf
  rcases IndexMgr.GetHsetIndex_eq_error h with ht | ⟨indexes, ht, hf⟩
  · simp [ht, NewIndexContainer]
  · simp [ht, hf]

theorem TableIndexContainer.erase_insert_restore {indexes : TableIndexContainer}
    {field : String} (index : HsetIndex) (h : field ∉ indexes.hsetIndexes) :
    { indexes with hsetIndexes := (indexes.hsetIndexes.insert field index).erase field }
      = indexes := by
  cases indexes with
  | mk hs js =>
    simp only
    rw [GoMap.erase_insert_of_not_mem h]

/-- Shape of `AddHsetIndex` on an absent `(table, field)`, in terms of the
registered manager and the container worked on. -/
theorem AddHsetIndex_of_absent (self : IndexMgr) (db : RockDB) (hindex : HsetIndex)
    (env : CallEnv)
    (habs : self.GetHsetIndex hindex.Table hindex.IndexField = .error ErrIndexNotExist) :
    self.AddHsetIndex db hindex env =
      (let indexes := self.containerOf hindex.Table
       let hindex1 := hindex.setState InitIndex
       let indexes1 : TableIndexContainer :=
         { indexes with hsetIndexes := indexes.hsetIndexes.insert hindex.IndexField hindex1 }
       match env.marshalErr with
       | some err => (self.registered hindex.Table, db, hindex1, some err)
       | none =>
         match env.setErr with
         | some err => (self.registered hindex.Table, db, hindex1, some err)
         | none =>
           ((self.registered hindex.Table).setContainer hindex.Table indexes1,
             { hsetIndexValues :=
                 db.hsetIndexValues.insert hindex.Table (indexes1.indexList env.range),
               writes := db.writes + 1 },
             hindex1, none)) := by
  have hnone := IndexMgr.containerOf_lookup_none habs
  have hreg := self.registered_lookup hindex.Table
  have hnot : hindex.IndexField ∉ (self.containerOf hindex.Table).hsetIndexes :=
    AList.lookup_eq_none.1 hnone
  have hback := TableIndexContainer.erase_insert_restore (hindex.setState InitIndex) hnot
  have hself : (self.registered hindex.Table).setContainer hindex.Table
      (self.containerOf hindex.Table) = self.registered hindex.Table :=
    IndexMgr.setContainer_same hreg
  have hsplit : (match self.tableIndexes.lookup hindex.Table with
      | some indexes => (self, indexes)
      | none =>
        ({ self with tableIndexes := self.tableIndexes.insert hindex.Table NewIndexContainer },
          NewIndexContainer)) = (self.registered hindex.Table, self.containerOf hindex.Table) := by
    unfold IndexMgr.registered IndexMgr.containerOf
    cases self.tableIndexes.lookup hindex.Table <;> rfl
  unfold IndexMgr.AddHsetIndex
  simp only [hsplit, hnone, TableIndexContainer.marshalHsetIndexes,
    RockDB.SetTableHsetIndexValue, hback, hself]
  cases env.marshalErr with
  | some err => rfl
  | none =>
    cases env.setErr with
    | some err => rfl
    | none => rfl


theorem IndexMgr.trySignalBuild_tableIndexes (self : IndexMgr) :
    self.trySignalBuild.tableIndexes = self.tableIndexes := by
  unfold IndexMgr.trySignalBuild
  split <;> rfl

/-- On a manager whose `closeChan` is not `nil`, a state change whose `Marshal`
and durable write succeed is carried out whatever the current and the requested
state are: no error is returned and the definition has the requested state. -/
theorem UpdateHsetIndexState_of_success (self : IndexMgr) (db : RockDB) (table field : String)
    (state : IndexState) (env : CallEnv) (index : HsetIndex)
    (hopen : self.closeChan ≠ CloseChan.nil)
    (hget : self.GetHsetIndex table field = .ok index)
    (hne : index.State ≠ state)
    (hm : env.marshalErr = none) (hs : env.setErr = none) :
    (self.UpdateHsetIndexState db table field state env).2.2 = none ∧
    (self.UpdateHsetIndexState db table field state env).1.GetHsetIndex table field
      = .ok (index.setState state) := by
  obtain ⟨indexes, ht, hf⟩ := IndexMgr.GetHsetIndex_eq_ok hget
  have hT : (self.setContainer table
      (indexes.setIndex field (index.setState state))).tableIndexes.lookup table
      = some (indexes.setIndex field (index.setState state)) :=
    GoMap.lookup_replace_self (GoMap.mem_of_lookup ht)
  have hF : (indexes.setIndex field (index.setState state)).hsetIndexes.lookup field
      = some (index.setState state) :=
    GoMap.lookup_replace_self (GoMap.mem_of_lookup hf)
  have hG : ∀ m : IndexMgr, m.tableIndexes = (self.setContainer table
      (indexes.setIndex field (index.setState state))).tableIndexes →
      m.GetHsetIndex table field = .ok (index.setState state) := by
    intro m hmt
    unfold IndexMgr.GetHsetIndex
    rw [hmt, hT]
    simp only [hF]
  unfold IndexMgr.UpdateHsetIndexState
  simp only [ht, hf, hopen, hne, decide_False, Bool.false_eq_true, if_false,
    TableIndexContainer.marshalHsetIndexes, hm, RockDB.SetTableHsetIndexValue, hs]
  split
  · exact ⟨rfl, hG _ rfl⟩
  · split
    · exact ⟨rfl, hG _ (IndexMgr.trySignalBuild_tableIndexes _)⟩
    · exact ⟨rfl, hG _ rfl⟩


theorem IndexMgr.GetHsetIndex_congr {a b : IndexMgr} {t f : String}
    (ht : a.tableIndexes.lookup t = b.tableIndexes.lookup t) :
    a.GetHsetIndex t f = b.GetHsetIndex t f := by
  unfold IndexMgr.GetHsetIndex
  rw [ht]

theorem IndexMgr.GetHsetIndex_registered (self : IndexMgr) (table t f : String) :
    (self.registered table).GetHsetIndex t f = self.GetHsetIndex t f := by
  by_cases h : t = table
  · subst h
    unfold IndexMgr.GetHsetIndex
    rw [self.registered_lookup t]
    unfold IndexMgr.containerOf
    cases self.tableIndexes.lookup t with
    | none => simp [NewIndexContainer]
    | some c => rfl
  · exact IndexMgr.GetHsetIndex_congr (self.registered_lookup_ne h)

theorem IndexMgr.mem_registered (self : IndexMgr) (table : String) :
    table ∈ (self.registered table).tableIndexes :=
  GoMap.mem_of_lookup (self.registered_lookup table)

theorem TableIndexContainer.mem_indexList {indexes : TableIndexContainer} {field : String}
    {index : HsetIndex} (h : indexes.hsetIndexes.lookup field = some index)
    (range : RangeOrder) : index.info ∈ (indexes.indexList range).HsetIndexes := by
  have hmem : (Sigma.mk field index : Sigma fun _ : String => HsetIndex)
      ∈ indexes.hsetIndexes.entries := AList.mem_lookup_iff.1 h
  have hord := (range.perm indexes.hsetIndexes.entries).mem_iff.2 hmem
  exact List.mem_map.2 ⟨_, hord, rfl⟩

theorem loadHsetIndexes_lookup_some (table : String) (l : List HsetIndexInfo) :
    ∀ (m : GoMap HsetIndex) (f : String) (x : HsetIndex),
      (loadHsetIndexes table l m).lookup f = some x →
        (∃ v ∈ l, v.IndexField = f ∧ x = { Table := table, info := v }) ∨
          m.lookup f = some x := by
  induction l with
  | nil => intro m f x h; exact Or.inr h
  | cons v vs ih =>
    intro m f x h
    rcases ih _ f x h with ⟨w, hw, hf, hx⟩ | hm
    · exact Or.inl ⟨w, List.mem_cons_of_mem _ hw, hf, hx⟩
    · by_cases hfv : f = v.IndexField
      · subst hfv
        rw [AList.lookup_insert] at hm
        exact Or.inl ⟨v, List.mem_cons_self _ _, rfl, (Option.some.inj hm).symm⟩
      · rw [AList.lookup_insert_ne hfv] at hm
        exact Or.inr hm

theorem loadHsetIndexes_lookup_of_not_mem (table : String) (l : List HsetIndexInfo) :
    ∀ (m : GoMap HsetIndex) (f : String), f ∉ l.map (fun v => v.IndexField) →
      (loadHsetIndexes table l m).lookup f = m.lookup f := by
  induction l with
  | nil => intro m f _; rfl
  | cons v vs ih =>
    intro m f hf
    have h1 : f ≠ v.IndexField := fun h => hf (by simp [h])
    have h2 : f ∉ vs.map (fun v => v.IndexField) := fun h => hf (by simp at h ⊢; exact Or.inr h)
    show (loadHsetIndexes table vs _).lookup f = _
    rw [ih _ f h2, AList.lookup_insert_ne h1]

theorem loadHsetIndexes_lookup_of_mem (table : String) (l : List HsetIndexInfo) :
    ∀ (m : GoMap HsetIndex) (v : HsetIndexInfo), (l.map (fun v => v.IndexField)).Nodup →
      v ∈ l → (loadHsetIndexes table l m).lookup v.IndexField
        = some { Table := table, info := v } := by
  induction l with
  | nil => intro m v _ h; simp at h
  | cons w ws ih =>
    intro m v hnd hv
    rw [List.map_cons, List.nodup_cons] at hnd
    show (loadHsetIndexes table ws _).lookup v.IndexField = _
    rcases List.mem_cons.1 hv with rfl | hws
    · rw [loadHsetIndexes_lookup_of_not_mem table ws _ _ hnd.1, AList.lookup_insert]
    · exact ih _ v hnd.2 hws

theorem TableIndexContainer.indexList_fields {indexes : TableIndexContainer} {table : String}
    (hk : indexes.keyedFor table) (range : RangeOrder) :
    ((indexes.indexList range).HsetIndexes.map (fun v => v.IndexField)).Perm
      indexes.hsetIndexes.keys := by
  have h1 : (indexes.indexList range).HsetIndexes.map (fun v => v.IndexField)
      = (range.order indexes.hsetIndexes.entries).map (fun e => e.1) := by
    simp only [TableIndexContainer.indexList, List.map_map]
    apply List.map_congr_left
    intro e he
    have hmem : e ∈ indexes.hsetIndexes.entries :=
      (range.perm indexes.hsetIndexes.entries).mem_iff.1 he
    obtain ⟨k, w⟩ := e
    exact (hk k w (AList.mem_lookup_iff.2 hmem)).1
  rw [h1]
  exact (range.perm indexes.hsetIndexes.entries).map _

/-- Decoding the serialization of a keyed container gives back its definitions,
whatever the order in which the container was ranged over. -/
theorem TableIndexContainer.decode_indexList {indexes : TableIndexContainer} {table : String}
    (hk : indexes.keyedFor table) (range : RangeOrder) (field : String) :
    (loadHsetIndexes table (indexes.indexList range).HsetIndexes ∅).lookup field
      = indexes.hsetIndexes.lookup field := by
  have hperm := TableIndexContainer.indexList_fields hk range
  have hnd : ((indexes.indexList range).HsetIndexes.map (fun v => v.IndexField)).Nodup :=
    hperm.nodup_iff.2 indexes.hsetIndexes.keys_nodup
  cases hl : indexes.hsetIndexes.lookup field with
  | none =>
    have hnot : field ∉ (indexes.indexList range).HsetIndexes.map (fun v => v.IndexField) :=
      fun h => (AList.lookup_eq_none.1 hl) (AList.mem_keys.2 (hperm.mem_iff.1 h))
    rw [loadHsetIndexes_lookup_of_not_mem table _ _ _ hnot]
    rfl
  | some index =>
    obtain ⟨hfield, htable⟩ := hk field index hl
    have hmem := TableIndexContainer.mem_indexList hl range
    have := loadHsetIndexes_lookup_of_mem table _ ∅ index.info hnd hmem
    have hfield' : index.info.IndexField = field := hfield
    rw [hfield'] at this
    rw [this]
    cases index with
    | mk t i => simp only [Option.some.injEq, HsetIndex.mk.injEq, and_true]; exact htable.symm

theorem GetHsetIndex_error_eq {self : IndexMgr} {table field : String} {e : Error}
    (h : self.GetHsetIndex table field = .error e) : e = ErrIndexNotExist := by
  unfold IndexMgr.GetHsetIndex at h
  cases ht : self.tableIndexes.lookup table with
  | none => rw [ht] at h; exact (Except.error.inj h).symm
  | some indexes =>
    cases hf : indexes.hsetIndexes.lookup field with
    | none => simp only [ht, hf] at h; exact (Except.error.inj h).symm
    | some i => simp [ht, hf] at h

theorem AddHsetIndex_of_present (self : IndexMgr) (db : RockDB) (hindex : HsetIndex)
    (env : CallEnv) (index : HsetIndex)
    (hget : self.GetHsetIndex hindex.Table hindex.IndexField = .ok index) :
    self.AddHsetIndex db hindex env = (self, db, hindex, some ErrIndexExist) := by
  obtain ⟨indexes, ht, hf⟩ := IndexMgr.GetHsetIndex_eq_ok hget
  unfold IndexMgr.AddHsetIndex
  simp only [ht, hf]

theorem blobMatchesMemory_keyed {self : IndexMgr} {db : RockDB} {table : String}
    {indexes : TableIndexContainer} (h : blobMatchesMemory self db table)
    (ht : self.tableIndexes.lookup table = some indexes) : indexes.keyedFor table := by
  obtain ⟨indexes', m, ht', hm, hall⟩ := h
  rw [ht] at ht'
  cases Option.some.inj ht'
  intro field index hl
  unfold RockDB.decodedIndexes at hm
  cases hd : db.hsetIndexValues.lookup table with
  | none => rw [hd] at hm; exact Option.noConfusion hm
  | some d =>
    rw [hd] at hm
    have hm' : loadHsetIndexes table d.HsetIndexes ∅ = m := Option.some.inj hm
    have hlook := hall field
    rw [hl, ← hm'] at hlook
    rcases loadHsetIndexes_lookup_some table _ _ _ _ hlook with ⟨v, _, hf, hx⟩ | hemp
    · rw [hx]; exact ⟨hf, rfl⟩
    · exact Option.noConfusion hemp

/-- A manager and database in which `table` has the container `indexes`, keyed
for `table`, and the blob of `table` is a serialization of `indexes`. -/
theorem blobMatchesMemory_of_indexList {self : IndexMgr} {db : RockDB} {table : String}
    {indexes : TableIndexContainer} (range : RangeOrder)
    (ht : self.tableIndexes.lookup table = some indexes) (hk : indexes.keyedFor table)
    (hd : db.hsetIndexValues.lookup table = some (indexes.indexList range)) :
    blobMatchesMemory self db table := by
  refine ⟨indexes, _, ht, ?_, fun field => TableIndexContainer.decode_indexList hk range field⟩
  unfold RockDB.decodedIndexes
  rw [hd]; rfl

/-- Sibling of `deleteHsetIndex`: `AddHsetIndex` keeps blob and memory in step,
whether `Marshal` and the durable write succeed or fail. -/
theorem AddHsetIndex_keeps_blobMatchesMemory (self : IndexMgr) (db : RockDB)
    (hindex : HsetIndex) (env : CallEnv) (h : blobMatchesMemory self db hindex.Table) :
    blobMatchesMemory (self.AddHsetIndex db hindex env).1 (self.AddHsetIndex db hindex env).2.1
      hindex.Table := by
  cases hget : self.GetHsetIndex hindex.Table hindex.IndexField with
  | ok index => rw [AddHsetIndex_of_present self db hindex env index hget]; exact h
  | error e =>
    cases GetHsetIndex_error_eq hget
    obtain ⟨indexes, m, ht, hm, hall⟩ := h
    have hk : indexes.keyedFor hindex.Table := blobMatchesMemory_keyed ⟨indexes, m, ht, hm, hall⟩ ht
    have hreg : self.registered hindex.Table = self := by
      unfold IndexMgr.registered; rw [ht]
    have hcont : self.containerOf hindex.Table = indexes := by
      unfold IndexMgr.containerOf; rw [ht]; rfl
    rw [AddHsetIndex_of_absent self db hindex env hget, hreg, hcont]
    cases env.marshalErr with
    | some err => exact ⟨indexes, m, ht, hm, hall⟩
    | none =>
      cases env.setErr with
      | some err => exact ⟨indexes, m, ht, hm, hall⟩
      | none =>
        refine blobMatchesMemory_of_indexList env.range
          (GoMap.lookup_replace_self (GoMap.mem_of_lookup ht)) ?_ (AList.lookup_insert _)
        intro field index hl
        by_cases hf : field = hindex.IndexField
        · subst hf
          have hl' : some (hindex.setState InitIndex) = some index :=
            (AList.lookup_insert _).symm.trans hl
          cases Option.some.inj hl'
          exact ⟨rfl, rfl⟩
        · have hl' : indexes.hsetIndexes.lookup field = some index :=
            (AList.lookup_insert_ne hf).symm.trans hl
          exact hk field index hl'

theorem blobMatchesMemory_congr {a b : IndexMgr} {db : RockDB} {table : String}
    (hab : a.tableIndexes = b.tableIndexes) (h : blobMatchesMemory b db table) :
    blobMatchesMemory a db table := by
  unfold blobMatchesMemory at h ⊢
  rw [hab]; exact h

/-- Sibling of `deleteHsetIndex`: `UpdateHsetIndexState` keeps blob and memory in
step on every path, whether `Marshal` and the durable write succeed or fail. -/
theorem UpdateHsetIndexState_keeps_blobMatchesMemory (self : IndexMgr) (db : RockDB)
    (table field : String) (state : IndexState) (env : CallEnv)
    (h : blobMatchesMemory self db table) :
    blobMatchesMemory (self.UpdateHsetIndexState db table field state env).1
      (self.UpdateHsetIndexState db table field state env).2.1 table := by
  obtain ⟨indexes, m, ht, hm, hall⟩ := h
  have h : blobMatchesMemory self db table := ⟨indexes, m, ht, hm, hall⟩
  have hk : indexes.keyedFor table := blobMatchesMemory_keyed h ht
  unfold IndexMgr.UpdateHsetIndexState
  simp only [ht]
  by_cases hnil : self.closeChan = CloseChan.nil
  · simp only [hnil, decide_True, if_true]; exact h
  · simp only [hnil, decide_False, Bool.false_eq_true, if_false]
    cases hf : indexes.hsetIndexes.lookup field with
    | none => exact h
    | some index =>
      by_cases hs : index.State = state
      · simp only [hs, if_true]; exact h
      · have hback := TableIndexContainer.setIndex_restore hf state
        have hT : (self.setContainer table
            (indexes.setIndex field (index.setState state))).tableIndexes.lookup table
            = some (indexes.setIndex field (index.setState state)) :=
          GoMap.lookup_replace_self (GoMap.mem_of_lookup ht)
        have hk1 : (indexes.setIndex field (index.setState state)).keyedFor table := by
          intro f i hl
          by_cases hff : f = field
          · subst hff
            have hl' : some (index.setState state) = some i :=
              (GoMap.lookup_replace_self (GoMap.mem_of_lookup hf)).symm.trans hl
            cases Option.some.inj hl'
            exact hk f index hf
          · exact hk f i ((GoMap.lookup_replace_ne hff).symm.trans hl)
        have hok : ∀ m1 : IndexMgr, m1.tableIndexes = (self.setContainer table
            (indexes.setIndex field (index.setState state))).tableIndexes →
            blobMatchesMemory m1
              { hsetIndexValues := db.hsetIndexValues.insert table
                  ((indexes.setIndex field (index.setState state)).indexList env.range),
                writes := db.writes + 1 } table := by
          intro m1 hm1
          exact blobMatchesMemory_congr hm1
            (blobMatchesMemory_of_indexList env.range hT hk1 (AList.lookup_insert _))
        simp only [hs, if_false, TableIndexContainer.marshalHsetIndexes,
          RockDB.SetTableHsetIndexValue, hback, IndexMgr.setContainer_same ht]
        cases env.marshalErr with
        | some err => exact h
        | none =>
          cases env.setErr with
          | some err => exact h
          | none =>
            simp only
            split
            · exact hok _ rfl
            · split
              · exact hok _ (IndexMgr.trySignalBuild_tableIndexes _)
              · exact hok _ rfl

/-- A `deleteHsetIndex` that returns no error keeps blob and memory in step. -/
theorem deleteHsetIndex_keeps_blobMatchesMemory_of_success (self : IndexMgr) (db : RockDB)
    (table field : String) (env : CallEnv) (h : blobMatchesMemory self db table)
    (hok : (self.deleteHsetIndex db table field env).2.2 = none) :
    blobMatchesMemory (self.deleteHsetIndex db table field env).1
      (self.deleteHsetIndex db table field env).2.1 table := by
  obtain ⟨indexes, m, ht, hm, hall⟩ := h
  have h : blobMatchesMemory self db table := ⟨indexes, m, ht, hm, hall⟩
  have hk : indexes.keyedFor table := blobMatchesMemory_keyed h ht
  unfold IndexMgr.deleteHsetIndex at hok ⊢
  simp only [ht] at hok ⊢
  cases hf : indexes.hsetIndexes.lookup field with
  | none => simp only [hf] at hok; exact Option.noConfusion hok
  | some index =>
    simp only [hf] at hok ⊢
    by_cases hs : index.State = DeletedIndex
    · simp only [hs, ne_eq, not_true_eq_false, if_false,
        TableIndexContainer.marshalHsetIndexes, RockDB.SetTableHsetIndexValue] at hok ⊢
      cases hme : env.marshalErr with
      | some err => simp only [hme] at hok; exact Option.noConfusion hok
      | none =>
        cases hse : env.setErr with
        | some err => simp only [hme, hse] at hok; exact Option.noConfusion hok
        | none =>
          simp only
          refine blobMatchesMemory_of_indexList env.range
            (GoMap.lookup_replace_self (GoMap.mem_of_lookup ht)) ?_ (AList.lookup_insert _)
          intro f i hl
          by_cases hff : f = field
          · subst hff
            have hnone : (indexes.hsetIndexes.erase f).lookup f = none := AList.lookup_erase _ _
            have hl' : (indexes.hsetIndexes.erase f).lookup f = some i := hl
            rw [hnone] at hl'
            exact Option.noConfusion hl'
          · exact hk f i ((AList.lookup_erase_ne hff).symm.trans hl)
    · simp only [hs, ne_eq, not_false_eq_true, if_true] at hok
      exact Option.noConfusion hok

/-! ### The claims -/

/-- C1 (evaluation of the code at a failing input): on a serving manager
`(t1, f1)` is in `Init`; a request for `Ready`, which is neither the successor
of `Init` nor `Deleted`, is not rejected: `UpdateHsetIndexState` returns no
error and the state becomes `Ready`. -/
theorem C1_init_to_ready_is_accepted :
    added.1.closeChan = CloseChan.running ∧
    added.1.GetHsetIndex "t1" "f1" = .ok (sampleIndex.setState InitIndex) ∧
    (added.1.UpdateHsetIndexState added.2.1 "t1" "f1" ReadyIndex CallEnv.ok).2.2 = none ∧
    (added.1.UpdateHsetIndexState added.2.1 "t1" "f1" ReadyIndex CallEnv.ok).1.GetHsetIndex
      "t1" "f1" = .ok (sampleIndex.setState ReadyIndex) :=
  ⟨rfl, rfl, rfl, rfl⟩

/-- C2 (evaluation of the code at a failing input): the definition `(t1, f1)` is
in `Deleted` and its cleanup worker has been started; a request for `Init` whose
durable write succeeds returns no error and the state becomes `Init`. -/
theorem C2_deleted_to_init_is_accepted :
    markedDeleted.1.GetHsetIndex "t1" "f1" = .ok (sampleIndex.setState DeletedIndex) ∧
    markedDeleted.1.workers = [Worker.buildIndexes, Worker.cleanAll "t1" "f1"] ∧
    (markedDeleted.1.UpdateHsetIndexState markedDeleted.2.1 "t1" "f1" InitIndex
      CallEnv.ok).2.2 = none ∧
    (markedDeleted.1.UpdateHsetIndexState markedDeleted.2.1 "t1" "f1" InitIndex
      CallEnv.ok).1.GetHsetIndex "t1" "f1" = .ok (sampleIndex.setState InitIndex) :=
  ⟨rfl, rfl, rfl, rfl⟩

/-- C3 (evaluation of the code at a failing input): after `LoadIndexes`, `Close`
and an `AddHsetIndex` of `(t1, f1)`, the manager's `closeChan` is closed, yet
`UpdateHsetIndexState` to `Building` returns no error instead of
`ErrIndexClosed`, changes the state in memory, rewrites the durable blob and
sends a build signal. On a manager that was never loaded the same request is
refused with `ErrIndexClosed`. -/
theorem C3_update_after_close_is_accepted :
    addedAfterClose.1.closeChan = CloseChan.closed ∧
    addedAfterClose.1.GetHsetIndex "t1" "f1" = .ok (sampleIndex.setState InitIndex) ∧
    (addedAfterClose.1.UpdateHsetIndexState addedAfterClose.2.1 "t1" "f1" BuildingIndex
      CallEnv.ok).2.2 = none ∧
    (addedAfterClose.1.UpdateHsetIndexState addedAfterClose.2.1 "t1" "f1" BuildingIndex
      CallEnv.ok).1.GetHsetIndex "t1" "f1" = .ok (sampleIndex.setState BuildingIndex) ∧
    addedAfterClose.2.1.hsetIndexValues.lookup "t1" =
      some { HsetIndexes := [(sampleIndex.setState InitIndex).info] } ∧
    (addedAfterClose.1.UpdateHsetIndexState addedAfterClose.2.1 "t1" "f1" BuildingIndex
      CallEnv.ok).2.1.hsetIndexValues.lookup "t1" =
      some { HsetIndexes := [(sampleIndex.setState BuildingIndex).info] } ∧
    (addedAfterClose.1.UpdateHsetIndexState addedAfterClose.2.1 "t1" "f1" BuildingIndex
      CallEnv.ok).1.indexBuildChan = addedAfterClose.1.indexBuildChan + 1 ∧
    addedNeverLoaded.1.UpdateHsetIndexState addedNeverLoaded.2.1 "t1" "f1" BuildingIndex
      CallEnv.ok = (addedNeverLoaded.1, addedNeverLoaded.2.1, some ErrIndexClosed) :=
  ⟨rfl, rfl, rfl, rfl, rfl, rfl, rfl, rfl⟩

/-- C4 (evaluation of the code at a failing input): `(t1, f1)` is in `Deleted`
and the durable blob of `t1` decodes to exactly the in-memory definitions. A
`deleteHsetIndex` whose durable write fails returns the error, leaves the blob
as it was, but has removed the definition from memory: the blob no longer
decodes to the in-memory definitions. -/
theorem C4_delete_failure_is_not_rolled_back :
    blobMatchesMemory markedDeleted.1 markedDeleted.2.1 "t1" ∧
    (markedDeleted.1.deleteHsetIndex markedDeleted.2.1 "t1" "f1" CallEnv.writeFails).2.2 =
      some (Error.external 1) ∧
    (markedDeleted.1.deleteHsetIndex markedDeleted.2.1 "t1" "f1" CallEnv.writeFails).2.1 =
      markedDeleted.2.1 ∧
    markedDeleted.1.GetHsetIndex "t1" "f1" = .ok (sampleIndex.setState DeletedIndex) ∧
    (markedDeleted.1.deleteHsetIndex markedDeleted.2.1 "t1" "f1"
      CallEnv.writeFails).1.GetHsetIndex "t1" "f1" = .error ErrIndexNotExist ∧
    ¬ blobMatchesMemory
      (markedDeleted.1.deleteHsetIndex markedDeleted.2.1 "t1" "f1" CallEnv.writeFails).1
      (markedDeleted.1.deleteHsetIndex markedDeleted.2.1 "t1" "f1" CallEnv.writeFails).2.1
      "t1" := by
  refine ⟨?_, rfl, rfl, rfl, rfl, ?_⟩
  · exact ⟨_, _, rfl, rfl, fun _ => rfl⟩
  · rintro ⟨indexes, m, hi, hm, hall⟩
    have h1 : indexes.hsetIndexes.lookup "f1" = none := by
      have : some indexes = some { hsetIndexes := ∅, jsonIndexes := ∅ } := hi.symm.trans rfl
      rw [Option.some.inj this]; rfl
    have h2 : m.lookup "f1" = some (sampleIndex.setState DeletedIndex) := by
      have : some m = some (AList.singleton "f1" (sampleIndex.setState DeletedIndex)) :=
        hm.symm.trans rfl
      rw [Option.some.inj this]; rfl
    have := hall "f1"
    rw [h1, h2] at this
    exact Option.noConfusion this

/-- C5: on a manager whose `closeChan` is not `nil` (in particular a serving
one), for an existing definition and a requested state different from its
current one, if `Marshal` fails or the durable write fails with `err`, then
`UpdateHsetIndexState` returns `err`, the definition is found afterwards in its
pre-call state, every lookup answers as before, no worker has been started, no
build signal has been sent, and manager and database are exactly as before. -/
theorem C5_update_failure_rolls_back (self : IndexMgr) (db : RockDB) (table field : String)
    (state : IndexState) (env : CallEnv) (index : HsetIndex) (err : Error)
    (hserving : self.closeChan ≠ CloseChan.nil)
    (hget : self.GetHsetIndex table field = .ok index)
    (hne : index.State ≠ state)
    (hfail : env.marshalErr = some err ∨ (env.marshalErr = none ∧ env.setErr = some err)) :
    (self.UpdateHsetIndexState db table field state env).2.2 = some err ∧
    (self.UpdateHsetIndexState db table field state env).1.GetHsetIndex table field
      = .ok index ∧
    (∀ t f, (self.UpdateHsetIndexState db table field state env).1.GetHsetIndex t f
      = self.GetHsetIndex t f) ∧
    (self.UpdateHsetIndexState db table field state env).1.workers = self.workers ∧
    (self.UpdateHsetIndexState db table field state env).1.indexBuildChan
      = self.indexBuildChan ∧
    (self.UpdateHsetIndexState db table field state env).1 = self ∧
    (self.UpdateHsetIndexState db table field state env).2.1 = db := by
  rw [UpdateHsetIndexState_of_failure self db table field state env index err hserving hget
    hne hfail]
  exact ⟨rfl, hget, fun _ _ => rfl, rfl, rfl, rfl, rfl⟩

/-- Witness of C5: the durable write fails while `(t1, f1)` is moved from `Init`
to `Building` on the serving sample manager. -/
theorem C5_update_failure_rolls_back_witness :
    (added.1.UpdateHsetIndexState added.2.1 "t1" "f1" BuildingIndex CallEnv.writeFails).2.2
      = some (Error.external 1) ∧
    (added.1.UpdateHsetIndexState added.2.1 "t1" "f1" BuildingIndex
      CallEnv.writeFails).1.GetHsetIndex "t1" "f1" = .ok (sampleIndex.setState InitIndex) ∧
    (added.1.UpdateHsetIndexState added.2.1 "t1" "f1" BuildingIndex CallEnv.writeFails).1
      = added.1 :=
  have h := C5_update_failure_rolls_back added.1 added.2.1 "t1" "f1" BuildingIndex
    CallEnv.writeFails (sampleIndex.setState InitIndex) (Error.external 1)
    (by decide) rfl (by decide) (Or.inr ⟨rfl, rfl⟩)
  ⟨h.1, h.2.1, h.2.2.2.2.2.1⟩

/-- C6: when `(table, field)` already has a definition, `AddHsetIndex` for the
same `(table, field)` returns `ErrIndexExist`; the database is the one passed in
(no durable write), the manager is unchanged (the stored definition keeps its
name and state, as does every other definition) and the definition passed in is
returned unmodified. -/
theorem C6_add_existing_is_rejected (self : IndexMgr) (db : RockDB) (hindex : HsetIndex)
    (env : CallEnv) (index : HsetIndex)
    (hget : self.GetHsetIndex hindex.Table hindex.IndexField = .ok index) :
    self.AddHsetIndex db hindex env = (self, db, hindex, some ErrIndexExist) ∧
    (self.AddHsetIndex db hindex env).1.GetHsetIndex hindex.Table hindex.IndexField
      = .ok index := by
  rw [AddHsetIndex_of_present self db hindex env index hget]
  exact ⟨rfl, hget⟩

/-- Witness of C6: a second `AddHsetIndex` of `(t1, f1)`, under another name and
whatever the environment, after the first one succeeded. -/
theorem C6_add_existing_is_rejected_witness :
    added.1.AddHsetIndex added.2.1
        { Table := "t1", info := { Name := "idx2", IndexField := "f1", State := ReadyIndex } }
        CallEnv.ok
      = (added.1, added.2.1,
        { Table := "t1", info := { Name := "idx2", IndexField := "f1", State := ReadyIndex } },
        some ErrIndexExist) ∧
    added.1.GetHsetIndex "t1" "f1" = .ok (sampleIndex.setState InitIndex) :=
  have h := C6_add_existing_is_rejected added.1 added.2.1
    { Table := "t1", info := { Name := "idx2", IndexField := "f1", State := ReadyIndex } }
    CallEnv.ok (sampleIndex.setState InitIndex) rfl
  ⟨h.1, rfl⟩


/-- C7 (counterexample): on the serving sample manager, which knows no table, an
`AddHsetIndex` of `(t1, f1)` whose durable write fails returns the error but
leaves table `t1` registered: the set of tables the manager knows is no longer
the one before the call. The difference is observable: on a manager that was
never loaded, `UpdateHsetIndexState` on `t1` answers `ErrIndexNotExist` before
the failed call and `ErrIndexClosed` after it. -/
theorem C7_failed_add_leaves_table_registered :
    servingMgr.GetHsetIndex "t1" "f1" = .error ErrIndexNotExist ∧
    (servingMgr.AddHsetIndex sampleDB sampleIndex CallEnv.writeFails).2.2.2
      = some (Error.external 1) ∧
    servingMgr.tableIndexes.keys = [] ∧
    (servingMgr.AddHsetIndex sampleDB sampleIndex CallEnv.writeFails).1.tableIndexes.keys
      = ["t1"] ∧
    (servingMgr.AddHsetIndex sampleDB sampleIndex CallEnv.writeFails).1 ≠ servingMgr ∧
    (NewIndexMgr.UpdateHsetIndexState sampleDB "t1" "f1" BuildingIndex CallEnv.ok).2.2
      = some ErrIndexNotExist ∧
    ((NewIndexMgr.AddHsetIndex sampleDB sampleIndex CallEnv.writeFails).1.UpdateHsetIndexState
      sampleDB "t1" "f1" BuildingIndex CallEnv.ok).2.2 = some ErrIndexClosed :=
  ⟨rfl, rfl, rfl, rfl,
    fun h => absurd (congrArg (fun m => m.tableIndexes.keys) h) (by decide), rfl, rfl⟩

/-- C7 (amended): when `(table, field)` has no definition and `Marshal` or the
durable write fails with `err`, `AddHsetIndex` returns `err`, writes nothing, and
leaves no definition behind: every lookup answers as before the call (so
`(table, field)` is still absent), every table known before keeps its container
unchanged, and every other table is as before. The one change in memory is that
a table not known before the call is now registered with an empty container;
when the table was known the manager is exactly as before. -/
theorem C7_add_failure_restores_definitions (self : IndexMgr) (db : RockDB)
    (hindex : HsetIndex) (env : CallEnv) (err : Error)
    (habs : self.GetHsetIndex hindex.Table hindex.IndexField = .error ErrIndexNotExist)
    (hfail : env.marshalErr = some err ∨ (env.marshalErr = none ∧ env.setErr = some err)) :
    (self.AddHsetIndex db hindex env).2.2.2 = some err ∧
    (self.AddHsetIndex db hindex env).2.1 = db ∧
    (∀ t f, (self.AddHsetIndex db hindex env).1.GetHsetIndex t f = self.GetHsetIndex t f) ∧
    (self.AddHsetIndex db hindex env).1.GetHsetIndex hindex.Table hindex.IndexField
      = .error ErrIndexNotExist ∧
    (∀ t indexes, self.tableIndexes.lookup t = some indexes →
      (self.AddHsetIndex db hindex env).1.tableIndexes.lookup t = some indexes) ∧
    (∀ t, t ≠ hindex.Table →
      (self.AddHsetIndex db hindex env).1.tableIndexes.lookup t = self.tableIndexes.lookup t) ∧
    (self.tableIndexes.lookup hindex.Table = none →
      (self.AddHsetIndex db hindex env).1.tableIndexes.lookup hindex.Table
        = some NewIndexContainer) ∧
    (hindex.Table ∈ self.tableIndexes → (self.AddHsetIndex db hindex env).1 = self) := by
  have hshape : self.AddHsetIndex db hindex env
      = (self.registered hindex.Table, db, hindex.setState InitIndex, some err) := by
    rw [AddHsetIndex_of_absent self db hindex env habs]
    rcases hfail with hm | ⟨hm, hs⟩
    · simp only [hm]
    · simp only [hm, hs]
  rw [hshape]
  refine ⟨rfl, rfl, fun t f => self.GetHsetIndex_registered _ t f, ?_, ?_, ?_, ?_, ?_⟩
  · show (self.registered hindex.Table).GetHsetIndex _ _ = _
    rw [self.GetHsetIndex_registered]; exact habs
  · intro t indexes ht
    show (self.registered hindex.Table).tableIndexes.lookup t = _
    by_cases h : t = hindex.Table
    · subst h
      rw [self.registered_lookup, IndexMgr.containerOf, ht]; rfl
    · rw [self.registered_lookup_ne h, ht]
  · intro t h
    exact self.registered_lookup_ne h
  · intro hnone
    show (self.registered hindex.Table).tableIndexes.lookup _ = _
    rw [self.registered_lookup, IndexMgr.containerOf, hnone]; rfl
  · intro hmem
    show self.registered hindex.Table = self
    unfold IndexMgr.registered
    cases ht : self.tableIndexes.lookup hindex.Table with
    | none => exact absurd hmem (AList.lookup_eq_none.1 ht)
    | some c => rfl

/-- Witness of C7 (amended): the failed `AddHsetIndex` of the counterexample. -/
theorem C7_add_failure_restores_definitions_witness :
    (servingMgr.AddHsetIndex sampleDB sampleIndex CallEnv.writeFails).2.2.2
      = some (Error.external 1) ∧
    (servingMgr.AddHsetIndex sampleDB sampleIndex CallEnv.writeFails).1.GetHsetIndex "t1" "f1"
      = .error ErrIndexNotExist ∧
    (servingMgr.AddHsetIndex sampleDB sampleIndex CallEnv.writeFails).1.tableIndexes.lookup "t1"
      = some NewIndexContainer :=
  have h := C7_add_failure_restores_definitions servingMgr sampleDB sampleIndex
    CallEnv.writeFails (Error.external 1) rfl (Or.inr ⟨rfl, rfl⟩)
  ⟨h.1, h.2.2.2.1, h.2.2.2.2.2.2.1 rfl⟩

/-- C8: when `(table, field)` has no definition and the durable write is made and
succeeds, `AddHsetIndex` returns no error whatever state the supplied definition
carries; a following `GetHsetIndex(table, field)` returns the supplied one
with state `Init`; every lookup of another `(table, field)` answers
as before; and exactly one blob is written, the serialization of the table's
container after the call, which includes the new definition. -/
theorem C8_add_success (self : IndexMgr) (db : RockDB) (hindex : HsetIndex) (env : CallEnv)
    (habs : self.GetHsetIndex hindex.Table hindex.IndexField = .error ErrIndexNotExist)
    (hm : env.marshalErr = none) (hs : env.setErr = none) :
    (self.AddHsetIndex db hindex env).2.2.2 = none ∧
    (self.AddHsetIndex db hindex env).1.GetHsetIndex hindex.Table hindex.IndexField
      = .ok (hindex.setState InitIndex) ∧
    (∀ t f, ¬ (t = hindex.Table ∧ f = hindex.IndexField) →
      (self.AddHsetIndex db hindex env).1.GetHsetIndex t f = self.GetHsetIndex t f) ∧
    (∀ t f index, self.GetHsetIndex t f = .ok index →
      (self.AddHsetIndex db hindex env).1.GetHsetIndex t f = .ok index) ∧
    (∃ indexes,
      (self.AddHsetIndex db hindex env).1.tableIndexes.lookup hindex.Table = some indexes ∧
      (self.AddHsetIndex db hindex env).2.1.hsetIndexValues.lookup hindex.Table
        = some (indexes.indexList env.range) ∧
      (hindex.setState InitIndex).info ∈ (indexes.indexList env.range).HsetIndexes) ∧
    (self.AddHsetIndex db hindex env).2.1.writes = db.writes + 1 := by
  have hT : ((self.registered hindex.Table).setContainer hindex.Table
      { self.containerOf hindex.Table with
        hsetIndexes := (self.containerOf hindex.Table).hsetIndexes.insert hindex.IndexField
          (hindex.setState InitIndex) }).tableIndexes.lookup hindex.Table
      = some { self.containerOf hindex.Table with
        hsetIndexes := (self.containerOf hindex.Table).hsetIndexes.insert hindex.IndexField
          (hindex.setState InitIndex) } :=
    GoMap.lookup_replace_self (self.mem_registered hindex.Table)
  have hother : ∀ t f, ¬ (t = hindex.Table ∧ f = hindex.IndexField) →
      ((self.registered hindex.Table).setContainer hindex.Table
        { self.containerOf hindex.Table with
          hsetIndexes := (self.containerOf hindex.Table).hsetIndexes.insert hindex.IndexField
            (hindex.setState InitIndex) }).GetHsetIndex t f = self.GetHsetIndex t f := by
    intro t f hne
    by_cases ht : t = hindex.Table
    · subst ht
      have hf : f ≠ hindex.IndexField := fun h => hne ⟨rfl, h⟩
      rw [← self.GetHsetIndex_registered hindex.Table hindex.Table f]
      unfold IndexMgr.GetHsetIndex
      rw [hT, self.registered_lookup]
      simp only [AList.lookup_insert_ne hf]
    · rw [← self.GetHsetIndex_registered hindex.Table t f]
      exact IndexMgr.GetHsetIndex_congr (GoMap.lookup_replace_ne ht)
  rw [AddHsetIndex_of_absent self db hindex env habs]
  simp only [hm, hs]
  refine ⟨trivial, ?_, hother, ?_, ⟨_, hT, ?_, ?_⟩, trivial⟩
  · unfold IndexMgr.GetHsetIndex
    rw [hT]
    simp only [AList.lookup_insert]
  · intro t f index hget
    rw [hother t f ?_, hget]
    rintro ⟨rfl, rfl⟩
    rw [habs] at hget
    exact Except.noConfusion hget
  · simp only [AList.lookup_insert]
  · exact TableIndexContainer.mem_indexList (AList.lookup_insert _) env.range

/-- Witness of C8: the first `AddHsetIndex` of `(t1, f1)` on the serving sample
manager; the supplied definition carries `Ready` and is stored in `Init`. -/
theorem C8_add_success_witness :
    sampleIndex.State = ReadyIndex ∧
    (servingMgr.AddHsetIndex sampleDB sampleIndex CallEnv.ok).2.2.2 = none ∧
    (servingMgr.AddHsetIndex sampleDB sampleIndex CallEnv.ok).1.GetHsetIndex "t1" "f1"
      = .ok { Table := "t1",
              info := { Name := "idx1", IndexField := "f1", State := InitIndex } } :=
  have h := C8_add_success servingMgr sampleDB sampleIndex CallEnv.ok rfl rfl rfl
  ⟨rfl, h.1, h.2.1⟩

/-- C9: when `(table, field)` has no definition in state `Deleted` (it is absent,
or present in another state), `deleteHsetIndex` changes nothing: manager and
database are returned as passed in (the definition stays with its state, no
durable write is issued), with `ErrIndexDeleteNotInDeleted` when the definition
exists and `ErrIndexNotExist` when the table or the field is absent. -/
theorem C9_delete_is_rejected (self : IndexMgr) (db : RockDB) (table field : String)
    (env : CallEnv)
    (hstate : ∀ index, self.GetHsetIndex table field = .ok index →
      index.State ≠ DeletedIndex) :
    (∀ index, self.GetHsetIndex table field = .ok index →
      self.deleteHsetIndex db table field env = (self, db, some ErrIndexDeleteNotInDeleted) ∧
      (self.deleteHsetIndex db table field env).1.GetHsetIndex table field = .ok index) ∧
    (self.GetHsetIndex table field = .error ErrIndexNotExist →
      self.deleteHsetIndex db table field env = (self, db, some ErrIndexNotExist)) := by
  constructor
  · intro index hget
    obtain ⟨indexes, ht, hf⟩ := IndexMgr.GetHsetIndex_eq_ok hget
    have h : self.deleteHsetIndex db table field env
        = (self, db, some ErrIndexDeleteNotInDeleted) := by
      unfold IndexMgr.deleteHsetIndex
      simp only [ht, hf, ne_eq, hstate index hget, not_false_eq_true, if_true]
    rw [h]
    exact ⟨rfl, hget⟩
  · intro hget
    unfold IndexMgr.deleteHsetIndex
    rcases IndexMgr.GetHsetIndex_eq_error hget with ht | ⟨indexes, ht, hf⟩
    · simp only [ht]
    · simp only [ht, hf]

/-- Witness of C9: `deleteHsetIndex` of `(t1, f1)` while it is in `Init`, and of
the absent `(t1, f2)` and `(t2, f1)`. -/
theorem C9_delete_is_rejected_witness :
    added.1.GetHsetIndex "t1" "f1" = .ok (sampleIndex.setState InitIndex) ∧
    added.1.deleteHsetIndex added.2.1 "t1" "f1" CallEnv.ok
      = (added.1, added.2.1, some ErrIndexDeleteNotInDeleted) ∧
    added.1.deleteHsetIndex added.2.1 "t1" "f2" CallEnv.ok
      = (added.1, added.2.1, some ErrIndexNotExist) ∧
    added.1.deleteHsetIndex added.2.1 "t2" "f1" CallEnv.ok
      = (added.1, added.2.1, some ErrIndexNotExist) :=
  ⟨rfl,
   ((C9_delete_is_rejected added.1 added.2.1 "t1" "f1" CallEnv.ok
      (fun index h => by
        have hi : index = sampleIndex.setState InitIndex :=
          (Except.ok.inj (h.symm.trans rfl)).symm ▸ rfl
        rw [hi]; decide)).1 _ rfl).1,
   (C9_delete_is_rejected added.1 added.2.1 "t1" "f2" CallEnv.ok
      (fun index h => Except.noConfusion (h.symm.trans (rfl : added.1.GetHsetIndex "t1" "f2"
        = .error ErrIndexNotExist)))).2 rfl,
   (C9_delete_is_rejected added.1 added.2.1 "t2" "f1" CallEnv.ok
      (fun index h => Except.noConfusion (h.symm.trans (rfl : added.1.GetHsetIndex "t2" "f1"
        = .error ErrIndexNotExist)))).2 rfl⟩

end rockredis

namespace pdnode_coord

open rockredis

/-! ### Lemmas on the schema coordinator -/

theorem partIndexIsSame_iff (name : String) (state : IndexState) (l : List HsetIndexSchema) :
    partIndexIsSame name state l = true ↔
      ∃ partIndex, l.find? (fun i => decide (i.Name = name)) = some partIndex ∧
        partIndex.State = state := by
  induction l with
  | nil => simp [partIndexIsSame]
  | cons x xs ih =>
    unfold partIndexIsSame
    by_cases hx : x.Name = name
    · simp [hx, List.find?_cons]
    · simp [hx, List.find?_cons, ih]

theorem partReports_iff_of_lookup {p : GoMap (Option IndexSchema)} {table : String}
    {s : IndexSchema} (hp : p.lookup table = some (some s)) (name : String)
    (state : IndexState) :
    partReports p table name state ↔ partIndexIsSame name state s.HsetIndexes = true := by
  rw [partIndexIsSame_iff]
  constructor
  · rintro ⟨s', hs', h⟩
    rw [hp] at hs'
    cases Option.some.inj (Option.some.inj hs')
    exact h
  · intro h
    exact ⟨s, hp, h⟩

theorem allPartsIsSame_cons (table name : String) (state : IndexState)
    (p : GoMap (Option IndexSchema)) (ps : List (GoMap (Option IndexSchema))) :
    allPartsIsSame table name state (p :: ps) =
      match p.lookup table with
      | none => some false
      | some none => none
      | some (some s) =>
        if !partIndexIsSame name state s.HsetIndexes then some false
        else allPartsIsSame table name state ps := by
  rw [allPartsIsSame]

/-- The loop over the partitions ends with `allDone = true` exactly when every
partition of the list reports the index in the expected state. -/
theorem allPartsIsSame_eq_true_iff (table name : String) (state : IndexState)
    (l : List (GoMap (Option IndexSchema))) :
    allPartsIsSame table name state l = some true ↔
      ∀ partSchema ∈ l, partReports partSchema table name state := by
  induction l with
  | nil => simp [allPartsIsSame]
  | cons p ps ih =>
    rw [allPartsIsSame_cons]
    cases hp : p.lookup table with
    | none =>
      simp only [Option.some.injEq, Bool.false_eq_true, false_iff, List.mem_cons, not_forall]
      refine ⟨p, Or.inl rfl, ?_⟩
      rintro ⟨s, hs, _⟩
      rw [hp] at hs
      exact Option.noConfusion hs
    | some entry =>
      cases entry with
      | none =>
        simp only [reduceCtorEq, false_iff, List.mem_cons, not_forall]
        refine ⟨p, Or.inl rfl, ?_⟩
        rintro ⟨s, hs, _⟩
        rw [hp] at hs
        exact Option.noConfusion (Option.some.inj hs)
      | some s =>
        have hrep := partReports_iff_of_lookup hp name state
        by_cases hsame : partIndexIsSame name state s.HsetIndexes = true
        · simp only [hsame, Bool.not_true, Bool.false_eq_true, if_false, ih, List.mem_cons,
            forall_eq_or_imp, hrep, true_and]
        · simp only [hsame, Bool.not_false, if_true, Option.some.injEq, Bool.false_eq_true,
            false_iff, List.mem_cons, forall_eq_or_imp, hrep, false_and, not_false_eq_true]

/-- The loop over the partitions panics only at a partition whose entry for the
table is a nil pointer. -/
theorem allPartsIsSame_eq_none (table name : String) (state : IndexState)
    (l : List (GoMap (Option IndexSchema)))
    (h : allPartsIsSame table name state l = none) :
    ∃ partSchema ∈ l, partSchema.lookup table = some none := by
  induction l with
  | nil => simp [allPartsIsSame] at h
  | cons p ps ih =>
    rw [allPartsIsSame_cons] at h
    cases hp : p.lookup table with
    | none => rw [hp] at h; exact Option.noConfusion h
    | some entry =>
      cases entry with
      | none => exact ⟨p, List.mem_cons_self _ _, hp⟩
      | some s =>
        rw [hp] at h
        simp only at h
        split at h
        · exact Option.noConfusion h
        · obtain ⟨q, hq, hl⟩ := ih h
          exact ⟨q, List.mem_cons_of_mem _ hq, hl⟩

/-- The value of `isAllPartsIndexSchemaReady` is `true` exactly under strict
agreement of the view, whatever the order in which the view is ranged over. -/
theorem isAllPartsIndexSchemaReady_eq_true_iff (range : RangeOrder)
    (allPartsSchema : IntMap (GoMap (Option IndexSchema))) (table name : String)
    (state : IndexState) :
    isAllPartsIndexSchemaReady range allPartsSchema table name state = some true ↔
      allPartsReport allPartsSchema table name state := by
  unfold isAllPartsIndexSchemaReady allPartsReport
  rw [allPartsIsSame_eq_true_iff]
  constructor
  · intro h pid partSchema hl
    apply h
    have hmem : (Sigma.mk pid partSchema : Sigma fun _ : Int => GoMap (Option IndexSchema))
        ∈ allPartsSchema.entries := AList.mem_lookup_iff.1 hl
    exact List.mem_map.2 ⟨_, (range.perm _).mem_iff.2 hmem, rfl⟩
  · intro h partSchema hmem
    obtain ⟨e, he, rfl⟩ := List.mem_map.1 hmem
    obtain ⟨pid, ps⟩ := e
    exact h pid ps (AList.mem_lookup_iff.2 ((range.perm _).mem_iff.1 he))

/-- On a view without nil entry for the table `isAllPartsIndexSchemaReady`
does not panic: it returns `true` or `false`. -/
theorem isAllPartsIndexSchemaReady_of_noNilEntry (range : RangeOrder)
    (allPartsSchema : IntMap (GoMap (Option IndexSchema))) (table name : String)
    (state : IndexState) (hnil : noNilEntry allPartsSchema table) :
    ∃ b, isAllPartsIndexSchemaReady range allPartsSchema table name state = some b := by
  cases h : isAllPartsIndexSchemaReady range allPartsSchema table name state with
  | some b => exact ⟨b, rfl⟩
  | none =>
    obtain ⟨p, hp, hl⟩ := allPartsIsSame_eq_none table name state _ h
    obtain ⟨e, he, rfl⟩ := List.mem_map.1 hp
    obtain ⟨pid, ps⟩ := e
    exact absurd hl (hnil pid ps (AList.mem_lookup_iff.2 ((range.perm _).mem_iff.1 he)))

/-- On a view without nil entry for the table, `isAllPartsIndexSchemaReady`
returns `false` exactly when some partition does not report the index in the
expected state. -/
theorem isAllPartsIndexSchemaReady_eq_false_iff (range : RangeOrder)
    (allPartsSchema : IntMap (GoMap (Option IndexSchema))) (table name : String)
    (state : IndexState) (hnil : noNilEntry allPartsSchema table) :
    isAllPartsIndexSchemaReady range allPartsSchema table name state = some false ↔
      ¬ allPartsReport allPartsSchema table name state := by
  rw [← isAllPartsIndexSchemaReady_eq_true_iff range]
  obtain ⟨b, hb⟩ := isAllPartsIndexSchemaReady_of_noNilEntry range allPartsSchema table name
    state hnil
  rw [hb]
  cases b <;> simp

theorem polled_iff (w : World) (ns : String) (parts : IntMap PartitionMetaInfo) (pid : Int)
    (schemas : GoMap (Option IndexSchema)) :
    polled w ns parts pid schemas ↔
      ∃ part, parts.lookup pid = some part ∧ pollAnswer w ns part = some schemas := by
  unfold polled pollAnswer getIndexSchemasFromDataNode
  constructor
  · rintro ⟨part, node, rest, hl, hr, ha⟩
    exact ⟨part, hl, by simp [hr, ha]⟩
  · rintro ⟨part, hl, hp⟩
    cases hr : part.RaftNodes with
    | nil => simp [hr] at hp
    | cons node rest =>
      cases ha : w.apiRequest node ns "" with
      | error e => simp [hr, ha] at hp
      | ok s =>
        simp [hr, ha] at hp
        exact ⟨part, node, rest, hl, hr, hp ▸ ha⟩

theorem pollAnswer_eq_none_iff (w : World) (ns : String) (part : PartitionMetaInfo) :
    pollAnswer w ns part = none ↔
      (part.RaftNodes = [] ∨
        ∃ node rest err, part.RaftNodes = node :: rest ∧ w.apiRequest node ns "" = .error err) := by
  unfold pollAnswer getIndexSchemasFromDataNode
  cases hr : part.RaftNodes with
  | nil => simp
  | cons node rest =>
    cases ha : w.apiRequest node ns "" with
    | error e => simp [ha]
    | ok s => simp [ha]

theorem collectPartsSchema_cons (w : World) (ns : String)
    (e : Sigma fun _ : Int => PartitionMetaInfo)
    (rest : List (Sigma fun _ : Int => PartitionMetaInfo))
    (acc : IntMap (GoMap (Option IndexSchema))) :
    collectPartsSchema w ns (e :: rest) acc =
      match pollAnswer w ns e.2 with
      | none => (false, acc)
      | some schemas => collectPartsSchema w ns rest (acc.insert e.1 schemas) := by
  obtain ⟨pid, part⟩ := e
  unfold pollAnswer
  rw [collectPartsSchema]
  cases part.RaftNodes with
  | nil => rfl
  | cons node tl =>
    simp only
    cases getIndexSchemasFromDataNode w node ns "" <;> rfl

/-- The loop over the partitions ends with `isReady = false` as soon as one
partition of the list cannot be polled. -/
theorem collectPartsSchema_of_unpolled (w : World) (ns : String) :
    ∀ (l : List (Sigma fun _ : Int => PartitionMetaInfo))
      (acc : IntMap (GoMap (Option IndexSchema))),
      (∃ e ∈ l, pollAnswer w ns e.2 = none) → (collectPartsSchema w ns l acc).1 = false := by
  intro l
  induction l with
  | nil => intro acc h; simp at h
  | cons e rest ih =>
    intro acc h
    rw [collectPartsSchema_cons]
    cases hp : pollAnswer w ns e.2 with
    | none => rfl
    | some s =>
      simp only
      apply ih
      obtain ⟨e', he', hn⟩ := h
      rcases List.mem_cons.1 he' with rfl | hr
      · rw [hp] at hn; exact Option.noConfusion hn
      · exact ⟨e', hr, hn⟩

/-- When every partition of the list is polled, the loop over the partitions
ends with `isReady = true` and has stored each partition's answer under its
number. -/
theorem collectPartsSchema_of_polled (w : World) (ns : String) :
    ∀ (l : List (Sigma fun _ : Int => PartitionMetaInfo))
      (acc : IntMap (GoMap (Option IndexSchema))),
      l.NodupKeys → (∀ e ∈ l, e.1 ∉ acc) → (∀ e ∈ l, pollAnswer w ns e.2 ≠ none) →
      (collectPartsSchema w ns l acc).1 = true ∧
      (collectPartsSchema w ns l acc).2.entries.length = acc.entries.length + l.length ∧
      ∀ pid, (collectPartsSchema w ns l acc).2.lookup pid =
        match List.dlookup pid l with
        | some part => pollAnswer w ns part
        | none => acc.lookup pid := by
  intro l
  induction l with
  | nil => intro acc _ _ _; exact ⟨rfl, rfl, fun _ => rfl⟩
  | cons e rest ih =>
    intro acc hnd hacc hall
    rw [collectPartsSchema_cons]
    obtain ⟨hk, hnd'⟩ := List.nodupKeys_cons.1 hnd
    cases hp : pollAnswer w ns e.2 with
    | none => exact absurd hp (hall e (List.mem_cons_self _ _))
    | some s =>
      simp only
      have he : e.1 ∉ acc := hacc e (List.mem_cons_self _ _)
      have hacc' : ∀ e' ∈ rest, e'.1 ∉ acc.insert e.1 s := by
        intro e' he' hmem
        rcases (AList.mem_insert acc).1 hmem with heq | hin
        · exact hk (heq ▸ List.mem_keys_of_mem he')
        · exact hacc e' (List.mem_cons_of_mem _ he') hin
      obtain ⟨h1, h2, h3⟩ := ih (acc.insert e.1 s) hnd' hacc'
        (fun e' he' => hall e' (List.mem_cons_of_mem _ he'))
      refine ⟨h1, ?_, ?_⟩
      · rw [h2, AList.insert_entries_of_neg he]
        simp only [List.length_cons]
        omega
      · intro pid
        rw [h3 pid]
        obtain ⟨k, part⟩ := e
        by_cases hpk : pid = k
        · subst hpk
          have hnone : List.dlookup pid rest = none := List.dlookup_eq_none.2 hk
          rw [hnone, List.dlookup_cons_eq]
          simp only [AList.lookup_insert]
          exact hp.symm
        · rw [List.dlookup_cons_ne _ _ hpk]
          cases List.dlookup pid rest with
          | some p => rfl
          | none => simp only [AList.lookup_insert_ne hpk]

theorem checkTable_eq_some {w : World} {allPartsSchema : IntMap (GoMap (Option IndexSchema))}
    {ns table : String} {schemaInfo : SchemaInfo} {call : UpdateCall}
    (h : checkTable w allPartsSchema ns table schemaInfo = some (some call)) :
    call = { ns := ns, table := table, schemaInfo := schemaInfo } := by
  unfold checkTable at h
  cases hj : w.jsonUnmarshal schemaInfo.Schema with
  | none => rw [hj] at h; simp at h
  | some indexes =>
    simp only [hj] at h
    cases ha : advanceHsetIndexes w.range allPartsSchema table indexes.HsetIndexes with
    | none => rw [ha] at h; exact Option.noConfusion h
    | some advanced =>
      rw [ha] at h
      simp only at h
      split at h
      · exact (Option.some.inj (Option.some.inj h)).symm
      · simp at h

theorem checkTables_cons (w : World) (allPartsSchema : IntMap (GoMap (Option IndexSchema)))
    (ns : String) (e : Sigma fun _ : String => SchemaInfo)
    (rest : List (Sigma fun _ : String => SchemaInfo)) :
    checkTables w allPartsSchema ns (e :: rest) =
      match checkTable w allPartsSchema ns e.1 e.2 with
      | none => { calls := [], panicked := true }
      | some call =>
        { calls := call.toList ++ (checkTables w allPartsSchema ns rest).calls,
          panicked := (checkTables w allPartsSchema ns rest).panicked } := by
  obtain ⟨table, schemaInfo⟩ := e
  rw [checkTables]

/-- Every call of the loop over the tables is the call of one of the tables. -/
theorem mem_checkTables {w : World} {allPartsSchema : IntMap (GoMap (Option IndexSchema))}
    {ns : String} {call : UpdateCall} :
    ∀ l : List (Sigma fun _ : String => SchemaInfo),
      call ∈ (checkTables w allPartsSchema ns l).calls →
      ∃ e ∈ l, checkTable w allPartsSchema ns e.1 e.2 = some (some call) := by
  intro l
  induction l with
  | nil => intro h; simp [checkTables, PassResult.nothing] at h
  | cons e rest ih =>
    intro h
    rw [checkTables_cons] at h
    cases hc : checkTable w allPartsSchema ns e.1 e.2 with
    | none => rw [hc] at h; simp at h
    | some c =>
      rw [hc] at h
      simp only [List.mem_append] at h
      rcases h with h | h
      · cases c with
        | none => simp at h
        | some c' =>
          simp only [Option.toList_some, List.mem_singleton] at h
          exact ⟨e, List.mem_cons_self _ _, by rw [hc, h]⟩
      · obtain ⟨e', he', hc'⟩ := ih h
        exact ⟨e', List.mem_cons_of_mem _ he', hc'⟩

/-- The loop over the tables ends without panic exactly when no table of the
list panics, and then it makes the call of every table that has one. -/
theorem checkTables_of_not_panicked {w : World}
    {allPartsSchema : IntMap (GoMap (Option IndexSchema))} {ns : String} :
    ∀ l : List (Sigma fun _ : String => SchemaInfo),
      ((checkTables w allPartsSchema ns l).panicked = false ↔
        ∀ e ∈ l, checkTable w allPartsSchema ns e.1 e.2 ≠ none) ∧
      ((checkTables w allPartsSchema ns l).panicked = false →
        ∀ e ∈ l, ∀ call, checkTable w allPartsSchema ns e.1 e.2 = some (some call) →
          call ∈ (checkTables w allPartsSchema ns l).calls) := by
  intro l
  induction l with
  | nil => simp [checkTables, PassResult.nothing]
  | cons e rest ih =>
    rw [checkTables_cons]
    cases hc : checkTable w allPartsSchema ns e.1 e.2 with
    | none =>
      simp only [Bool.true_eq_false, List.mem_cons, forall_eq_or_imp, hc, ne_eq,
        not_true_eq_false, false_and, false_implies, and_self]
    | some c =>
      simp only [List.mem_cons, forall_eq_or_imp, hc, ne_eq, reduceCtorEq, not_false_eq_true,
        true_and, List.mem_append]
      refine ⟨ih.1, ?_⟩
      intro hp
      refine ⟨?_, ?_⟩
      · intro call hcall
        left
        cases Option.some.inj hcall
        simp
      · intro e' he' call hcall
        right
        exact ih.2 hp e' he' call hcall

theorem mem_checkNamespace {w : World} {ns : String} {parts : IntMap PartitionMetaInfo}
    {call : UpdateCall} (h : call ∈ (checkNamespace w ns parts).calls) :
    ∃ schemas table schemaInfo, w.namespaceSchemas ns = .ok schemas ∧
      schemas.lookup table = some schemaInfo ∧
      call = { ns := ns, table := table, schemaInfo := schemaInfo } := by
  unfold checkNamespace at h
  cases hs : w.namespaceSchemas ns with
  | error err => rw [hs] at h; simp [PassResult.nothing] at h
  | ok schemas =>
    simp only [hs] at h
    split at h
    · simp [PassResult.nothing] at h
    · split at h
      · simp [PassResult.nothing] at h
      · obtain ⟨e, he, hct⟩ := mem_checkTables _ h
        obtain ⟨table, schemaInfo⟩ := e
        exact ⟨schemas, table, schemaInfo, rfl,
          AList.mem_lookup_iff.2 ((w.range.perm _).mem_iff.1 he), checkTable_eq_some hct⟩

theorem mem_checkNamespace_ns {w : World} {ns : String} {parts : IntMap PartitionMetaInfo}
    {call : UpdateCall} (h : call ∈ (checkNamespace w ns parts).calls) : call.ns = ns := by
  obtain ⟨_, _, _, _, _, hcall⟩ := mem_checkNamespace h
  rw [hcall]

theorem checkNamespaces_cons (w : World)
    (e : Sigma fun _ : String => IntMap PartitionMetaInfo)
    (rest : List (Sigma fun _ : String => IntMap PartitionMetaInfo)) :
    checkNamespaces w (e :: rest) =
      if (checkNamespace w e.1 e.2).panicked then checkNamespace w e.1 e.2
      else
        { calls := (checkNamespace w e.1 e.2).calls ++ (checkNamespaces w rest).calls,
          panicked := (checkNamespaces w rest).panicked } := by
  obtain ⟨ns, parts⟩ := e
  rw [checkNamespaces]

/-- Every call of the loop over the namespaces is a call made for one of the
namespaces. -/
theorem mem_checkNamespaces {w : World} {call : UpdateCall} :
    ∀ l : List (Sigma fun _ : String => IntMap PartitionMetaInfo),
      call ∈ (checkNamespaces w l).calls →
      ∃ e ∈ l, call ∈ (checkNamespace w e.1 e.2).calls := by
  intro l
  induction l with
  | nil => intro h; simp [checkNamespaces, PassResult.nothing] at h
  | cons e rest ih =>
    intro h
    rw [checkNamespaces_cons] at h
    split at h
    · exact ⟨e, List.mem_cons_self _ _, h⟩
    · simp only [List.mem_append] at h
      rcases h with h | h
      · exact ⟨e, List.mem_cons_self _ _, h⟩
      · obtain ⟨e', he', hc⟩ := ih h
        exact ⟨e', List.mem_cons_of_mem _ he', hc⟩

/-- When the loop over the namespaces ends without panic, it has made every
call of every namespace. -/
theorem mem_checkNamespaces_of_not_panicked {w : World} {call : UpdateCall} :
    ∀ l : List (Sigma fun _ : String => IntMap PartitionMetaInfo),
      (checkNamespaces w l).panicked = false →
      ∀ e ∈ l, call ∈ (checkNamespace w e.1 e.2).calls → call ∈ (checkNamespaces w l).calls := by
  intro l
  induction l with
  | nil => intro _ e he; simp at he
  | cons e rest ih =>
    intro hp e' he' hc
    rw [checkNamespaces_cons] at hp ⊢
    by_cases hpe : (checkNamespace w e.1 e.2).panicked = true
    · rw [if_pos hpe] at hp
      rw [hp] at hpe
      exact Bool.noConfusion hpe
    · rw [if_neg hpe] at hp ⊢
      simp only [List.mem_append]
      rcases List.mem_cons.1 he' with rfl | hr
      · exact Or.inl hc
      · exact Or.inr (ih hp e' hr hc)

/-- Namespaces for which the pass does nothing can be left out of the loop: the
calls, their order and the panic outcome are the same. -/
theorem checkNamespaces_filter (w : World)
    (p : (Sigma fun _ : String => IntMap PartitionMetaInfo) → Bool) :
    ∀ l : List (Sigma fun _ : String => IntMap PartitionMetaInfo),
      (∀ e ∈ l, p e = false → checkNamespace w e.1 e.2 = PassResult.nothing) →
      checkNamespaces w l = checkNamespaces w (l.filter p) := by
  intro l
  induction l with
  | nil => intro _; rfl
  | cons e rest ih =>
    intro h
    have ih' := ih (fun e' he' => h e' (List.mem_cons_of_mem _ he'))
    by_cases hp : p e = true
    · rw [List.filter_cons_of_pos hp, checkNamespaces_cons, checkNamespaces_cons, ih']
    · have hp' : p e = false := by simpa using hp
      rw [List.filter_cons_of_neg hp, checkNamespaces_cons, h e (List.mem_cons_self _ _) hp',
        ← ih']
      simp [PassResult.nothing]

theorem mem_doSchemaCheck {w : World} {call : UpdateCall}
    (h : call ∈ (doSchemaCheck w).calls) :
    ∃ allNamespaces ns parts, w.allNamespaces = .ok allNamespaces ∧
      allNamespaces.lookup ns = some parts ∧ call ∈ (checkNamespace w ns parts).calls := by
  unfold doSchemaCheck at h
  cases hall : w.allNamespaces with
  | error e => rw [hall] at h; simp [PassResult.nothing] at h
  | ok allNamespaces =>
    rw [hall] at h
    obtain ⟨e, he, hc⟩ := mem_checkNamespaces _ h
    obtain ⟨ns, parts⟩ := e
    exact ⟨allNamespaces, ns, parts, rfl,
      AList.mem_lookup_iff.2 ((w.range.perm _).mem_iff.1 he), hc⟩

theorem mem_doSchemaCheck_of_not_panicked {w : World} {call : UpdateCall}
    {allNamespaces : GoMap (IntMap PartitionMetaInfo)} {ns : String}
    {parts : IntMap PartitionMetaInfo} (hp : (doSchemaCheck w).panicked = false)
    (hall : w.allNamespaces = .ok allNamespaces) (hns : allNamespaces.lookup ns = some parts)
    (hc : call ∈ (checkNamespace w ns parts).calls) : call ∈ (doSchemaCheck w).calls := by
  unfold doSchemaCheck at hp ⊢
  rw [hall] at hp ⊢
  exact mem_checkNamespaces_of_not_panicked _ hp ⟨ns, parts⟩
    ((w.range.perm _).mem_iff.2 (AList.mem_lookup_iff.1 hns)) hc

/-- Every record `doSchemaCheck` hands to `UpdateNamespaceSchema` is, payload
included, the record the register returned for that namespace and table. -/
theorem doSchemaCheck_call_is_register_record (w : World) (call : UpdateCall)
    (h : call ∈ (doSchemaCheck w).calls) :
    ∃ schemas, w.namespaceSchemas call.ns = .ok schemas ∧
      schemas.lookup call.table = some call.schemaInfo := by
  obtain ⟨_, ns, parts, _, _, hc⟩ := mem_doSchemaCheck h
  obtain ⟨schemas, table, schemaInfo, hs, hl, hcall⟩ := mem_checkNamespace hc
  rw [hcall]
  exact ⟨schemas, hs, hl⟩

/-- A namespace with an incomplete partition view gets no call and no partition
answer of it is read. -/
theorem checkNamespace_of_incompleteView (w : World) (ns : String)
    (parts : IntMap PartitionMetaInfo) (h : incompleteView w ns parts) :
    checkNamespace w ns parts = PassResult.nothing := by
  unfold checkNamespace
  cases hs : w.namespaceSchemas ns with
  | error err => rfl
  | ok schemas =>
    simp only
    unfold incompleteView expectedPartitionNum at h
    rcases h with h0 | hne | ⟨pid, part, hl, hbad⟩
    · rw [if_pos (Or.inl h0)]
    · rw [if_pos (Or.inr hne)]
    · split
      · rfl
      · have hfalse : (collectPartsSchema w ns (w.range.order parts.entries) ∅).1 = false := by
          apply collectPartsSchema_of_unpolled
          refine ⟨⟨pid, part⟩, (w.range.perm _).mem_iff.2 (AList.mem_lookup_iff.1 hl), ?_⟩
          exact (pollAnswer_eq_none_iff w ns part).2 hbad
        rw [if_pos (Or.inl (by rw [hfalse]; rfl))]

/-- With a complete partition view the pass reaches the loop over the tables,
with a view that holds exactly the answers of the polled partitions. -/
theorem checkNamespace_of_completeView (w : World) (ns : String)
    (parts : IntMap PartitionMetaInfo) (schemas : GoMap SchemaInfo)
    (hs : w.namespaceSchemas ns = .ok schemas) (h : completeView w ns parts) :
    ∃ allPartsSchema : IntMap (GoMap (Option IndexSchema)),
      (∀ pid answer, allPartsSchema.lookup pid = some answer ↔ polled w ns parts pid answer) ∧
      checkNamespace w ns parts =
        checkTables w allPartsSchema ns (w.range.order schemas.entries) := by
  obtain ⟨h0, hcount, hall⟩ := h
  unfold expectedPartitionNum at hcount
  have hperm := w.range.perm parts.entries
  have hnd : (w.range.order parts.entries).NodupKeys :=
    (List.perm_nodupKeys hperm).2 parts.nodupKeys
  have hpolled : ∀ e ∈ w.range.order parts.entries, pollAnswer w ns e.2 ≠ none := by
    intro e he hn
    obtain ⟨pid, part⟩ := e
    have hl : parts.lookup pid = some part := AList.mem_lookup_iff.2 (hperm.mem_iff.1 he)
    obtain ⟨answer, hp⟩ := hall pid part hl
    obtain ⟨part', hl', ha⟩ := (polled_iff w ns parts pid answer).1 hp
    rw [hl] at hl'
    cases Option.some.inj hl'
    rw [hn] at ha
    exact Option.noConfusion ha
  obtain ⟨h1, h2, h3⟩ := collectPartsSchema_of_polled w ns (w.range.order parts.entries) ∅ hnd
    (fun e _ => AList.not_mem_empty e.1) hpolled
  refine ⟨(collectPartsSchema w ns (w.range.order parts.entries) ∅).2, ?_, ?_⟩
  · intro pid answer
    rw [h3 pid, polled_iff]
    have hd : List.dlookup pid (w.range.order parts.entries) = parts.lookup pid :=
      List.perm_dlookup pid hnd parts.nodupKeys hperm
    rw [hd]
    cases parts.lookup pid with
    | none => simp
    | some part => simp
  · unfold checkNamespace
    simp only [hs]
    have hlen : ((collectPartsSchema w ns (w.range.order parts.entries) ∅).2.entries.length : Int)
        = ((parts.lookup 0).map (fun p => p.PartitionNum)).getD 0 := by
      rw [h2, hperm.length_eq, ← hcount]
      simp
    have hg1 : ¬ (parts.entries.length = 0 ∨
        (parts.entries.length : Int) ≠ ((parts.lookup 0).map (fun p => p.PartitionNum)).getD 0) := by
      rintro (ha | hb)
      · exact h0 ha
      · exact hb hcount
    rw [if_neg hg1]
    have hg2 : ¬ ((!(collectPartsSchema w ns (w.range.order parts.entries) ∅).1) = true ∨
        ((collectPartsSchema w ns (w.range.order parts.entries) ∅).2.entries.length : Int)
          ≠ ((parts.lookup 0).map (fun p => p.PartitionNum)).getD 0) := by
      rintro (ha | hb)
      · rw [h1] at ha; exact Bool.noConfusion ha
      · exact hb hlen
    rw [if_neg hg2]

theorem advanceHsetIndexes_cons_none {range : RangeOrder}
    {allPartsSchema : IntMap (GoMap (Option IndexSchema))} {table : String}
    {x : HsetIndexSchema} {xs : List HsetIndexSchema}
    (h : advanceHsetIndexes range allPartsSchema table xs = none) :
    advanceHsetIndexes range allPartsSchema table (x :: xs) = none := by
  rw [advanceHsetIndexes]
  cases x.State <;> simp only [h]
  · cases isAllPartsIndexSchemaReady range allPartsSchema table x.Name InitIndex <;> rfl
  · cases isAllPartsIndexSchemaReady range allPartsSchema table x.Name BuildDoneIndex <;> rfl

/-- When the loop over the indexes of a record does not panic, `schemaChanged`
is set exactly when some index of the record is advanced. -/
theorem advanceHsetIndexes_eq_some (range : RangeOrder)
    (allPartsSchema : IntMap (GoMap (Option IndexSchema))) (table : String) :
    ∀ (l : List HsetIndexSchema) (r : Bool × List HsetIndexSchema),
      advanceHsetIndexes range allPartsSchema table l = some r →
      (r.1 = true ↔ ∃ hindex ∈ l, advances allPartsSchema table hindex) := by
  intro l
  induction l with
  | nil =>
    intro r h
    simp only [advanceHsetIndexes, Option.some.injEq] at h
    subst h
    simp
  | cons x xs ih =>
    intro r h
    cases hxs : advanceHsetIndexes range allPartsSchema table xs with
    | none => rw [advanceHsetIndexes_cons_none hxs] at h; exact Option.noConfusion h
    | some tail =>
      have iht := ih tail hxs
      rw [advanceHsetIndexes] at h
      simp only [List.mem_cons, exists_eq_or_imp]
      have hI := isAllPartsIndexSchemaReady_eq_true_iff range allPartsSchema table x.Name
        InitIndex
      have hB := isAllPartsIndexSchemaReady_eq_true_iff range allPartsSchema table x.Name
        BuildDoneIndex
      unfold advances at iht ⊢
      cases hst : x.State <;> rw [hst] at h <;> simp only [hxs] at h <;>
        simp only [reduceCtorEq, false_and, or_false, false_or, true_and]
      · cases hr : isAllPartsIndexSchemaReady range allPartsSchema table x.Name InitIndex with
        | none => rw [hr] at h; exact Option.noConfusion h
        | some ready =>
          rw [hr] at h
          simp only at h
          cases ready with
          | true =>
            simp only [if_true, Option.some.injEq] at h
            subst h
            simp only [true_iff]
            exact Or.inl (hI.1 hr)
          | false =>
            simp only [Bool.false_eq_true, if_false, Option.some.injEq] at h
            subst h
            have hno : ¬ allPartsReport allPartsSchema table x.Name InitIndex := by
              intro ha
              have := hI.2 ha
              rw [hr] at this
              exact Bool.noConfusion (Option.some.inj this)
            simp only [hno, false_or]
            exact iht
      · cases hr : isAllPartsIndexSchemaReady range allPartsSchema table x.Name BuildDoneIndex
          with
        | none => rw [hr] at h; exact Option.noConfusion h
        | some ready =>
          rw [hr] at h
          simp only at h
          cases ready with
          | true =>
            simp only [if_true, Option.some.injEq] at h
            subst h
            simp only [true_iff]
            exact Or.inl (hB.1 hr)
          | false =>
            simp only [Bool.false_eq_true, if_false, Option.some.injEq] at h
            subst h
            have hno : ¬ allPartsReport allPartsSchema table x.Name BuildDoneIndex := by
              intro ha
              have := hB.2 ha
              rw [hr] at this
              exact Bool.noConfusion (Option.some.inj this)
            simp only [hno, false_or]
            exact iht
      · simp only [Option.some.injEq] at h; subst h; exact iht
      · simp only [Option.some.injEq] at h; subst h; exact iht
      · simp only [Option.some.injEq] at h; subst h; exact iht

/-- On a view without nil entry for the table the loop over the indexes of a
record does not panic. -/
theorem advanceHsetIndexes_of_noNilEntry (range : RangeOrder)
    (allPartsSchema : IntMap (GoMap (Option IndexSchema))) (table : String)
    (hnil : noNilEntry allPartsSchema table) :
    ∀ l : List HsetIndexSchema,
      ∃ r, advanceHsetIndexes range allPartsSchema table l = some r := by
  intro l
  induction l with
  | nil => exact ⟨_, rfl⟩
  | cons x xs ih =>
    obtain ⟨tail, ht⟩ := ih
    obtain ⟨bI, hI⟩ := isAllPartsIndexSchemaReady_of_noNilEntry range allPartsSchema table
      x.Name InitIndex hnil
    obtain ⟨bB, hB⟩ := isAllPartsIndexSchemaReady_of_noNilEntry range allPartsSchema table
      x.Name BuildDoneIndex hnil
    rw [advanceHsetIndexes]
    cases x.State <;> simp only [ht, hI, hB]
    · split <;> exact ⟨_, rfl⟩
    · split <;> exact ⟨_, rfl⟩
    · exact ⟨_, rfl⟩
    · exact ⟨_, rfl⟩
    · exact ⟨_, rfl⟩

/-- A call made for a table: the record of the table decodes and one of its
indexes is advanced. -/
theorem checkTable_eq_some_imp {w : World}
    {allPartsSchema : IntMap (GoMap (Option IndexSchema))} {ns table : String}
    {schemaInfo : SchemaInfo} {call : UpdateCall}
    (h : checkTable w allPartsSchema ns table schemaInfo = some (some call)) :
    ∃ indexes, w.jsonUnmarshal schemaInfo.Schema = some indexes ∧
      ∃ hindex ∈ indexes.HsetIndexes, advances allPartsSchema table hindex := by
  unfold checkTable at h
  cases hj : w.jsonUnmarshal schemaInfo.Schema with
  | none => rw [hj] at h; simp at h
  | some indexes =>
    simp only [hj] at h
    cases ha : advanceHsetIndexes w.range allPartsSchema table indexes.HsetIndexes with
    | none => rw [ha] at h; exact Option.noConfusion h
    | some advanced =>
      rw [ha] at h
      simp only at h
      split at h
      · next hch =>
        exact ⟨indexes, rfl, (advanceHsetIndexes_eq_some _ _ _ _ _ ha).1 hch⟩
      · simp at h

/-- On a view without nil entry for the table, the body of the loop over the
tables does not panic, and it makes the call when the record decodes and one of
its indexes is advanced. -/
theorem checkTable_of_noNilEntry {w : World}
    {allPartsSchema : IntMap (GoMap (Option IndexSchema))} (ns : String) {table : String}
    (schemaInfo : SchemaInfo) (hnil : noNilEntry allPartsSchema table) :
    checkTable w allPartsSchema ns table schemaInfo ≠ none ∧
    ∀ indexes, w.jsonUnmarshal schemaInfo.Schema = some indexes →
      (∃ hindex ∈ indexes.HsetIndexes, advances allPartsSchema table hindex) →
      checkTable w allPartsSchema ns table schemaInfo
        = some (some { ns := ns, table := table, schemaInfo := schemaInfo }) := by
  unfold checkTable
  cases hj : w.jsonUnmarshal schemaInfo.Schema with
  | none => simp
  | some indexes =>
    obtain ⟨r, hr⟩ := advanceHsetIndexes_of_noNilEntry w.range allPartsSchema table hnil
      indexes.HsetIndexes
    simp only [hr, Option.some.injEq, forall_eq']
    refine ⟨?_, ?_⟩
    · split <;> simp
    · intro hadv
      rw [if_pos ((advanceHsetIndexes_eq_some _ _ _ _ _ hr).2 hadv)]

theorem lookup_singleton_eq_some {V : Type} {k pid : Int} {v part : V}
    (h : (AList.singleton k v : IntMap V).lookup pid = some part) : pid = k ∧ part = v := by
  have hmem : (Sigma.mk pid part : Sigma fun _ : Int => V) ∈ [Sigma.mk k v] :=
    AList.mem_lookup_iff.1 h
  have heq := List.mem_singleton.1 hmem
  cases heq
  exact ⟨rfl, rfl⟩

theorem allPartsReport_iff_everyPartitionReports {w : World} {ns : String}
    {parts : IntMap PartitionMetaInfo} {allPartsSchema : IntMap (GoMap (Option IndexSchema))}
    (h : ∀ pid answer, allPartsSchema.lookup pid = some answer ↔ polled w ns parts pid answer)
    (table name : String) (state : IndexState) :
    allPartsReport allPartsSchema table name state ↔
      everyPartitionReports w ns parts table name state := by
  unfold allPartsReport everyPartitionReports
  constructor
  · intro hr pid answer hp
    exact hr pid answer ((h pid answer).2 hp)
  · intro hr pid answer hl
    exact hr pid answer ((h pid answer).1 hl)

theorem noNilEntry_of_noNilAnswer {w : World} {ns : String}
    {parts : IntMap PartitionMetaInfo} {allPartsSchema : IntMap (GoMap (Option IndexSchema))}
    (h : ∀ pid answer, allPartsSchema.lookup pid = some answer ↔ polled w ns parts pid answer)
    (hnil : noNilAnswer w ns parts) (table : String) : noNilEntry allPartsSchema table :=
  fun pid answer hl => hnil pid answer table ((h pid answer).1 hl)

/-- When the loop over the namespaces ends without panic, no namespace of the
list has panicked. -/
theorem checkNamespaces_of_not_panicked {w : World} :
    ∀ l : List (Sigma fun _ : String => IntMap PartitionMetaInfo),
      (checkNamespaces w l).panicked = false →
      ∀ e ∈ l, (checkNamespace w e.1 e.2).panicked = false := by
  intro l
  induction l with
  | nil => intro _ e he; simp at he
  | cons e rest ih =>
    intro hp e' he'
    rw [checkNamespaces_cons] at hp
    by_cases hpe : (checkNamespace w e.1 e.2).panicked = true
    · rw [if_pos hpe] at hp
      rw [hp] at hpe
      exact Bool.noConfusion hpe
    · rw [if_neg hpe] at hp
      rcases List.mem_cons.1 he' with rfl | hr
      · simpa using hpe
      · exact ih hp e' hr

/-- The loop over the namespaces ends without panic when no namespace of the
list panics. -/
theorem checkNamespaces_not_panicked {w : World} :
    ∀ l : List (Sigma fun _ : String => IntMap PartitionMetaInfo),
      (∀ e ∈ l, (checkNamespace w e.1 e.2).panicked = false) →
      (checkNamespaces w l).panicked = false := by
  intro l
  induction l with
  | nil => intro _; rfl
  | cons e rest ih =>
    intro h
    rw [checkNamespaces_cons, h e (List.mem_cons_self _ _)]
    simp only [Bool.false_eq_true, if_false]
    exact ih (fun e' he' => h e' (List.mem_cons_of_mem _ he'))

/-- The advancing condition of an index, read on the collected view and read on
the answers of the polled partitions. -/
theorem advances_iff {w : World} {ns : String}
    {parts : IntMap PartitionMetaInfo} {allPartsSchema : IntMap (GoMap (Option IndexSchema))}
    (h : ∀ pid answer, allPartsSchema.lookup pid = some answer ↔ polled w ns parts pid answer)
    (table : String) (hindex : HsetIndexSchema) :
    advances allPartsSchema table hindex ↔
      ((hindex.State = InitIndex ∧
          everyPartitionReports w ns parts table hindex.Name InitIndex) ∨
        (hindex.State = BuildingIndex ∧
          everyPartitionReports w ns parts table hindex.Name BuildDoneIndex)) := by
  unfold advances
  rw [allPartsReport_iff_everyPartitionReports h, allPartsReport_iff_everyPartitionReports h]

/-- With a complete partition view, every call made for the namespace is made
for a table of the register whose record decodes to a list in which some index
is advanced. -/
theorem mem_checkNamespace_of_completeView (w : World) (ns : String)
    (parts : IntMap PartitionMetaInfo) (schemas : GoMap SchemaInfo)
    (hs : w.namespaceSchemas ns = .ok schemas) (hview : completeView w ns parts)
    (call : UpdateCall) (hc : call ∈ (checkNamespace w ns parts).calls) :
    ∃ table schemaInfo indexes, schemas.lookup table = some schemaInfo ∧
      call = { ns := ns, table := table, schemaInfo := schemaInfo } ∧
      w.jsonUnmarshal schemaInfo.Schema = some indexes ∧
      ∃ hindex ∈ indexes.HsetIndexes,
        (hindex.State = InitIndex ∧
          everyPartitionReports w ns parts table hindex.Name InitIndex) ∨
        (hindex.State = BuildingIndex ∧
          everyPartitionReports w ns parts table hindex.Name BuildDoneIndex) := by
  obtain ⟨allPartsSchema, hview', heq⟩ := checkNamespace_of_completeView w ns parts schemas hs hview
  rw [heq] at hc
  obtain ⟨⟨table, schemaInfo⟩, he, hct⟩ := mem_checkTables _ hc
  obtain ⟨indexes, hj, hindex, hmem, hadv⟩ := checkTable_eq_some_imp hct
  exact ⟨table, schemaInfo, indexes, AList.mem_lookup_iff.2 ((w.range.perm _).mem_iff.1 he),
    checkTable_eq_some hct, hj, hindex, hmem, (advances_iff hview' table hindex).1 hadv⟩

/-- With a complete partition view and a loop over the tables that ends without
panic, the call is made for every table of the register whose record decodes to
a list in which some index is advanced. -/
theorem checkNamespace_calls_of_not_panicked (w : World) (ns : String)
    (parts : IntMap PartitionMetaInfo) (schemas : GoMap SchemaInfo)
    (hs : w.namespaceSchemas ns = .ok schemas) (hview : completeView w ns parts)
    (hp : (checkNamespace w ns parts).panicked = false)
    (table : String) (schemaInfo : SchemaInfo) (indexes : IndexSchema)
    (hl : schemas.lookup table = some schemaInfo)
    (hj : w.jsonUnmarshal schemaInfo.Schema = some indexes)
    (hadv : ∃ hindex ∈ indexes.HsetIndexes,
        (hindex.State = InitIndex ∧
          everyPartitionReports w ns parts table hindex.Name InitIndex) ∨
        (hindex.State = BuildingIndex ∧
          everyPartitionReports w ns parts table hindex.Name BuildDoneIndex)) :
    ({ ns := ns, table := table, schemaInfo := schemaInfo } : UpdateCall)
      ∈ (checkNamespace w ns parts).calls := by
  obtain ⟨allPartsSchema, hview', heq⟩ := checkNamespace_of_completeView w ns parts schemas hs hview
  rw [heq] at hp ⊢
  have hmem : (⟨table, schemaInfo⟩ : Sigma fun _ : String => SchemaInfo)
      ∈ w.range.order schemas.entries :=
    (w.range.perm _).mem_iff.2 (AList.mem_lookup_iff.1 hl)
  have hall := @checkTables_of_not_panicked w allPartsSchema ns
    (w.range.order schemas.entries)
  have hne := hall.1.1 hp _ hmem
  refine hall.2 hp _ hmem _ ?_
  obtain ⟨hindex, hin, hcase⟩ := hadv
  have hadv' : ∃ hindex ∈ indexes.HsetIndexes, advances allPartsSchema table hindex :=
    ⟨hindex, hin, (advances_iff hview' table hindex).2 hcase⟩
  simp only at hne
  unfold checkTable at hne ⊢
  simp only [hj] at hne ⊢
  cases ha : advanceHsetIndexes w.range allPartsSchema table indexes.HsetIndexes with
  | none => rw [ha] at hne; exact absurd rfl hne
  | some advanced =>
    simp only
    rw [if_pos ((advanceHsetIndexes_eq_some _ _ _ _ _ ha).2 hadv')]

/-- In every pass, a call for a table of a namespace with a complete partition
view is made only if the register's record of the table decodes to an index
list in which some index is advanced. So no call is made when for each index
some partition reports another state or lacks the table or the index, and an
index in `BuildDone`, `Ready` or `Deleted` never causes one. -/
theorem doSchemaCheck_update_only_if (w : World)
    (allNamespaces : GoMap (IntMap PartitionMetaInfo)) (ns : String)
    (parts : IntMap PartitionMetaInfo) (schemas : GoMap SchemaInfo)
    (hall : w.allNamespaces = .ok allNamespaces)
    (hns : allNamespaces.lookup ns = some parts)
    (hs : w.namespaceSchemas ns = .ok schemas)
    (hview : completeView w ns parts) (table : String)
    (h : ∃ call ∈ (doSchemaCheck w).calls, call.ns = ns ∧ call.table = table) :
    ∃ schemaInfo indexes, schemas.lookup table = some schemaInfo ∧
      w.jsonUnmarshal schemaInfo.Schema = some indexes ∧
      ∃ hindex ∈ indexes.HsetIndexes,
        (hindex.State = InitIndex ∧
          everyPartitionReports w ns parts table hindex.Name InitIndex) ∨
        (hindex.State = BuildingIndex ∧
          everyPartitionReports w ns parts table hindex.Name BuildDoneIndex) := by
  obtain ⟨call, hmem, hcns, hct⟩ := h
  obtain ⟨all', ns', parts', hall', hl', hc⟩ := mem_doSchemaCheck hmem
  rw [hall] at hall'
  cases Except.ok.inj hall'
  have hns' : ns' = ns := (mem_checkNamespace_ns hc).symm.trans hcns
  subst hns'
  rw [hns] at hl'
  cases Option.some.inj hl'
  obtain ⟨table', schemaInfo, indexes, hl, hcall, hj, hadv⟩ :=
    mem_checkNamespace_of_completeView w ns' parts schemas hs hview call hc
  have htable : table' = table := by rw [hcall] at hct; exact hct
  subst htable
  exact ⟨schemaInfo, indexes, hl, hj, hadv⟩

/-- In a pass that ends without panic, for a namespace with a complete
partition view, `UpdateNamespaceSchema` is invoked for a table if and only if
the register's record of the table decodes to an index list in which some index
is in `Init` while every partition reports the same-named index in `Init`, or is
in `Building` while every partition reports it in `BuildDone`. The "only if"
half holds in every pass (`doSchemaCheck_update_only_if`). -/
theorem doSchemaCheck_update_iff_of_not_panicked (w : World)
    (allNamespaces : GoMap (IntMap PartitionMetaInfo)) (ns : String)
    (parts : IntMap PartitionMetaInfo) (schemas : GoMap SchemaInfo)
    (hall : w.allNamespaces = .ok allNamespaces)
    (hns : allNamespaces.lookup ns = some parts)
    (hs : w.namespaceSchemas ns = .ok schemas)
    (hview : completeView w ns parts) (hp : (doSchemaCheck w).panicked = false)
    (table : String) :
    (∃ call ∈ (doSchemaCheck w).calls, call.ns = ns ∧ call.table = table) ↔
      ∃ schemaInfo indexes, schemas.lookup table = some schemaInfo ∧
        w.jsonUnmarshal schemaInfo.Schema = some indexes ∧
        ∃ hindex ∈ indexes.HsetIndexes,
          (hindex.State = InitIndex ∧
            everyPartitionReports w ns parts table hindex.Name InitIndex) ∨
          (hindex.State = BuildingIndex ∧
            everyPartitionReports w ns parts table hindex.Name BuildDoneIndex) := by
  constructor
  · exact doSchemaCheck_update_only_if w allNamespaces ns parts schemas hall hns hs hview table
  · rintro ⟨schemaInfo, indexes, hl, hj, hadv⟩
    refine ⟨{ ns := ns, table := table, schemaInfo := schemaInfo }, ?_, rfl, rfl⟩
    refine mem_doSchemaCheck_of_not_panicked hp hall hns ?_
    have hpn : (checkNamespace w ns parts).panicked = false := by
      unfold doSchemaCheck at hp
      rw [hall] at hp
      exact checkNamespaces_of_not_panicked _ hp ⟨ns, parts⟩
        ((w.range.perm _).mem_iff.2 (AList.mem_lookup_iff.1 hns))
    exact checkNamespace_calls_of_not_panicked w ns parts schemas hs hview hpn table schemaInfo
      indexes hl hj hadv

/-- A partition view that is not complete is incomplete. -/
theorem incompleteView_of_not_completeView (w : World) (ns : String)
    (parts : IntMap PartitionMetaInfo) (h : ¬ completeView w ns parts) :
    incompleteView w ns parts := by
  unfold completeView at h
  unfold incompleteView
  by_cases h0 : parts.entries.length = 0
  · exact Or.inl h0
  by_cases hc : (parts.entries.length : Int) = expectedPartitionNum parts
  · right; right
    by_contra hno
    apply h
    refine ⟨h0, hc, ?_⟩
    intro pid part hl
    cases hR : part.RaftNodes with
    | nil => exact absurd ⟨pid, part, hl, Or.inl hR⟩ hno
    | cons node rest =>
      cases hA : w.apiRequest node ns "" with
      | error err => exact absurd ⟨pid, part, hl, Or.inr ⟨node, rest, err, hR, hA⟩⟩ hno
      | ok schemas => exact ⟨schemas, part, node, rest, hl, hR, hA⟩
  · exact Or.inr (Or.inl hc)

/-- A namespace whose polled partitions answer without nil pointer is checked
without panic. -/
theorem checkNamespace_of_noNilAnswer (w : World) (ns : String)
    (parts : IntMap PartitionMetaInfo) (hnil : noNilAnswer w ns parts) :
    (checkNamespace w ns parts).panicked = false := by
  by_cases hview : completeView w ns parts
  · cases hs : w.namespaceSchemas ns with
    | error err =>
      unfold checkNamespace
      rw [hs]
      rfl
    | ok schemas =>
      obtain ⟨allPartsSchema, hview', heq⟩ :=
        checkNamespace_of_completeView w ns parts schemas hs hview
      rw [heq]
      refine (checkTables_of_not_panicked (w.range.order schemas.entries)).1.2 ?_
      intro e _
      exact (checkTable_of_noNilEntry ns e.2
        (noNilEntry_of_noNilAnswer hview' hnil e.1)).1
  · rw [checkNamespace_of_incompleteView w ns parts
      (incompleteView_of_not_completeView w ns parts hview)]
    rfl

/-- A pass in which no polled partition answers with a nil pointer ends without
panic. -/
theorem doSchemaCheck_of_noNilAnswer (w : World)
    (hnil : ∀ allNamespaces ns parts, w.allNamespaces = .ok allNamespaces →
      allNamespaces.lookup ns = some parts → noNilAnswer w ns parts) :
    (doSchemaCheck w).panicked = false := by
  unfold doSchemaCheck
  cases hall : w.allNamespaces with
  | error e => rfl
  | ok allNamespaces =>
    simp only
    apply checkNamespaces_not_panicked
    intro e he
    obtain ⟨ns, parts⟩ := e
    exact checkNamespace_of_noNilAnswer w ns parts
      (hnil allNamespaces ns parts hall
        (AList.mem_lookup_iff.2 ((w.range.perm _).mem_iff.1 he)))

/-- Two partitions out of three reporting `Init` do not make
`isAllPartsIndexSchemaReady` true, in either range order. -/
theorem isAllPartsIndexSchemaReady_of_majority :
    isAllPartsIndexSchemaReady RangeOrder.stored majorityView "t1" "idx1" InitIndex
      = some false ∧
    isAllPartsIndexSchemaReady RangeOrder.backwards majorityView "t1" "idx1" InitIndex
      = some false :=
  ⟨rfl, rfl⟩

theorem completeView_nullAnswer (range : RangeOrder) :
    completeView (nullAnswer range) "ns1" nullAnswerParts := by
  refine ⟨by decide, rfl, ?_⟩
  intro pid part hl
  obtain ⟨hpid, hpart⟩ := lookup_singleton_eq_some hl
  subst hpid hpart
  exact ⟨_, _, "node1", [], rfl, rfl, rfl⟩

theorem everyPartitionReports_nullAnswer (range : RangeOrder) :
    everyPartitionReports (nullAnswer range) "ns1" nullAnswerParts "t2" "idx1" InitIndex := by
  intro pid schemas hp
  obtain ⟨part, node, rest, _, _, ha⟩ := hp
  cases Except.ok.inj ha
  exact ⟨_, rfl, _, rfl, rfl⟩

/-! ### The claims on the schema coordinator -/

/-- C10 (evaluation of the code at a failing input): one namespace with a
complete one-partition view; the register holds `idx1` of table `t1` in `Init`
and the partition reports it in `Init`, so the index is advanced to `Building`
and `UpdateNamespaceSchema` is called once, in a pass that ends without panic.
The record handed over is the record read from the register: its payload still
decodes to `idx1` in `Init`, not `Building`. -/
theorem C10_update_carries_the_old_payload :
    advanceHsetIndexes sampleWorld.range
        (AList.singleton (0 : Int) (AList.singleton "t1"
          (some { HsetIndexes := [{ Name := "idx1", IndexField := "f1", State := InitIndex }],
                  JsonIndexes := [] })))
        "t1" [{ Name := "idx1", IndexField := "f1", State := InitIndex }]
      = some (true, [{ Name := "idx1", IndexField := "f1", State := BuildingIndex }]) ∧
    doSchemaCheck sampleWorld
      = { calls := [{ ns := "ns1", table := "t1",
                      schemaInfo := { Schema := payloadInit, Epoch := 7 } }],
          panicked := false } ∧
    sampleWorld.jsonUnmarshal payloadInit
      = some { HsetIndexes := [{ Name := "idx1", IndexField := "f1", State := InitIndex }],
               JsonIndexes := [] } :=
  ⟨rfl, rfl, rfl⟩

/-- C11 (evaluation of the code at a failing input): namespace `ns1` has a
complete one-partition view; the register holds tables `t1` and `t2`, each with
`idx1` in `Init`; the only partition answers `null` for `t1` and reports `idx1`
of `t2` in `Init`. So the condition of the claim holds for `t2`: its record
decodes, `idx1` is in `Init` and every partition reports it in `Init`. When the
loop over the tables visits `t1` first, the nil entry is dereferenced, the pass
panics and `UpdateNamespaceSchema` is not invoked for `t2`; when it visits `t2`
first, the call for `t2` is made and the pass panics on `t1` afterwards. -/
theorem C11_null_answer_aborts_the_pass :
    (∀ range, (nullAnswer range).allNamespaces = .ok (AList.singleton "ns1" nullAnswerParts)) ∧
    (∀ range, completeView (nullAnswer range) "ns1" nullAnswerParts) ∧
    (∀ range, ∃ schemas schemaInfo indexes,
      (nullAnswer range).namespaceSchemas "ns1" = .ok schemas ∧
      schemas.lookup "t2" = some schemaInfo ∧
      (nullAnswer range).jsonUnmarshal schemaInfo.Schema = some indexes ∧
      ∃ hindex ∈ indexes.HsetIndexes, hindex.State = InitIndex ∧
        everyPartitionReports (nullAnswer range) "ns1" nullAnswerParts "t2" hindex.Name
          InitIndex) ∧
    doSchemaCheck (nullAnswer RangeOrder.stored) = { calls := [], panicked := true } ∧
    doSchemaCheck (nullAnswer RangeOrder.backwards)
      = { calls := [{ ns := "ns1", table := "t2",
                      schemaInfo := { Schema := payloadInit, Epoch := 8 } }],
          panicked := true } :=
  ⟨fun _ => rfl, completeView_nullAnswer,
    fun range => ⟨_, { Schema := payloadInit, Epoch := 8 }, _, rfl, rfl, rfl,
      { Name := "idx1", IndexField := "f1", State := InitIndex }, List.mem_singleton.2 rfl, rfl,
      everyPartitionReports_nullAnswer range⟩,
    rfl, rfl⟩

/-- C12: in a `doSchemaCheck` pass, a namespace whose partition view is
incomplete (no partition observed, or a number of partitions other than the
expected one, or a partition with an empty replica list, or a failed schema
query to a partition's first replica) gets no `UpdateNamespaceSchema` call for
any of its tables, and the other namespaces are processed as if it were not
there: the pass is the pass over the other namespaces (same calls, same order,
same outcome), every call of the pass is a call of another namespace, and when
the pass ends without panic it makes exactly the calls that the other
namespaces give rise to. -/
theorem C12_incomplete_view_gets_no_update (w : World)
    (allNamespaces : GoMap (IntMap PartitionMetaInfo)) (ns : String)
    (parts : IntMap PartitionMetaInfo)
    (hall : w.allNamespaces = .ok allNamespaces)
    (hns : allNamespaces.lookup ns = some parts)
    (hbad : incompleteView w ns parts) :
    (∀ call ∈ (doSchemaCheck w).calls, call.ns ≠ ns) ∧
    doSchemaCheck w
      = checkNamespaces w
          ((w.range.order allNamespaces.entries).filter (fun e => decide (e.1 ≠ ns))) ∧
    (∀ call, call ∈ (doSchemaCheck w).calls →
      ∃ ns' parts', ns' ≠ ns ∧ allNamespaces.lookup ns' = some parts' ∧
        call ∈ (checkNamespace w ns' parts').calls) ∧
    ((doSchemaCheck w).panicked = false →
      ∀ call, call ∈ (doSchemaCheck w).calls ↔
        ∃ ns' parts', ns' ≠ ns ∧ allNamespaces.lookup ns' = some parts' ∧
          call ∈ (checkNamespace w ns' parts').calls) := by
  have hempty := checkNamespace_of_incompleteView w ns parts hbad
  have himp : ∀ call, call ∈ (doSchemaCheck w).calls →
      ∃ ns' parts', ns' ≠ ns ∧ allNamespaces.lookup ns' = some parts' ∧
        call ∈ (checkNamespace w ns' parts').calls := by
    intro call hmem
    obtain ⟨all', ns', parts', hall', hl', hc⟩ := mem_doSchemaCheck hmem
    rw [hall] at hall'
    cases Except.ok.inj hall'
    refine ⟨ns', parts', ?_, hl', hc⟩
    rintro rfl
    rw [hns] at hl'
    cases Option.some.inj hl'
    rw [hempty] at hc
    exact List.not_mem_nil _ hc
  refine ⟨?_, ?_, himp, ?_⟩
  · intro call hmem hcns
    obtain ⟨ns', parts', hne, _, hc⟩ := himp call hmem
    exact hne ((mem_checkNamespace_ns hc).symm.trans hcns)
  · unfold doSchemaCheck
    rw [hall]
    simp only
    apply checkNamespaces_filter
    intro e he hp
    obtain ⟨ns', parts'⟩ := e
    have hl : allNamespaces.lookup ns' = some parts' :=
      AList.mem_lookup_iff.2 ((w.range.perm _).mem_iff.1 he)
    have hns' : ns' = ns := by simpa using hp
    subst hns'
    rw [hns] at hl
    cases Option.some.inj hl
    exact hempty
  · intro hp call
    constructor
    · exact himp call
    · rintro ⟨ns', parts', _, hl', hc⟩
      exact mem_doSchemaCheck_of_not_panicked hp hall hl' hc

/-- Witness of C12: of two namespaces, `ns1` reports one partition where two are
expected and gets no call, while the call for `ns2` is made. -/
theorem C12_incomplete_view_gets_no_update_witness :
    (∀ call ∈ (doSchemaCheck twoNamespaces).calls, call.ns ≠ "ns1") ∧
    doSchemaCheck twoNamespaces
      = { calls := [{ ns := "ns2", table := "t1",
                      schemaInfo := { Schema := payloadInit, Epoch := 7 } }],
          panicked := false } :=
  ⟨(C12_incomplete_view_gets_no_update twoNamespaces _ "ns1"
      (AList.singleton (0 : Int) { PartitionNum := 2, RaftNodes := ["node1"] }) rfl rfl
      (Or.inr (Or.inl (by decide)))).1, rfl⟩

/-- C16 (evaluation of the code at a failing input): in the one-partition view
whose entry for `t1` is a nil pointer the partition has an entry for the table
and no index in the expected state, and `isAllPartsIndexSchemaReady` does not
return false: it dereferences the nil entry and panics. In the two-partition
view in which partition 0 holds a nil entry and partition 1 lacks the table, it
panics when partition 0 is visited first and returns false when partition 1 is
visited first. -/
theorem C16_nil_entry_panics :
    nilEntryView.lookup 0 = some (AList.singleton "t1" none) ∧
    ¬ allPartsReport nilEntryView "t1" "idx1" InitIndex ∧
    isAllPartsIndexSchemaReady RangeOrder.stored nilEntryView "t1" "idx1" InitIndex = none ∧
    isAllPartsIndexSchemaReady RangeOrder.backwards nilEntryView "t1" "idx1" InitIndex = none ∧
    (∃ partSchema, nilAndMissingView.lookup 1 = some partSchema ∧
      partSchema.lookup "t1" = none) ∧
    isAllPartsIndexSchemaReady RangeOrder.stored nilAndMissingView "t1" "idx1" InitIndex
      = none ∧
    isAllPartsIndexSchemaReady RangeOrder.backwards nilAndMissingView "t1" "idx1" InitIndex
      = some false := by
  refine ⟨rfl, ?_, rfl, rfl, ⟨_, rfl, rfl⟩, rfl, rfl⟩
  intro h
  obtain ⟨s, hs, _⟩ := h 0 _ rfl
  exact Option.noConfusion (Option.some.inj hs)

end pdnode_coord


namespace rockredis

/-! ### Lemmas on `LoadIndexes` -/

theorem loadTables_cons (self : IndexMgr) (db : RockDB) (env : LoadEnv) (t : String)
    (ts : List String) :
    self.loadTables db env (t :: ts) =
      match loadedContainer db env t with
      | none => self.loadTables db env ts
      | some indexes =>
        match env.unmarshalErr t with
        | some err => (self, some err)
        | none =>
          IndexMgr.loadTables { self with tableIndexes := self.tableIndexes.insert t indexes }
            db env ts := by
  rw [IndexMgr.loadTables]
  unfold loadedContainer RockDB.GetTableHsetIndexValue
    TableIndexContainer.unmarshalHsetIndexes NewIndexContainer
  cases env.getErr t with
  | some e => rfl
  | none =>
    cases db.hsetIndexValues.lookup t with
    | none => rfl
    | some d =>
      cases env.unmarshalErr t with
      | some e => rfl
      | none => rfl

/-- The table loop of a `LoadIndexes` that ends without error stores the
container built for every listed table that has a readable blob and leaves every
other entry of `tableIndexes`, and every other field of the manager, as it
was. -/
theorem loadTables_of_success (db : RockDB) (env : LoadEnv) :
    ∀ (ts : List String) (self : IndexMgr), (self.loadTables db env ts).2 = none →
      (∀ t, (self.loadTables db env ts).1.tableIndexes.lookup t =
        if t ∈ ts then (loadedContainer db env t).orElse (fun _ => self.tableIndexes.lookup t)
        else self.tableIndexes.lookup t) ∧
      (self.loadTables db env ts).1.closeChan = self.closeChan ∧
      (self.loadTables db env ts).1.indexBuildChan = self.indexBuildChan ∧
      (self.loadTables db env ts).1.workers = self.workers := by
  intro ts
  induction ts with
  | nil => intro self _; exact ⟨fun t => by simp [IndexMgr.loadTables], rfl, rfl, rfl⟩
  | cons t ts ih =>
    intro self hok
    rw [loadTables_cons] at hok ⊢
    cases hc : loadedContainer db env t with
    | none =>
      rw [hc] at hok
      simp only at hok ⊢
      obtain ⟨h1, h2⟩ := ih self hok
      refine ⟨?_, h2⟩
      intro t'
      rw [h1 t']
      by_cases heq : t' = t
      · subst heq
        simp [hc]
      · simp [heq]
    | some indexes =>
      rw [hc] at hok
      simp only at hok ⊢
      cases hu : env.unmarshalErr t with
      | some err => rw [hu] at hok; exact Option.noConfusion hok
      | none =>
        rw [hu] at hok
        simp only at hok ⊢
        obtain ⟨h1, h2⟩ := ih _ hok
        refine ⟨?_, h2⟩
        intro t'
        rw [h1 t']
        by_cases heq : t' = t
        · subst heq
          simp [hc, AList.lookup_insert]
        · simp [heq, AList.lookup_insert_ne heq]

theorem LoadIndexes_of_success (self : IndexMgr) (db : RockDB) (env : LoadEnv)
    (hok : (self.LoadIndexes db env).2 = none) :
    (self.loadTables db env (db.GetHsetIndexTables env.range)).2 = none ∧
    (self.LoadIndexes db env).1.tableIndexes
      = (self.loadTables db env (db.GetHsetIndexTables env.range)).1.tableIndexes := by
  unfold IndexMgr.LoadIndexes at hok ⊢
  cases hl : self.loadTables db env (db.GetHsetIndexTables env.range) with
  | mk self1 err =>
    rw [hl] at hok
    cases err with
    | some e => exact Option.noConfusion hok
    | none => exact ⟨rfl, IndexMgr.trySignalBuild_tableIndexes _⟩

theorem loadHsetIndexes_mem_of_mem (table : String) (l : List HsetIndexInfo) :
    ∀ (m : GoMap HsetIndex) (f : String), f ∈ m → f ∈ loadHsetIndexes table l m := by
  induction l with
  | nil => intro m f h; exact h
  | cons v vs ih =>
    intro m f h
    exact ih _ f ((AList.mem_insert m).2 (Or.inr h))

theorem loadHsetIndexes_mem_of_record (table : String) (l : List HsetIndexInfo) :
    ∀ (m : GoMap HsetIndex) (v : HsetIndexInfo), v ∈ l →
      v.IndexField ∈ loadHsetIndexes table l m := by
  induction l with
  | nil => intro m v h; simp at h
  | cons w ws ih =>
    intro m v h
    rcases List.mem_cons.1 h with rfl | hws
    · exact loadHsetIndexes_mem_of_mem table ws _ _ ((AList.mem_insert m).2 (Or.inl rfl))
    · exact ih _ v hws

theorem loadHsetIndexes_keyedFor (table : String) (l : List HsetIndexInfo) :
    TableIndexContainer.keyedFor
      { hsetIndexes := loadHsetIndexes table l ∅, jsonIndexes := ∅ } table := by
  intro field index hl
  rcases loadHsetIndexes_lookup_some table l ∅ field index hl with ⟨v, _, hf, hx⟩ | hemp
  · rw [hx]; exact ⟨hf, rfl⟩
  · exact Option.noConfusion hemp


theorem LoadIndexes_lookup (self : IndexMgr) (db : RockDB) (env : LoadEnv)
    (hok : (self.LoadIndexes db env).2 = none) (t : String) :
    (self.LoadIndexes db env).1.tableIndexes.lookup t =
      (loadedContainer db env t).orElse (fun _ => self.tableIndexes.lookup t) := by
  obtain ⟨hl, heq⟩ := LoadIndexes_of_success self db env hok
  rw [heq, (loadTables_of_success db env _ self hl).1 t]
  split
  · rfl
  · next hnot =>
    have hkeys : t ∉ db.hsetIndexValues.keys := fun h =>
      hnot ((env.range.perm db.hsetIndexValues.keys).mem_iff.2 h)
    have hnone : db.hsetIndexValues.lookup t = none := AList.lookup_eq_none.2 hkeys
    unfold loadedContainer
    cases env.getErr t <;> simp [hnone]

/-! ### The claims on `LoadIndexes` -/

/-- C15 (counterexample): `LoadIndexes` does not empty `tableIndexes` first.
A table registered by a failed `AddHsetIndex` has no blob and is still in the
map after a successful load; a definition held in memory survives a load from a
database without blobs, and a load in which its blob cannot be read. -/
theorem C15_load_keeps_what_it_does_not_read :
    sampleDB.hsetIndexValues.lookup "t1" = none ∧
    ((servingMgr.AddHsetIndex sampleDB sampleIndex CallEnv.writeFails).1.LoadIndexes sampleDB
      LoadEnv.ok).2 = none ∧
    ((servingMgr.AddHsetIndex sampleDB sampleIndex CallEnv.writeFails).1.LoadIndexes sampleDB
      LoadEnv.ok).1.tableIndexes.keys = ["t1"] ∧
    (added.1.LoadIndexes sampleDB LoadEnv.ok).2 = none ∧
    (added.1.LoadIndexes sampleDB LoadEnv.ok).1.GetHsetIndex "t1" "f1"
      = .ok (sampleIndex.setState InitIndex) ∧
    (added.1.LoadIndexes added.2.1 LoadEnv.readFails).2 = none ∧
    (added.1.LoadIndexes added.2.1 LoadEnv.readFails).1.GetHsetIndex "t1" "f1"
      = .ok (sampleIndex.setState InitIndex) :=
  ⟨rfl, rfl, rfl, rfl, rfl, rfl, rfl⟩

/-- C15 (amended): after a successful `LoadIndexes`, every table that has a
readable, non-nil persisted blob is mapped to a container rebuilt from scratch:
it holds exactly the definitions decoded from that blob, each one a record of
the blob stored under its index field with `Table` set to that table, and every
record's field has a definition. Every other table keeps the container it had
before the load. Hence, when the manager held no table before the load, its map
contains exactly the tables that have a readable, non-nil persisted blob. -/
theorem C15_load_rebuilds_the_tables_it_reads (self : IndexMgr) (db : RockDB) (env : LoadEnv)
    (hok : (self.LoadIndexes db env).2 = none) :
    (∀ t d, env.getErr t = none → db.hsetIndexValues.lookup t = some d →
      ∃ indexes, (self.LoadIndexes db env).1.tableIndexes.lookup t = some indexes ∧
        indexes.hsetIndexes = loadHsetIndexes t d.HsetIndexes ∅ ∧
        (∀ field index, indexes.hsetIndexes.lookup field = some index →
          index.Table = t ∧ index.IndexField = field ∧ index.info ∈ d.HsetIndexes) ∧
        (∀ v ∈ d.HsetIndexes, v.IndexField ∈ indexes.hsetIndexes)) ∧
    (∀ t, (env.getErr t ≠ none ∨ db.hsetIndexValues.lookup t = none) →
      (self.LoadIndexes db env).1.tableIndexes.lookup t = self.tableIndexes.lookup t) ∧
    (self.tableIndexes = ∅ →
      ∀ t, t ∈ (self.LoadIndexes db env).1.tableIndexes ↔
        (env.getErr t = none ∧ ∃ d, db.hsetIndexValues.lookup t = some d)) := by
  have hlook := LoadIndexes_lookup self db env hok
  have hread : ∀ t d, env.getErr t = none → db.hsetIndexValues.lookup t = some d →
      loadedContainer db env t
        = some { hsetIndexes := loadHsetIndexes t d.HsetIndexes ∅, jsonIndexes := ∅ } := by
    intro t d hg hd
    unfold loadedContainer
    rw [hg, hd]; rfl
  have hunread : ∀ t, (env.getErr t ≠ none ∨ db.hsetIndexValues.lookup t = none) →
      loadedContainer db env t = none := by
    intro t h
    unfold loadedContainer
    cases hg : env.getErr t with
    | some e => rfl
    | none =>
      rcases h with h | h
      · exact absurd hg h
      · rw [h]; rfl
  refine ⟨?_, ?_, ?_⟩
  · intro t d hg hd
    refine ⟨{ hsetIndexes := loadHsetIndexes t d.HsetIndexes ∅, jsonIndexes := ∅ }, ?_, rfl,
      ?_, ?_⟩
    · rw [hlook t, hread t d hg hd]; rfl
    · intro field index hl
      rcases loadHsetIndexes_lookup_some t _ ∅ field index hl with ⟨v, hv, hf, hx⟩ | hemp
      · rw [hx]; exact ⟨rfl, hf, hv⟩
      · exact Option.noConfusion hemp
    · intro v hv
      exact loadHsetIndexes_mem_of_record t _ ∅ v hv
  · intro t h
    rw [hlook t, hunread t h]; rfl
  · intro hempty t
    rw [← AList.lookup_isSome, hlook t, hempty]
    constructor
    · intro h
      cases hg : env.getErr t with
      | some e =>
        rw [hunread t (Or.inl (by rw [hg]; exact Option.noConfusion))] at h
        exact Bool.noConfusion h
      | none =>
        cases hd : db.hsetIndexValues.lookup t with
        | none =>
          rw [hunread t (Or.inr hd)] at h
          exact Bool.noConfusion h
        | some d => exact ⟨rfl, d, rfl⟩
    · rintro ⟨hg, d, hd⟩
      rw [hread t d hg hd]; rfl

/-- Witness of C15 (amended): a new manager loads the database written by the
sample `AddHsetIndex` and holds `(t1, f1)` in `Init` afterwards. -/
theorem C15_load_rebuilds_the_tables_it_reads_witness :
    (NewIndexMgr.LoadIndexes added.2.1 LoadEnv.ok).2 = none ∧
    (NewIndexMgr.LoadIndexes added.2.1 LoadEnv.ok).1.GetHsetIndex "t1" "f1"
      = .ok (sampleIndex.setState InitIndex) ∧
    (∀ t, t ∈ (NewIndexMgr.LoadIndexes added.2.1 LoadEnv.ok).1.tableIndexes ↔
      (LoadEnv.ok.getErr t = none ∧ ∃ d, added.2.1.hsetIndexValues.lookup t = some d)) :=
  ⟨rfl, rfl,
    (C15_load_rebuilds_the_tables_it_reads NewIndexMgr added.2.1 LoadEnv.ok rfl).2.2 rfl⟩


/-! ### Invariants of the reachable manager states -/

theorem loadTables_fields (db : RockDB) (env : LoadEnv) :
    ∀ (ts : List String) (self : IndexMgr),
      (self.loadTables db env ts).1.closeChan = self.closeChan ∧
      (self.loadTables db env ts).1.indexBuildChan = self.indexBuildChan ∧
      (self.loadTables db env ts).1.workers = self.workers := by
  intro ts
  induction ts with
  | nil => intro self; exact ⟨rfl, rfl, rfl⟩
  | cons t ts ih =>
    intro self
    rw [loadTables_cons]
    cases loadedContainer db env t with
    | none => exact ih self
    | some indexes =>
      cases env.unmarshalErr t with
      | some err => exact ⟨rfl, rfl, rfl⟩
      | none => exact ih _

theorem IndexMgr.trySignalBuild_le (self : IndexMgr)
    (h : self.indexBuildChan ≤ indexBuildChanCap) :
    self.trySignalBuild.indexBuildChan ≤ indexBuildChanCap ∧
      1 ≤ self.trySignalBuild.indexBuildChan := by
  unfold IndexMgr.trySignalBuild
  split
  · next hlt => exact ⟨hlt, Nat.succ_le_succ (Nat.zero_le _)⟩
  · next hge =>
    refine ⟨h, ?_⟩
    have : indexBuildChanCap ≤ self.indexBuildChan := Nat.le_of_not_lt hge
    exact Nat.le_trans (by decide) this

theorem LoadIndexes_indexBuildChan_le (self : IndexMgr) (db : RockDB) (env : LoadEnv)
    (h : self.indexBuildChan ≤ indexBuildChanCap) :
    (self.LoadIndexes db env).1.indexBuildChan ≤ indexBuildChanCap := by
  have hf := (loadTables_fields db env (db.GetHsetIndexTables env.range) self).2.1
  unfold IndexMgr.LoadIndexes
  cases hl : self.loadTables db env (db.GetHsetIndexTables env.range) with
  | mk self1 err =>
    rw [hl] at hf
    simp only at hf
    cases err with
    | some e => simp only; rw [hf]; exact h
    | none =>
      simp only
      apply (IndexMgr.trySignalBuild_le _ _).1
      show self1.indexBuildChan ≤ indexBuildChanCap
      rw [hf]; exact h

theorem AddHsetIndex_indexBuildChan (self : IndexMgr) (db : RockDB) (hindex : HsetIndex)
    (env : CallEnv) : (self.AddHsetIndex db hindex env).1.indexBuildChan = self.indexBuildChan := by
  cases hget : self.GetHsetIndex hindex.Table hindex.IndexField with
  | ok index => rw [AddHsetIndex_of_present self db hindex env index hget]
  | error e =>
    cases GetHsetIndex_error_eq hget
    rw [AddHsetIndex_of_absent self db hindex env hget]
    have hreg : (self.registered hindex.Table).indexBuildChan = self.indexBuildChan := by
      unfold IndexMgr.registered
      cases self.tableIndexes.lookup hindex.Table <;> rfl
    cases env.marshalErr with
    | some err => exact hreg
    | none =>
      cases env.setErr with
      | some err => exact hreg
      | none => exact hreg

theorem deleteHsetIndex_indexBuildChan (self : IndexMgr) (db : RockDB) (table field : String)
    (env : CallEnv) :
    (self.deleteHsetIndex db table field env).1.indexBuildChan = self.indexBuildChan := by
  unfold IndexMgr.deleteHsetIndex
  cases self.tableIndexes.lookup table with
  | none => rfl
  | some indexes =>
    simp only
    cases indexes.hsetIndexes.lookup field with
    | none => rfl
    | some hindex =>
      simp only
      split
      · rfl
      · simp only [TableIndexContainer.marshalHsetIndexes, RockDB.SetTableHsetIndexValue]
        cases env.marshalErr with
        | some err => rfl
        | none => cases env.setErr <;> rfl

/-- The paths of `UpdateHsetIndexState`: the call returns an error and the
manager as it was; or the definition already has the requested state and the
manager is returned as it was, without error; or the call returns no error, the
definition had another state, the new state is stored, and the manager is
otherwise unchanged but for the worker started for `Deleted` or the signal sent
for `Building`. -/
theorem UpdateHsetIndexState_cases (self : IndexMgr) (db : RockDB) (table field : String)
    (state : IndexState) (env : CallEnv) :
    ((self.UpdateHsetIndexState db table field state env).1 = self ∧
      ((self.UpdateHsetIndexState db table field state env).2.2 ≠ none ∨
        ∃ index, self.GetHsetIndex table field = .ok index ∧ index.State = state)) ∨
    ∃ indexes index, self.tableIndexes.lookup table = some indexes ∧
      indexes.hsetIndexes.lookup field = some index ∧ index.State ≠ state ∧
      (self.UpdateHsetIndexState db table field state env).2.2 = none ∧
      (self.UpdateHsetIndexState db table field state env).1.tableIndexes
        = (self.setContainer table (indexes.setIndex field (index.setState state))).tableIndexes ∧
      (self.UpdateHsetIndexState db table field state env).1.indexBuildChan
        = (if state = BuildingIndex then self.trySignalBuild.indexBuildChan
           else self.indexBuildChan) := by
  unfold IndexMgr.UpdateHsetIndexState
  cases ht : self.tableIndexes.lookup table with
  | none => exact Or.inl ⟨rfl, Or.inl (by simp)⟩
  | some indexes =>
    simp only
    by_cases hnil : self.closeChan = CloseChan.nil
    · simp only [hnil, decide_True, if_true]; exact Or.inl ⟨trivial, Or.inl (by simp)⟩
    · simp only [hnil, decide_False, Bool.false_eq_true, if_false]
      cases hf : indexes.hsetIndexes.lookup field with
      | none => exact Or.inl ⟨rfl, Or.inl (by simp)⟩
      | some index =>
        by_cases hs : index.State = state
        · simp only [hs, if_true]
          refine Or.inl ⟨trivial, Or.inr ⟨index, ?_, hs⟩⟩
          unfold IndexMgr.GetHsetIndex
          simp only [ht, hf]
        · have hback := TableIndexContainer.setIndex_restore hf state
          simp only [hs, if_false, TableIndexContainer.marshalHsetIndexes,
            RockDB.SetTableHsetIndexValue, hback, IndexMgr.setContainer_same ht]
          cases env.marshalErr with
          | some err => exact Or.inl ⟨rfl, Or.inl (by simp)⟩
          | none =>
            cases env.setErr with
            | some err => exact Or.inl ⟨rfl, Or.inl (by simp)⟩
            | none =>
              simp only
              refine Or.inr ⟨indexes, index, rfl, hf, hs, ?_⟩
              have hst : (index.setState state).State = state := rfl
              rw [hst]
              by_cases hd : state = DeletedIndex
              · subst hd
                simp only [if_true, reduceCtorEq, if_false]
                exact ⟨trivial, trivial, rfl⟩
              · by_cases hb : state = BuildingIndex
                · subst hb
                  simp only [reduceCtorEq, if_false, if_true]
                  refine ⟨trivial, IndexMgr.trySignalBuild_tableIndexes _, ?_⟩
                  unfold IndexMgr.trySignalBuild IndexMgr.setContainer
                  simp only
                  split <;> rfl
                · simp only [hd, hb, if_false]
                  exact ⟨trivial, trivial, rfl⟩

theorem step_indexBuildChan_le (s : IndexMgr × RockDB) (op : Op)
    (h : s.1.indexBuildChan ≤ indexBuildChanCap) :
    (step s op).1.indexBuildChan ≤ indexBuildChanCap := by
  cases op with
  | LoadIndexes env => exact LoadIndexes_indexBuildChan_le s.1 s.2 env h
  | Close => exact h
  | AddHsetIndex hindex env =>
    show (s.1.AddHsetIndex s.2 hindex env).1.indexBuildChan ≤ _
    rw [AddHsetIndex_indexBuildChan]; exact h
  | UpdateHsetIndexState table field state env =>
    show (s.1.UpdateHsetIndexState s.2 table field state env).1.indexBuildChan ≤ _
    rcases UpdateHsetIndexState_cases s.1 s.2 table field state env with
      ⟨heq, _⟩ | ⟨_, _, _, _, _, _, _, hch⟩
    · rw [heq]; exact h
    · rw [hch]
      split
      · exact (IndexMgr.trySignalBuild_le _ h).1
      · exact h
  | deleteHsetIndex table field env =>
    show (s.1.deleteHsetIndex s.2 table field env).1.indexBuildChan ≤ _
    rw [deleteHsetIndex_indexBuildChan]; exact h

theorem foldl_step_indexBuildChan_le (ops : List Op) :
    ∀ s : IndexMgr × RockDB, s.1.indexBuildChan ≤ indexBuildChanCap →
      (ops.foldl step s).1.indexBuildChan ≤ indexBuildChanCap := by
  induction ops with
  | nil => intro s h; exact h
  | cons op ops ih => intro s h; exact ih _ (step_indexBuildChan_le s op h)

/-- The number of pending build signals never exceeds the capacity of
`indexBuildChan` in a reachable state. -/
theorem run_indexBuildChan_le (db : RockDB) (ops : List Op) :
    (run db ops).1.indexBuildChan ≤ indexBuildChanCap :=
  foldl_step_indexBuildChan_le ops _ (Nat.zero_le _)


/-! ### The claim on the build trigger -/

/-- C18 (counterexample): after `LoadIndexes`, `AddHsetIndex` and one transition
of `(t1, f1)` into `Building`, with no builder loop receiving, two build signals
are pending; a second `LoadIndexes` instead of the transition gives two as
well. -/
theorem C18_two_signals_pending :
    (run sampleDB [Op.LoadIndexes LoadEnv.ok]).1.indexBuildChan = 1 ∧
    (run sampleDB [Op.LoadIndexes LoadEnv.ok, Op.AddHsetIndex sampleIndex CallEnv.ok,
      Op.UpdateHsetIndexState "t1" "f1" BuildingIndex CallEnv.ok]).1.indexBuildChan = 2 ∧
    (run sampleDB [Op.LoadIndexes LoadEnv.ok, Op.LoadIndexes LoadEnv.ok]).1.indexBuildChan
      = 2 :=
  ⟨rfl, rfl, rfl⟩

/-- C18 (amended): the build trigger is a buffered signal of capacity 10: in
every state reached from a new manager by any sequence of calls, with no
builder loop receiving, the number of pending build signals is at most 10; and
after a transition of a definition into `Building` it is at least one (and
still at most 10). -/
theorem C18_pending_signals_within_capacity (db : RockDB) (ops : List Op) :
    indexBuildChanCap = 10 ∧
    (run db ops).1.indexBuildChan ≤ indexBuildChanCap ∧
    ∀ (table field : String) (env : CallEnv) (index : HsetIndex),
      (run db ops).1.GetHsetIndex table field = .ok index → index.State ≠ BuildingIndex →
      ((run db ops).1.UpdateHsetIndexState (run db ops).2 table field BuildingIndex env).2.2
        = none →
      1 ≤ ((run db ops).1.UpdateHsetIndexState (run db ops).2 table field BuildingIndex
        env).1.indexBuildChan ∧
      ((run db ops).1.UpdateHsetIndexState (run db ops).2 table field BuildingIndex
        env).1.indexBuildChan ≤ indexBuildChanCap := by
  have hle := run_indexBuildChan_le db ops
  refine ⟨rfl, hle, ?_⟩
  intro table field env index hget hne hok
  rcases UpdateHsetIndexState_cases (run db ops).1 (run db ops).2 table field BuildingIndex env
    with ⟨_, herr | ⟨index', hget', hst⟩⟩ | ⟨_, _, _, _, _, _, _, hch⟩
  · exact absurd hok herr
  · rw [hget] at hget'
    cases Except.ok.inj hget'
    exact absurd hst hne
  · rw [hch, if_pos rfl]
    exact ⟨(IndexMgr.trySignalBuild_le _ hle).2, (IndexMgr.trySignalBuild_le _ hle).1⟩

/-- Witness of C18 (amended): the transition of `(t1, f1)` from `Init` into
`Building` on the serving sample manager. -/
theorem C18_pending_signals_within_capacity_witness :
    1 ≤ ((run sampleDB [Op.LoadIndexes LoadEnv.ok,
        Op.AddHsetIndex sampleIndex CallEnv.ok]).1.UpdateHsetIndexState
      (run sampleDB [Op.LoadIndexes LoadEnv.ok, Op.AddHsetIndex sampleIndex CallEnv.ok]).2
      "t1" "f1" BuildingIndex CallEnv.ok).1.indexBuildChan ∧
    ((run sampleDB [Op.LoadIndexes LoadEnv.ok,
        Op.AddHsetIndex sampleIndex CallEnv.ok]).1.UpdateHsetIndexState
      (run sampleDB [Op.LoadIndexes LoadEnv.ok, Op.AddHsetIndex sampleIndex CallEnv.ok]).2
      "t1" "f1" BuildingIndex CallEnv.ok).1.indexBuildChan ≤ indexBuildChanCap :=
  (C18_pending_signals_within_capacity sampleDB
    [Op.LoadIndexes LoadEnv.ok, Op.AddHsetIndex sampleIndex CallEnv.ok]).2.2
    "t1" "f1" CallEnv.ok (sampleIndex.setState InitIndex) rfl (by decide) rfl


/-! ### The keying invariant -/

theorem IndexMgr.keyed_of_tableIndexes {a b : IndexMgr} (h : a.tableIndexes = b.tableIndexes)
    (hb : b.keyed) : a.keyed := by
  unfold IndexMgr.keyed at hb ⊢
  rw [h]; exact hb

theorem IndexMgr.keyed_setContainer {self : IndexMgr} {table : String}
    {indexes : TableIndexContainer} (hk : self.keyed) (hi : indexes.keyedFor table) :
    (self.setContainer table indexes).keyed := by
  intro t c hl
  by_cases ht : t = table
  · subst ht
    by_cases hmem : t ∈ self.tableIndexes
    · have hl' : some indexes = some c := (GoMap.lookup_replace_self hmem).symm.trans hl
      cases Option.some.inj hl'
      exact hi
    · have hl' : (self.tableIndexes.replace t indexes).lookup t = some c := hl
      have hnot : t ∉ self.tableIndexes.replace t indexes := fun h => hmem (AList.mem_replace.1 h)
      rw [AList.lookup_eq_none.2 hnot] at hl'
      exact Option.noConfusion hl'
  · exact hk t c ((GoMap.lookup_replace_ne ht).symm.trans hl)

theorem IndexMgr.keyed_insert {self : IndexMgr} {table : String}
    {indexes : TableIndexContainer} (hk : self.keyed) (hi : indexes.keyedFor table) :
    IndexMgr.keyed { self with tableIndexes := self.tableIndexes.insert table indexes } := by
  intro t c hl
  by_cases ht : t = table
  · subst ht
    have hl' : some indexes = some c := (AList.lookup_insert _).symm.trans hl
    cases Option.some.inj hl'
    exact hi
  · exact hk t c ((AList.lookup_insert_ne ht).symm.trans hl)

theorem NewIndexContainer_keyedFor (table : String) : NewIndexContainer.keyedFor table := by
  intro field index hl
  exact Option.noConfusion hl

theorem NewIndexMgr_keyed : NewIndexMgr.keyed := by
  intro t c hl
  exact Option.noConfusion hl

theorem IndexMgr.keyed_registered {self : IndexMgr} (hk : self.keyed) (table : String) :
    (self.registered table).keyed := by
  unfold IndexMgr.registered
  cases self.tableIndexes.lookup table with
  | some c => exact hk
  | none => exact IndexMgr.keyed_insert hk (NewIndexContainer_keyedFor table)

theorem loadedContainer_keyedFor {db : RockDB} {env : LoadEnv} {t : String}
    {indexes : TableIndexContainer} (h : loadedContainer db env t = some indexes) :
    indexes.keyedFor t := by
  unfold loadedContainer at h
  cases hg : env.getErr t with
  | some e => rw [hg] at h; exact Option.noConfusion h
  | none =>
    rw [hg] at h
    cases hd : db.hsetIndexValues.lookup t with
    | none => rw [hd] at h; exact Option.noConfusion h
    | some d =>
      rw [hd] at h
      cases Option.some.inj h
      exact loadHsetIndexes_keyedFor t d.HsetIndexes

theorem loadTables_keyed (db : RockDB) (env : LoadEnv) :
    ∀ (ts : List String) (self : IndexMgr), self.keyed → (self.loadTables db env ts).1.keyed := by
  intro ts
  induction ts with
  | nil => intro self hk; exact hk
  | cons t ts ih =>
    intro self hk
    rw [loadTables_cons]
    cases hc : loadedContainer db env t with
    | none => exact ih self hk
    | some indexes =>
      cases env.unmarshalErr t with
      | some err => exact hk
      | none => exact ih _ (IndexMgr.keyed_insert hk (loadedContainer_keyedFor hc))

theorem LoadIndexes_keyed (self : IndexMgr) (db : RockDB) (env : LoadEnv) (hk : self.keyed) :
    (self.LoadIndexes db env).1.keyed := by
  have h := loadTables_keyed db env (db.GetHsetIndexTables env.range) self hk
  unfold IndexMgr.LoadIndexes
  cases hl : self.loadTables db env (db.GetHsetIndexTables env.range) with
  | mk self1 err =>
    rw [hl] at h
    cases err with
    | some e => exact h
    | none => exact IndexMgr.keyed_of_tableIndexes (IndexMgr.trySignalBuild_tableIndexes _) h

theorem AddHsetIndex_keyed (self : IndexMgr) (db : RockDB) (hindex : HsetIndex) (env : CallEnv)
    (hk : self.keyed) : (self.AddHsetIndex db hindex env).1.keyed := by
  cases hget : self.GetHsetIndex hindex.Table hindex.IndexField with
  | ok index => rw [AddHsetIndex_of_present self db hindex env index hget]; exact hk
  | error e =>
    cases GetHsetIndex_error_eq hget
    rw [AddHsetIndex_of_absent self db hindex env hget]
    have hreg := IndexMgr.keyed_registered hk hindex.Table
    cases env.marshalErr with
    | some err => exact hreg
    | none =>
      cases env.setErr with
      | some err => exact hreg
      | none =>
        refine IndexMgr.keyed_setContainer hreg ?_
        have hc : (self.containerOf hindex.Table).keyedFor hindex.Table :=
          hreg _ _ (self.registered_lookup hindex.Table)
        intro field index hl
        by_cases hf : field = hindex.IndexField
        · subst hf
          have hl' : some (hindex.setState InitIndex) = some index :=
            (AList.lookup_insert _).symm.trans hl
          cases Option.some.inj hl'
          exact ⟨rfl, rfl⟩
        · exact hc field index ((AList.lookup_insert_ne hf).symm.trans hl)

theorem UpdateHsetIndexState_keyed (self : IndexMgr) (db : RockDB) (table field : String)
    (state : IndexState) (env : CallEnv) (hk : self.keyed) :
    (self.UpdateHsetIndexState db table field state env).1.keyed := by
  rcases UpdateHsetIndexState_cases self db table field state env with
    ⟨heq, _⟩ | ⟨indexes, index, ht, hf, _, _, hti, _⟩
  · rw [heq]; exact hk
  · refine IndexMgr.keyed_of_tableIndexes hti (IndexMgr.keyed_setContainer hk ?_)
    have hc := hk table indexes ht
    intro f i hl
    by_cases hff : f = field
    · subst hff
      have hl' : some (index.setState state) = some i :=
        (GoMap.lookup_replace_self (GoMap.mem_of_lookup hf)).symm.trans hl
      cases Option.some.inj hl'
      exact hc f index hf
    · exact hc f i ((GoMap.lookup_replace_ne hff).symm.trans hl)

theorem deleteHsetIndex_keyed (self : IndexMgr) (db : RockDB) (table field : String)
    (env : CallEnv) (hk : self.keyed) : (self.deleteHsetIndex db table field env).1.keyed := by
  have herase : ∀ indexes, self.tableIndexes.lookup table = some indexes →
      (self.setContainer table
        { indexes with hsetIndexes := indexes.hsetIndexes.erase field }).keyed := by
    intro indexes ht
    refine IndexMgr.keyed_setContainer hk ?_
    have hc := hk table indexes ht
    intro f i hl
    by_cases hff : f = field
    · subst hff
      have hl' : (indexes.hsetIndexes.erase f).lookup f = some i := hl
      rw [AList.lookup_erase] at hl'
      exact Option.noConfusion hl'
    · exact hc f i ((AList.lookup_erase_ne hff).symm.trans hl)
  unfold IndexMgr.deleteHsetIndex
  cases ht : self.tableIndexes.lookup table with
  | none => exact hk
  | some indexes =>
    simp only
    cases indexes.hsetIndexes.lookup field with
    | none => exact hk
    | some hindex =>
      simp only
      split
      · exact hk
      · simp only [TableIndexContainer.marshalHsetIndexes, RockDB.SetTableHsetIndexValue]
        cases env.marshalErr with
        | some err => exact herase indexes ht
        | none =>
          cases env.setErr with
          | some err => exact herase indexes ht
          | none => exact herase indexes ht

theorem step_keyed (s : IndexMgr × RockDB) (op : Op) (hk : s.1.keyed) : (step s op).1.keyed := by
  cases op with
  | LoadIndexes env => exact LoadIndexes_keyed s.1 s.2 env hk
  | Close =>
    intro t c hl
    exact Option.noConfusion hl
  | AddHsetIndex hindex env => exact AddHsetIndex_keyed s.1 s.2 hindex env hk
  | UpdateHsetIndexState table field state env =>
    exact UpdateHsetIndexState_keyed s.1 s.2 table field state env hk
  | deleteHsetIndex table field env => exact deleteHsetIndex_keyed s.1 s.2 table field env hk

theorem foldl_step_keyed (ops : List Op) :
    ∀ s : IndexMgr × RockDB, s.1.keyed → (ops.foldl step s).1.keyed := by
  induction ops with
  | nil => intro s h; exact h
  | cons op ops ih => intro s h; exact ih _ (step_keyed s op h)

/-- Every reachable manager state is keyed. -/
theorem run_keyed (db : RockDB) (ops : List Op) : (run db ops).1.keyed :=
  foldl_step_keyed ops _ NewIndexMgr_keyed

/-- C20: in every state reached from a new manager, over any database, by any
sequence of `LoadIndexes` (which decodes blobs with `unmarshalHsetIndexes`),
`Close`, `AddHsetIndex`, `UpdateHsetIndexState` and `deleteHsetIndex` calls,
whatever their outcomes, a definition returned by `GetHsetIndex(T, f)` (that is,
stored in the container of `T` under key `f`) has `Table` equal to `T` and
`IndexField` equal to `f`; so a definition of that table and field is found
under no other table or key, and it is that same definition. -/
theorem C20_keying_invariant (db : RockDB) (ops : List Op) (table field : String)
    (index : HsetIndex) (hget : (run db ops).1.GetHsetIndex table field = .ok index) :
    index.Table = table ∧ index.IndexField = field ∧
    ∀ (table' field' : String) (index' : HsetIndex),
      (run db ops).1.GetHsetIndex table' field' = .ok index' →
      index'.Table = index.Table → index'.IndexField = index.IndexField →
      table' = table ∧ field' = field ∧ index' = index := by
  have hk := run_keyed db ops
  have hkey : ∀ (t f : String) (i : HsetIndex), (run db ops).1.GetHsetIndex t f = .ok i →
      i.Table = t ∧ i.IndexField = f := by
    intro t f i h
    obtain ⟨indexes, ht, hf⟩ := IndexMgr.GetHsetIndex_eq_ok h
    exact ⟨(hk t indexes ht f i hf).2, (hk t indexes ht f i hf).1⟩
  obtain ⟨h1, h2⟩ := hkey table field index hget
  refine ⟨h1, h2, ?_⟩
  intro table' field' index' hget' hT hF
  obtain ⟨h1', h2'⟩ := hkey table' field' index' hget'
  have ht : table' = table := by rw [← h1', hT, h1]
  have hf : field' = field := by rw [← h2', hF, h2]
  subst ht hf
  rw [hget] at hget'
  exact ⟨rfl, rfl, (Except.ok.inj hget').symm⟩

/-- Witness of C20: the serving sample manager after `AddHsetIndex` of
`(t1, f1)` and its transition into `Building`. -/
theorem C20_keying_invariant_witness :
    (run sampleDB [Op.LoadIndexes LoadEnv.ok, Op.AddHsetIndex sampleIndex CallEnv.ok,
      Op.UpdateHsetIndexState "t1" "f1" BuildingIndex CallEnv.ok]).1.GetHsetIndex "t1" "f1"
      = .ok (sampleIndex.setState BuildingIndex) ∧
    (sampleIndex.setState BuildingIndex).Table = "t1" ∧
    (sampleIndex.setState BuildingIndex).IndexField = "f1" :=
  have h := C20_keying_invariant sampleDB
    [Op.LoadIndexes LoadEnv.ok, Op.AddHsetIndex sampleIndex CallEnv.ok,
      Op.UpdateHsetIndexState "t1" "f1" BuildingIndex CallEnv.ok]
    "t1" "f1" (sampleIndex.setState BuildingIndex) rfl
  ⟨rfl, h.1, h.2.1⟩

end rockredis

namespace rockredis

/-! ### The claims on the background builder -/

/-- Once the cursor stands on the last key of `onlyTableKeys`, every further
block is empty and leaves the cursor where it is: the loop never breaks. -/
theorem scanLoop_onlyTableKeys_runs_on (fuel : Nat) :
    ∀ s : ScanState, s.cursor = "t1:b" → scanLoop onlyTableKeys "t1" fuel s = none := by
  induction fuel with
  | zero => intro s _; rfl
  | succ n ih =>
    intro s hs
    have hblock : scanBlock onlyTableKeys "t1" s
        = (false, none,
          { cursor := "t1:b", batches := s.batches ++ [[]], blocks := s.blocks + 1 }) := by
      obtain ⟨cursor, batches, blocks⟩ := s
      simp only at hs
      subst hs
      rfl
    rw [scanLoop, hblock]
    exact ih _ rfl

/-- C13 (evaluation of the code at a failing input): the key set holds the two
rows of table `t1` and nothing after them; `Scan` returns at most 1000 keys
strictly after the cursor, in ascending order, nothing fails and the stop
signal never fires. The first block hands over both rows and leaves the cursor
on the last one; the next fetched block is empty, and the loop body then
returns `done = false` with the cursor unchanged, so the scan has not completed
after any number of blocks. With a row of another table after them the same
scan completes in one block. -/
theorem C13_scan_does_not_complete_on_empty_block :
    scanBlock onlyTableKeys "t1" { cursor := "t1:", batches := [], blocks := 0 }
      = (false, none, { cursor := "t1:b", batches := [["t1:a", "t1:b"]], blocks := 1 }) ∧
    onlyTableKeys.Scan 1 "t1:b" 1000 = .ok [] ∧
    scanBlock onlyTableKeys "t1" { cursor := "t1:b", batches := [["t1:a", "t1:b"]], blocks := 1 }
      = (false, none,
        { cursor := "t1:b", batches := [["t1:a", "t1:b"], []], blocks := 2 }) ∧
    (∀ fuel, scanTable onlyTableKeys "t1" fuel = none) ∧
    scanTable (ScanEnv.quiet ["t1:a", "t1:b", "t2:c"] 1000) "t1" 1
      = some (none, { cursor := "", batches := [["t1:a", "t1:b"]], blocks := 1 }) := by
  refine ⟨rfl, rfl, rfl, ?_, rfl⟩
  intro fuel
  cases fuel with
  | zero => rfl
  | succ n =>
    have hfirst : scanBlock onlyTableKeys "t1" { cursor := "t1" ++ ":", batches := [], blocks := 0 }
        = (false, none, { cursor := "t1:b", batches := [["t1:a", "t1:b"]], blocks := 1 }) := rfl
    rw [scanTable, scanLoop, hfirst]
    exact scanLoop_onlyTableKeys_runs_on n _ rfl

/-- C14 (evaluation of the code at a failing input): the key set holds a row of
`t1`, a row of table `t1a` and a row of `t2`. The scan of `t1` starts at the
cursor `t1:` but tests rows against the prefix `t1`, without the separator: the
row `t1a:b` of table `t1a` is handed to the index-entry writer as a row of
`t1`. On five rows of `t1` followed by a row of `t2`, in blocks of two, the
rows are handed over once each, in order, in blocks of 2, 2 and 1. -/
theorem C14_scan_hands_over_a_row_of_another_table :
    scanTable neighbourTableKeys "t1" 1
      = some (none, { cursor := "", batches := [["t1:a", "t1a:b"]], blocks := 1 }) ∧
    ("t1:".data.isPrefixOf "t1a:b".data) = false ∧
    scanTable fiveRowsKeys "t1" 3
      = some (none,
        { cursor := "",
          batches := [["t1:a", "t1:b"], ["t1:c", "t1:d"], ["t1:e"]], blocks := 3 }) :=
  ⟨rfl, rfl, rfl⟩

/-- C17 (evaluation of the code at a failing input): table `t1` has `f1` in
`Building`, table `t2` has only `f2` in `Init`. One task is expected, for `t1`
with field `f1`. `dobuildIndexes` starts a task for `t2` as well: with an empty
field list when `t2` is ranged over first, and with field `f1` of `t1` when it
is ranged over after `t1`. -/
theorem C17_task_for_every_table_with_carried_fields :
    twoTables.1.GetHsetIndex "t1" "f1" = .ok (sampleIndex.setState BuildingIndex) ∧
    twoTables.1.GetHsetIndex "t2" "f2"
      = .ok { Table := "t2",
              info := { Name := "idx2", IndexField := "f2", State := InitIndex } } ∧
    expectedTasks twoTables.1 RangeOrder.stored = [{ buildTable := "t1", fields := ["f1"] }] ∧
    expectedTasks twoTables.1 RangeOrder.backwards
      = [{ buildTable := "t1", fields := ["f1"] }] ∧
    twoTables.1.dobuildIndexes RangeOrder.stored
      = [{ buildTable := "t2", fields := [] }, { buildTable := "t1", fields := ["f1"] }] ∧
    twoTables.1.dobuildIndexes RangeOrder.backwards
      = [{ buildTable := "t1", fields := ["f1"] }, { buildTable := "t2", fields := ["f1"] }] :=
  ⟨rfl, rfl, rfl, rfl, rfl, rfl⟩

end rockredis

namespace data_tool

/-! ### Expire-time keys of the data tool -/

theorem expEncodeTimeKey_layout (ExpTimeType dataType : Nat) (key : List Nat) (when : Int) :
    expEncodeTimeKey ExpTimeType dataType key when
      = ExpTimeType :: (bigEndian8 (toUint64 when) ++ dataType :: key) := by
  have hlen : key.length + 1 + 8 + 1 = 10 + key.length := by omega
  unfold expEncodeTimeKey putUint64At copyAt bigEndian8
  simp only [hlen, List.replicate_add]
  simp [List.replicate, List.set]
  omega

theorem uint64_bigEndian8 (v : Nat) (hv : v < 2 ^ 64) (rest : List Nat) :
    uint64 (bigEndian8 v ++ rest) = v := by
  unfold uint64 bigEndian8
  simp only [List.cons_append, List.getD_cons_zero, List.getD_cons_succ]
  omega

theorem toInt64_toUint64 (when : Int) (h1 : -2 ^ 63 ≤ when) (h2 : when < 2 ^ 63) :
    toInt64 (toUint64 when) = when := by
  unfold toInt64 toUint64
  split <;> omega

theorem toUint64_lt (when : Int) : toUint64 when < 2 ^ 64 := by
  unfold toUint64
  omega


theorem expDecodeTimeKey_error_iff (ExpTimeType : Nat) (tk : List Nat) :
    expDecodeTimeKey ExpTimeType tk = .error errExpTimeKey ↔
      (tk.length < 10 ∨ tk.head? ≠ some ExpTimeType) := by
  unfold expDecodeTimeKey
  cases tk with
  | nil => simp
  | cons a rest =>
    simp only [Nat.zero_add, List.getD_cons_zero, List.head?_cons, ne_eq, Option.some.injEq,
      gt_iff_lt]
    by_cases h : 10 > (a :: rest).length ∨ ¬ a = ExpTimeType
    · simp only [gt_iff_lt] at h
      simp only [h, if_true]
    · have h' : ¬ ((a :: rest).length < 10 ∨ ¬ a = ExpTimeType) := h
      simp only [h', if_false]
      simp

/-- C19: for every data type byte, every key (the empty key included) and every
64-bit signed expiry time, `expEncodeTimeKey` produces a buffer of length
`len(key) + 10` laid out as the type marker, the eight bytes of the time most
significant first, the data type and the key; `expDecodeTimeKey` of that buffer
returns the same data type, key and time with no error; and `expDecodeTimeKey`
returns `errExpTimeKey` exactly when its input is shorter than 10 bytes or does
not start with the type marker. -/
theorem C19_expire_time_key_round_trip (ExpTimeType dataType : Nat) (key : List Nat)
    (when : Int) (hlo : -2 ^ 63 ≤ when) (hhi : when < 2 ^ 63) :
    (expEncodeTimeKey ExpTimeType dataType key when).length = key.length + 10 ∧
    expEncodeTimeKey ExpTimeType dataType key when
      = ExpTimeType :: (bigEndian8 (toUint64 when) ++ dataType :: key) ∧
    expDecodeTimeKey ExpTimeType (expEncodeTimeKey ExpTimeType dataType key when)
      = .ok (dataType, key, when) ∧
    ∀ tk, expDecodeTimeKey ExpTimeType tk = .error errExpTimeKey ↔
      (tk.length < 10 ∨ tk.head? ≠ some ExpTimeType) := by
  have hlayout := expEncodeTimeKey_layout ExpTimeType dataType key when
  refine ⟨?_, hlayout, ?_, expDecodeTimeKey_error_iff ExpTimeType⟩
  · rw [hlayout]
    simp [bigEndian8]
  · rw [hlayout]
    have hlen : ¬ (0 + 10 > (ExpTimeType :: (bigEndian8 (toUint64 when) ++ dataType :: key)).length
        ∨ (ExpTimeType :: (bigEndian8 (toUint64 when) ++ dataType :: key)).getD 0 0
          ≠ ExpTimeType) := by
      simp [bigEndian8]
    unfold expDecodeTimeKey
    simp only [hlen, if_false]
    have h9 : (ExpTimeType :: (bigEndian8 (toUint64 when) ++ dataType :: key)).getD (0 + 9) 0
        = dataType := by simp [bigEndian8]
    have h10 : (ExpTimeType :: (bigEndian8 (toUint64 when) ++ dataType :: key)).drop (0 + 10)
        = key := by simp [bigEndian8]
    have h1 : (ExpTimeType :: (bigEndian8 (toUint64 when) ++ dataType :: key)).drop (0 + 1)
        = bigEndian8 (toUint64 when) ++ dataType :: key := by simp
    rw [h9, h10, h1, uint64_bigEndian8 _ (toUint64_lt when), toInt64_toUint64 when hlo hhi]

/-- Witness of C19: the key `[1, 2, 3]` of data type 4 with expiry time `-2`
under the marker 103, and the empty key with the largest expiry time. -/
theorem C19_expire_time_key_round_trip_witness :
    expEncodeTimeKey 103 4 [1, 2, 3] (-2)
      = [103, 255, 255, 255, 255, 255, 255, 255, 254, 4, 1, 2, 3] ∧
    expDecodeTimeKey 103 (expEncodeTimeKey 103 4 [1, 2, 3] (-2)) = .ok (4, [1, 2, 3], -2) ∧
    expDecodeTimeKey 103 (expEncodeTimeKey 103 4 [] (2 ^ 63 - 1))
      = .ok (4, [], 2 ^ 63 - 1) :=
  ⟨by decide,
    (C19_expire_time_key_round_trip 103 4 [1, 2, 3] (-2) (by decide) (by decide)).2.2.1,
    (C19_expire_time_key_round_trip 103 4 [] (2 ^ 63 - 1) (by decide) (by decide)).2.2.1⟩

end data_tool

